/-
Verification of the TANE functional-dependency miner (tane.py).

The Python source is shallowly embedded below: the stripped-partition
algebra (class PPattern), the level-scoped partition cache (class
PartitionsManager), the lazily-memoized closure tracker (class rdict),
and the TANE driver (class TANE) with its procedures
compute_dependencies, prune, generate_next_level and run.

Python dictionaries are modelled as association lists, Python sets of
row indices as Finset Nat, attribute tuples as sorted lists of Nat, and
every dictionary access that can raise (KeyError on a missing key,
TypeError on subscripting None or on reduce over an empty sequence) is
modelled as an Except error.  The code is embedded with Python 3
semantics; in particular the expression
  map(self.Cplus[X].remove, filter(lambda i: i not in X, self.Cplus[X]))
in compute_dependencies builds a lazy iterator that is never consumed,
so it mutates nothing, and the embedding faithfully omits it.

Where iteration order over a Python set or dict is unobservable in the
final data (which it is for every collection iterated here), the
embedding fixes a canonical order.
-/
import Mathlib

namespace Tane

/-! ### Association lists (model of Python dict) -/

/-- Dictionary lookup. -/
def alook {α β : Type} [DecidableEq α] : List (α × β) → α → Option β
  | [], _ => none
  | (k, v) :: rest, key => if key = k then some v else alook rest key

/-- Dictionary assignment `d[key] = v` (insert or replace). -/
def aset {α β : Type} [DecidableEq α] (l : List (α × β)) (key : α) (v : β) :
    List (α × β) :=
  (key, v) :: l.filter (fun p => decide (p.1 ≠ key))

/-- Dictionary deletion `del d[key]`. -/
def adel {α β : Type} [DecidableEq α] (l : List (α × β)) (key : α) :
    List (α × β) :=
  l.filter (fun p => decide (p.1 ≠ key))

/-! ### Basic types -/

/-- An attribute tuple, as in the Python tuples of column indices. -/
abbrev Attrs := List Nat

/-- A stripped partition: a list of (non-singleton) classes of row indices. -/
abbrev Partn := List (Finset Nat)

/-- One level of the partition cache: attribute tuple to partition. -/
abbrev LvlMap := List (Attrs × Partn)

/-- The cache: level number to either None (level 0 slot) or a level map. -/
abbrev Cache := List (Nat × Option LvlMap)

/-- The Cplus tracker (class rdict): attribute tuple to candidate set. -/
abbrev CplusMap := List (Attrs × Finset Nat)

/-- A reported rule (LHS, y). -/
abbrev Rule := Attrs × Nat

/-- Runtime failures of the Python code: an uncaught KeyError/TypeError
(modelled together), or exhaustion of the fuel used to drive the
embedding of the unbounded `while` loop. -/
inductive TErr where
  | keyError : TErr
  | noFuel : TErr
deriving DecidableEq, Repr

/-- The mutable state of a TANE object: rules found so far, the partition
cache with its current level counter, and the Cplus tracker. -/
structure TState where
  rules : List Rule
  cache : Cache
  curLevel : Nat
  cplus : CplusMap

/-! ### PPattern: the stripped partition algebra -/

/-- Procedure STRIPPED_PRODUCT (PPattern.intersection): the two-pass T/S
loop appends, while scanning each class b of desc2, exactly the sets
a ∩ b of size > 1 for classes a of desc1; the embedding produces the
same classes, per class of desc2, in a canonical inner order. -/
def PPattern.intersection (desc1 desc2 : Partn) : Partn :=
  desc2.flatMap (fun b => (desc1.map (fun a => a ∩ b)).filter (fun c => decide (1 < c.card)))

/-- Modelled from the spec: PPattern.leq comes from the external fca
library (TrimmedPartitionPattern); the spec defines the refinement test
as: every class of the left partition is wholly contained in some single
class of the right partition. -/
def PPattern.leq (left right : Partn) : Bool :=
  left.all (fun c => right.any (fun d => decide (c ⊆ d)))

/-! ### The input table -/

/-- The value of row r at attribute a (0 outside the table, which no
reachable access performs on a rectangular relation). -/
def cell (rows : List (List Nat)) (r a : Nat) : Nat :=
  (rows.getD r []).getD a 0

/-- Modelled from the spec where it exceeds read_db: read_db groups row
indices by equal value per attribute (in order of first occurrence of
the value) and the external PPattern.fix_desc then discards groups of
size 1, per the spec's construction of a stripped partition. -/
def colClasses (rows : List (List Nat)) (i : Nat) : Partn :=
  let N := rows.length
  let vals := (List.range N).map (fun r => cell rows r i)
  (vals.dedup.map (fun v => (Finset.range N).filter (fun r => cell rows r i = v))).filter
    (fun c => decide (1 < c.card))

/-- The per-attribute stripped partitions handed to TANE by read_db. -/
def buildT (rows : List (List Nat)) : List Partn :=
  (List.range (rows.headD []).length).map (colClasses rows)

/-! ### rdict: the recursive Cplus dictionary -/

/-- reduce(set.intersection, vals): left fold of intersection over a
non-empty list; Python's reduce raises on an empty sequence. -/
def reduceInter : List (Finset Nat) → Except TErr (Finset Nat)
  | [] => Except.error TErr.keyError
  | v :: vs => Except.ok (vs.foldl (· ∩ ·) v)

/-- Error propagation (Python exception propagation). -/
def exbind {α β : Type} (x : Except TErr α) (f : α → Except TErr β) : Except TErr β :=
  match x with
  | Except.error e => Except.error e
  | Except.ok a => f a

/-- The immediate subsets key[:i] + key[i+1:] of a key, for i in range(len(key)). -/
def immSubsets (key : Attrs) : List Attrs :=
  (List.range key.length).map key.eraseIdx

/-- The list comprehension [get(k) for k in ks] for an arbitrary
single-key getter, threading the memo table left to right. -/
def goList (getKey : CplusMap → Attrs → Except TErr (Finset Nat × CplusMap)) :
    CplusMap → List Attrs → Except TErr (List (Finset Nat) × CplusMap)
  | cp, [] => Except.ok ([], cp)
  | cp, k :: ks =>
    exbind (getKey cp k) (fun p =>
      exbind (goList getKey p.2 ks) (fun q => Except.ok (p.1 :: q.1, q.2)))

/-- rdict.__getitem__: if the key is absent, recursive_search computes the
intersection of the (recursively obtained) values of its immediate
subsets, stores it, and the stored value is returned.  The fuel argument
is always called with the key's length, which the recursion never
exhausts (immediate subsets are one shorter), so the only error raised
is Python's: reduce over the empty subset list when the absent key is
the empty tuple. -/
def getKeyN : Nat → CplusMap → Attrs → Except TErr (Finset Nat × CplusMap)
  | 0, cp, key =>
    match alook cp key with
    | some v => Except.ok (v, cp)
    | none => Except.error TErr.keyError
  | f + 1, cp, key =>
    match alook cp key with
    | some v => Except.ok (v, cp)
    | none =>
      exbind (goList (getKeyN f) cp (immSubsets key)) (fun p =>
        exbind (reduceInter p.1) (fun v => Except.ok (v, aset p.2 key v)))

/-- self.Cplus[key], entered with exactly the fuel the recursion needs. -/
def rget (cp : CplusMap) (key : Attrs) : Except TErr (Finset Nat × CplusMap) :=
  getKeyN key.length cp key

/-- [self.Cplus[k] for k in keys], threading the memo table. -/
def rgetList : CplusMap → List Attrs → Except TErr (List (Finset Nat) × CplusMap)
  | cp, [] => Except.ok ([], cp)
  | cp, k :: ks =>
    match rget cp k with
    | Except.error e => Except.error e
    | Except.ok (v, cp') =>
      match rgetList cp' ks with
      | Except.error e => Except.error e
      | Except.ok (vs, cp'') => Except.ok (v :: vs, cp'')

/-- The ascending list of elements of a finite set of naturals, used to
fix a canonical iteration order over a Python set (any order yields the
same run results; see the file header). -/
def canonList (s : Finset Nat) : List Nat :=
  Quot.liftOn s.val (fun l => List.insertionSort (· ≤ ·) l)
    (fun l₁ l₂ h => List.eq_of_perm_of_sorted
      ((List.perm_insertionSort _ l₁).trans
        ((Quotient.exact (Quot.sound h)).trans (List.perm_insertionSort _ l₂).symm))
      (List.sorted_insertionSort _ l₁) (List.sorted_insertionSort _ l₂))

/-- self.Cplus[X].remove(y) on the stored entry (present whenever the
Python code reaches the call). -/
def cplusRemove (cp : CplusMap) (X : Attrs) (y : Nat) : CplusMap :=
  cp.map (fun p => if p.1 = X then (p.1, p.2.erase y) else p)

/-! ### PartitionsManager -/

/-- self.cache[lvl][X], with a KeyError on a missing level or key and a
TypeError on subscripting the None stored at level 0, all modelled as
errors. -/
def cacheGet (cache : Cache) (lvl : Nat) (X : Attrs) : Except TErr Partn :=
  match alook cache lvl with
  | none => Except.error TErr.keyError
  | some none => Except.error TErr.keyError
  | some (some m) =>
    match alook m X with
    | none => Except.error TErr.keyError
    | some p => Except.ok p

/-- PartitionsManager.check_fd: False on an empty left-hand side,
otherwise the refinement test of the cached partition of X against the
raw partition self.T[y]. -/
def checkFD (T : List Partn) (cache : Cache) (X : Attrs) (y : Nat) : Except TErr Bool :=
  if X = [] then Except.ok false
  else
    match cacheGet cache X.length X with
    | Except.error e => Except.error e
    | Except.ok left => Except.ok (PPattern.leq left (T.getD y []))

/-- PartitionsManager.is_superkey: the cached stripped partition is empty. -/
def isSuperkey (cache : Cache) (X : Attrs) : Except TErr Bool :=
  match cacheGet cache X.length X with
  | Except.error e => Except.error e
  | Except.ok p => Except.ok p.isEmpty

/-- PartitionsManager.register_partition: store at level len(X) the
intersection of the cached partitions of X0 and X1. -/
def regPartition (st : TState) (X X0 X1 : Attrs) : Except TErr TState :=
  match cacheGet st.cache X0.length X0 with
  | Except.error e => Except.error e
  | Except.ok p0 =>
    match cacheGet st.cache X1.length X1 with
    | Except.error e => Except.error e
    | Except.ok p1 =>
      match alook st.cache X.length with
      | none => Except.error TErr.keyError
      | some none => Except.error TErr.keyError
      | some (some m) =>
        Except.ok { st with cache := aset st.cache X.length (some (aset m X (PPattern.intersection p0 p1))) }

/-! ### TANE procedures -/

/-- The body of compute_dependencies for one candidate X: iterate over a
snapshot of Cplus[X] ∩ X (Python iterates the fresh set
self.Cplus[X].intersection(X); the embedding fixes ascending order); for
each y with check_fd(X - y, y), append the rule and remove y from
Cplus[X].  The subsequent Python 3 line
map(self.Cplus[X].remove, filter(...)) creates an unconsumed lazy
iterator and therefore mutates nothing. -/
def cdNode (T : List Partn) (st : TState) (X : Attrs) : Except TErr TState :=
  match rget st.cplus X with
  | Except.error e => Except.error e
  | Except.ok (cpX, cp1) =>
    (canonList (cpX ∩ X.toFinset)).foldlM
      (fun st y =>
        -- a = X.index(y); LHS = X[:a] + X[a+1:], i.e. erase the first occurrence
        let LHS := X.erase y
        match checkFD T st.cache LHS y with
        | Except.error e => Except.error e
        | Except.ok b =>
          if b then
            Except.ok { st with rules := st.rules ++ [(LHS, y)]
                                cplus := cplusRemove st.cplus X y }
          else Except.ok st)
      { st with cplus := cp1 }

/-- Procedure COMPUTE_DEPENDENCIES over the current level. -/
def computeDependencies (T : List Partn) (st : TState) (L : List Attrs) :
    Except TErr TState :=
  L.foldlM (cdNode T) st

/-- The body of prune for one candidate X, accumulating the clean_idx
list.  For a superkey X, for each y of Cplus[X] outside X (ascending
snapshot), y is tested against the intersection of
Cplus[sorted(X[:b] + X[b+1:] + (y,))] over all b. -/
def pruneNode (acc : TState × List Attrs) (X : Attrs) :
    Except TErr (TState × List Attrs) :=
  match rget acc.1.cplus X with
  | Except.error e => Except.error e
  | Except.ok (cpX, cp1) =>
    let st := { acc.1 with cplus := cp1 }
    let clean := if cpX = ∅ then acc.2 ++ [X] else acc.2
    match isSuperkey st.cache X with
    | Except.error e => Except.error e
    | Except.ok sk =>
      if sk then
        match
          (canonList (cpX \ X.toFinset)).foldlM
            (fun (st : TState) y =>
              let keys := (List.range X.length).map
                (fun b => List.insertionSort (· ≤ ·) (X.eraseIdx b ++ [y]))
              match rgetList st.cplus keys with
              | Except.error e => Except.error e
              | Except.ok (vals, cp') =>
                match reduceInter vals with
                | Except.error e => Except.error e
                | Except.ok inter =>
                  if y ∈ inter then
                    Except.ok { st with rules := st.rules ++ [(X, y)], cplus := cp' }
                  else Except.ok { st with cplus := cp' })
            st
        with
        | Except.error e => Except.error e
        | Except.ok st' => Except.ok (st', clean ++ [X])
      else Except.ok (st, clean)

/-- Procedure PRUNE: collect clean_idx, then remove its members from L. -/
def prune (st : TState) (L : List Attrs) :
    Except TErr (TState × List Attrs) :=
  match L.foldlM pruneNode (st, []) with
  | Except.error e => Except.error e
  | Except.ok (st', clean) => Except.ok (st', L.filter (fun X => decide (X ∉ clean)))

/-- blocks.setdefault(atts[:-1], []).append(atts): append atts to the
block of its prefix, keeping dict insertion order. -/
def blocksAdd (blocks : List (Attrs × List Attrs)) (key : Attrs) (x : Attrs) :
    List (Attrs × List Attrs) :=
  match blocks with
  | [] => [(key, [x])]
  | (k, xs) :: rest =>
    if k = key then (k, xs ++ [x]) :: rest else (k, xs) :: blocksAdd rest key x

/-- Procedure PREFIX_BLOCKS. -/
def prefixBlocks (L : List Attrs) : List (List Attrs) :=
  (L.foldl (fun acc atts => blocksAdd acc atts.dropLast atts) []).map Prod.snd

/-- itertools.combinations(k, 2) in order. -/
def pairs : List α → List (α × α)
  | [] => []
  | x :: xs => xs.map (fun y => (x, y)) ++ pairs xs

/-- X = i + (j[-1],) if i[-1] < j[-1] else j + (i[-1],): the union of two
prefix-block partners in increasing order. -/
def joinX (i j : Attrs) : Attrs :=
  if i.getLastD 0 < j.getLastD 0 then i ++ [j.getLastD 0] else j ++ [i.getLastD 0]

/-- One iteration of the inner loop of GENERATE_NEXT_LEVEL: build X from
the pair (i, j) placing the larger last attribute last, and if every
immediate subset of X is in L, add X to next_L and register its
partition from the two parents. -/
def genPair (L : List Attrs) (acc : TState × List Attrs) (ij : Attrs × Attrs) :
    Except TErr (TState × List Attrs) :=
  let i := ij.1
  let j := ij.2
  let X := joinX i j
  if (List.range X.length).all (fun a => decide (X.eraseIdx a ∈ L)) then
    match regPartition acc.1 X i j with
    | Except.error e => Except.error e
    | Except.ok st' => Except.ok (st', if X ∈ acc.2 then acc.2 else acc.2 ++ [X])
  else Except.ok acc

/-- Procedure GENERATE_NEXT_LEVEL: advance the cache level (new_level),
then scan every pair of every prefix block. -/
def generateNextLevel (st : TState) (L : List Attrs) :
    Except TErr (TState × List Attrs) :=
  let st := { st with curLevel := st.curLevel + 1,
                      cache := aset st.cache (st.curLevel + 1) (some []) }
  (prefixBlocks L).foldlM
    (fun acc k => (pairs k).foldlM (genPair L) acc) (st, [])

/-- memory_wipe / purge_old_level: del self.cache[self.current_level - 2]. -/
def memoryWipe (st : TState) : Except TErr TState :=
  match alook st.cache (st.curLevel - 2) with
  | none => Except.error TErr.keyError
  | some _ => Except.ok { st with cache := adel st.cache (st.curLevel - 2) }

/-- One iteration of the while loop of TANE.run. -/
def taneStep (T : List Partn) (st : TState) (L : List Attrs) :
    Except TErr (TState × List Attrs) :=
  match computeDependencies T st L with
  | Except.error e => Except.error e
  | Except.ok st1 =>
    match prune st1 L with
    | Except.error e => Except.error e
    | Except.ok (st2, L2) =>
      match generateNextLevel st2 L2 with
      | Except.error e => Except.error e
      | Except.ok (st3, nextL) =>
        match memoryWipe st3 with
        | Except.error e => Except.error e
        | Except.ok st4 => Except.ok (st4, nextL)

/-- The while loop of TANE.run, driven by fuel (the loop runs at most
len(T) + 1 times, see the termination theorem). -/
def runAux (T : List Partn) : Nat → TState → List Attrs → Except TErr TState
  | _, st, [] => Except.ok st
  | 0, _, _ :: _ => Except.error TErr.noFuel
  | fuel + 1, st, L =>
    match taneStep T st L with
    | Except.error e => Except.error e
    | Except.ok (st', L') => runAux T fuel st' L'

/-- TANE.__init__: rules = [], cache = {0: None, 1: {(i,): T[i]}},
current_level = 1, Cplus = {(): set(R)}. -/
def initState (T : List Partn) : TState :=
  { rules := []
  , cache := [(0, none), (1, some ((List.range T.length).map (fun i => ([i], T.getD i []))))]
  , curLevel := 1
  , cplus := [(([] : Attrs), Finset.range T.length)] }

/-- TANE.run on a list of per-attribute partitions. -/
def run (T : List Partn) : Except TErr TState :=
  runAux T (T.length + 2) (initState T) ((List.range T.length).map (fun i => [i]))

/-- The rules of a completed run on per-attribute partitions T. -/
def runRulesT (T : List Partn) : List Rule :=
  match run T with
  | Except.ok st => st.rules
  | Except.error _ => []

/-- The rules of a completed run on a raw relation. -/
def runRules (rows : List (List Nat)) : List Rule :=
  runRulesT (buildT rows)

/-- The final Cplus table of a run on a raw relation. -/
def runCplus (rows : List (List Nat)) : CplusMap :=
  match run (buildT rows) with
  | Except.ok st => st.cplus
  | Except.error _ => []

/-- Whether a run completed without error. -/
def okBool (e : Except TErr TState) : Bool :=
  match e with
  | Except.ok _ => true
  | Except.error _ => false

/-! ### Relation-level semantics (the mathematical reading of the claims) -/

/-- Rows r and s agree on every attribute of the list S. -/
def agreeL (rows : List (List Nat)) (S : Attrs) (r s : Nat) : Prop :=
  ∀ a ∈ S, cell rows r a = cell rows s a

instance (rows : List (List Nat)) (S : Attrs) (r s : Nat) :
    Decidable (agreeL rows S r s) := by
  unfold agreeL; infer_instance

/-- The functional dependency S → y holds on the relation: every pair of
rows agreeing on all attributes of S agrees on y. -/
def FDl (rows : List (List Nat)) (S : Attrs) (y : Nat) : Prop :=
  ∀ r < rows.length, ∀ s < rows.length, agreeL rows S r s → cell rows r y = cell rows s y

instance (rows : List (List Nat)) (S : Attrs) (y : Nat) :
    Decidable (FDl rows S y) := by
  unfold FDl; infer_instance

/-- Agreement on a finite set of attributes. -/
def agreeF (rows : List (List Nat)) (S : Finset Nat) (r s : Nat) : Prop :=
  ∀ a ∈ S, cell rows r a = cell rows s a

instance (rows : List (List Nat)) (S : Finset Nat) (r s : Nat) :
    Decidable (agreeF rows S r s) := by
  unfold agreeF; infer_instance

/-- The functional dependency S → y over a finite attribute set. -/
def FDf (rows : List (List Nat)) (S : Finset Nat) (y : Nat) : Prop :=
  ∀ r < rows.length, ∀ s < rows.length, agreeF rows S r s → cell rows r y = cell rows s y

instance (rows : List (List Nat)) (S : Finset Nat) (y : Nat) :
    Decidable (FDf rows S y) := by
  unfold FDf; infer_instance

/-- S is a superkey: distinct rows never agree on all of S. -/
def SKf (rows : List (List Nat)) (S : Finset Nat) : Prop :=
  ∀ r < rows.length, ∀ s < rows.length, agreeF rows S r s → r = s

instance (rows : List (List Nat)) (S : Finset Nat) :
    Decidable (SKf rows S) := by
  unfold SKf; infer_instance

/-- A well-formed attribute tuple: strictly increasing indices below n
(the canonical form every tuple handled by the algorithm has). -/
def wfKey (n : Nat) (K : Attrs) : Prop :=
  K.Sorted (· < ·) ∧ ∀ a ∈ K, a < n

instance (n : Nat) (K : Attrs) : Decidable (wfKey n K) := by
  unfold wfKey List.Sorted; infer_instance

/-- A stripped partition P faithfully represents the attribute list S on
the relation: every class is a set of at least two valid row indices
that pairwise agree on S, and any two distinct agreeing rows share a
class. -/
structure isSP (rows : List (List Nat)) (S : Attrs) (P : Partn) : Prop where
  card2 : ∀ c ∈ P, 2 ≤ c.card
  validIdx : ∀ c ∈ P, ∀ r ∈ c, r < rows.length
  agreeCls : ∀ c ∈ P, ∀ r ∈ c, ∀ s ∈ c, agreeL rows S r s
  covers : ∀ r s, r < rows.length → s < rows.length → r ≠ s → agreeL rows S r s →
    ∃ c ∈ P, r ∈ c ∧ s ∈ c

/-- The structural invariant of the driver loop, at the head of each
iteration: the current-level candidates are well-formed tuples of length
current_level, the Cplus base entry is present, the cache holds exactly
levels current_level and current_level - 1, the current level map covers
the candidates, and (from level 2 on) the previous level map covers all
their immediate subsets. -/
structure SInv (n : Nat) (st : TState) (L : List Attrs) : Prop where
  curpos : 1 ≤ st.curLevel
  lenL : ∀ X ∈ L, X.length = st.curLevel
  wfL : ∀ X ∈ L, wfKey n X
  nodupL : L.Nodup
  cplusEmpty : alook st.cplus [] = some (Finset.range n)
  cacheDom : ∀ k, (alook st.cache k).isSome ↔ (k = st.curLevel ∨ k = st.curLevel - 1)
  cacheCur : ∃ m, alook st.cache st.curLevel = some (some m) ∧
    ∀ X ∈ L, (alook m X).isSome
  cachePrev : 2 ≤ st.curLevel → ∃ m, alook st.cache (st.curLevel - 1) = some (some m) ∧
    ∀ X ∈ L, ∀ i < X.length, (alook m (X.eraseIdx i)).isSome

/-! ### The declarative model of the run

The correctness theorems relate the run to a closed-form description:
remQ describes the removals performed by compute_dependencies, cpfinSet
and cpinitSet give the final and the first-materialized value of every
Cplus entry, inLp characterizes the candidates that survive pruning, and
the rule sets below collect the emitted rules. -/

/-- S is a candidate the level-wise search keeps alive: non-empty, and no
non-empty proper subset of S is a superkey. -/
def inLp (rows : List (List Nat)) (S : Finset Nat) : Prop :=
  S.Nonempty ∧ ∀ Y ∈ S.powerset, Y.Nonempty → Y ≠ S → ¬SKf rows Y

instance (rows : List (List Nat)) (S : Finset Nat) : Decidable (inLp rows S) := by
  unfold inLp; infer_instance

/-- Attribute y gets removed from Cplus at node M: M is a kept candidate
of size at least two containing y whose removal test check_fd(M - y, y)
succeeds.  (The snapshot condition y ∈ Cplus[M] is implied and hence
omitted; see the lemmas on cpfinSet.) -/
def remQ (rows : List (List Nat)) (M : Finset Nat) (y : Nat) : Prop :=
  inLp rows M ∧ y ∈ M ∧ 2 ≤ M.card ∧ FDf rows (M.erase y) y

instance (rows : List (List Nat)) (M : Finset Nat) (y : Nat) :
    Decidable (remQ rows M y) := by
  unfold remQ; infer_instance

/-- The final value of Cplus[S] in a completed run: the attributes below
n removed at no node below-or-at S. -/
def cpfinSet (rows : List (List Nat)) (n : Nat) (S : Finset Nat) : Finset Nat :=
  (Finset.range n).filter (fun y => ∀ M ∈ S.powerset, ¬remQ rows M y)

/-- The value of Cplus[S] when it is first materialized (the removals at
node S itself not yet applied). -/
def cpinitSet (rows : List (List Nat)) (n : Nat) (S : Finset Nat) : Finset Nat :=
  (Finset.range n).filter (fun y => ∀ M ∈ S.powerset, M ≠ S → ¬remQ rows M y)

/-- The rules appended by compute_dependencies at node X, in the
ascending snapshot order of the embedding. -/
def cdNodeRules (rows : List (List Nat)) (n : Nat) (X : Attrs) : List Rule :=
  ((canonList (cpinitSet rows n X.toFinset ∩ X.toFinset)).filter
    (fun y => decide (X.erase y ≠ [] ∧ FDl rows (X.erase y) y))).map
    (fun y => (X.erase y, y))

/-- The superkey guard of prune at node S for attribute y: y survives in
Cplus[(S - b) ∪ y] for every b in S. -/
def skGuardF (rows : List (List Nat)) (n : Nat) (S : Finset Nat) (y : Nat) : Prop :=
  ∀ b ∈ S, y ∈ cpfinSet rows n (insert y (S.erase b))

instance (rows : List (List Nat)) (n : Nat) (S : Finset Nat) (y : Nat) :
    Decidable (skGuardF rows n S y) := by
  unfold skGuardF; infer_instance

/-- The rules appended by the superkey case of prune at node X, in the
ascending snapshot order of the embedding. -/
def skNodeRules (rows : List (List Nat)) (n : Nat) (X : Attrs) : List Rule :=
  if SKf rows X.toFinset then
    ((canonList (cpfinSet rows n X.toFinset \ X.toFinset)).filter
      (fun y => decide (skGuardF rows n X.toFinset y))).map (fun y => (X, y))
  else []

/-- All compute_dependencies rules whose node has size below l. -/
def cdRuleSetB (rows : List (List Nat)) (n l : Nat) : Finset Rule :=
  (((Finset.range n).powerset ×ˢ Finset.range n).filter
    (fun p => p.1.card < l ∧ inLp rows p.1 ∧ 2 ≤ p.1.card ∧ p.2 ∈ p.1 ∧
      p.2 ∈ cpinitSet rows n p.1 ∧ FDf rows (p.1.erase p.2) p.2)).image
    (fun p => (canonList (p.1.erase p.2), p.2))

/-- All superkey-prune rules whose node has size below l. -/
def skRuleSetB (rows : List (List Nat)) (n l : Nat) : Finset Rule :=
  (((Finset.range n).powerset ×ˢ Finset.range n).filter
    (fun p => p.1.card < l ∧ inLp rows p.1 ∧ SKf rows p.1 ∧ p.2 ∉ p.1 ∧
      p.2 ∈ cpfinSet rows n p.1 ∧ skGuardF rows n p.1 p.2)).image
    (fun p => (canonList p.1, p.2))

/-- All compute_dependencies rules (node sizes are at most n). -/
def cdRuleSet (rows : List (List Nat)) (n : Nat) : Finset Rule :=
  cdRuleSetB rows n (n + 1)

/-- All superkey-prune rules. -/
def skRuleSet (rows : List (List Nat)) (n : Nat) : Finset Rule :=
  skRuleSetB rows n (n + 1)

/-- The brute-force reference set: all minimal non-trivial functional
dependencies with a non-empty left-hand side (minimality against
non-empty proper subsets), as canonical sorted tuples. -/
def minFDne (rows : List (List Nat)) (n : Nat) : Finset Rule :=
  (((Finset.range n).powerset ×ˢ Finset.range n).filter
    (fun p => p.1.Nonempty ∧ p.2 ∉ p.1 ∧ FDf rows p.1 p.2 ∧
      ∀ x ∈ p.1, 2 ≤ p.1.card → ¬FDf rows (p.1.erase x) p.2)).image
    (fun p => (canonList p.1, p.2))

/-- The brute-force set with the empty left-hand side allowed (minimality
against all proper subsets, the empty one included). -/
def minFDall (rows : List (List Nat)) (n : Nat) : Finset Rule :=
  (((Finset.range n).powerset ×ˢ Finset.range n).filter
    (fun p => p.2 ∉ p.1 ∧ FDf rows p.1 p.2 ∧
      ∀ x ∈ p.1, ¬FDf rows (p.1.erase x) p.2)).image
    (fun p => (canonList p.1, p.2))

/-- The Cplus model during level l with processed prefix P: every present
key is well-formed of length at most l; keys below the level, and
processed keys, hold their final value; unprocessed keys of the level
hold their initial value; every live (inLp) well-formed key below the
level is present. -/
structure CpInv (rows : List (List Nat)) (n l : Nat) (P : List Attrs)
    (cp : CplusMap) : Prop where
  base : alook cp [] = some (Finset.range n)
  val : ∀ K v, alook cp K = some v → wfKey n K ∧ K.length ≤ l ∧
    ((K.length < l ∨ K ∈ P) → v = cpfinSet rows n K.toFinset) ∧
    (K.length = l → K ∉ P → v = cpinitSet rows n K.toFinset)
  live : ∀ K, wfKey n K → K.length < l → inLp rows K.toFinset →
    (alook cp K).isSome

/-- The full model invariant at the head of a driver iteration. -/
structure MInv (rows : List (List Nat)) (n : Nat) (st : TState)
    (L : List Attrs) : Prop where
  sinv : SInv n st L
  lchar : ∀ X, X ∈ L ↔
    (wfKey n X ∧ X.length = st.curLevel ∧ inLp rows X.toFinset)
  cacheSP : ∀ k mm X Pp, alook st.cache k = some (some mm) →
    alook mm X = some Pp → wfKey n X ∧ isSP rows X Pp
  cpinv : CpInv rows n st.curLevel [] st.cplus
  rulesEq : st.rules.toFinset =
    cdRuleSetB rows n st.curLevel ∪ skRuleSetB rows n st.curLevel

/-- How a candidate X of the next level was produced: from two distinct
prefix-block partners A and B of the surviving level L, with every
immediate subset of X present in L, and with its partition stored (in
the next-level map m') as the stripped product of the two parents'
partitions (read from the current-level map m). -/
def genChar (L : List Attrs) (m m' : LvlMap) (X : Attrs) : Prop :=
  ∃ A B pA pB, A ∈ L ∧ B ∈ L ∧ A ≠ B ∧ A.dropLast = B.dropLast ∧
    X = joinX A B ∧ (∀ i < X.length, X.eraseIdx i ∈ L) ∧
    alook m A = some pA ∧ alook m B = some pB ∧
    (alook m' X = some (PPattern.intersection pA pB) ∨
     alook m' X = some (PPattern.intersection pB pA))

-- ===================================================================
-- ===== END OF DEFINITIONS; THEOREMS BELOW ==========================
-- ===================================================================

/-! ### Association list lemmas -/

theorem alook_filter_ne {α β : Type} [DecidableEq α] (l : List (α × β)) (k k' : α)
    (h : k' ≠ k) :
    alook (l.filter (fun p => decide (p.1 ≠ k))) k' = alook l k' := by
  induction l with
  | nil => rfl
  | cons p rest ih =>
    cases p with
    | mk a b =>
      by_cases hk : a = k
      · have h1 : List.filter (fun p => decide (p.1 ≠ k)) ((a, b) :: rest) =
            List.filter (fun p => decide (p.1 ≠ k)) rest := by
          simp [List.filter_cons, hk]
        rw [h1, ih]
        have hne : k' ≠ a := by rw [hk]; exact h
        simp [alook, hne]
      · have h1 : List.filter (fun p => decide (p.1 ≠ k)) ((a, b) :: rest) =
            (a, b) :: List.filter (fun p => decide (p.1 ≠ k)) rest := by
          simp [List.filter_cons, hk]
        rw [h1]
        by_cases hk' : k' = a
        · simp [alook, hk']
        · simp only [alook, if_neg hk']
          exact ih

theorem alook_aset_self {α β : Type} [DecidableEq α] (l : List (α × β)) (k : α) (v : β) :
    alook (aset l k v) k = some v := by
  simp [aset, alook]

theorem alook_aset_ne {α β : Type} [DecidableEq α] (l : List (α × β)) (k k' : α) (v : β)
    (h : k' ≠ k) : alook (aset l k v) k' = alook l k' := by
  simp only [aset, alook, if_neg h]
  exact alook_filter_ne l k k' h

theorem alook_adel_self {α β : Type} [DecidableEq α] (l : List (α × β)) (k : α) :
    alook (adel l k) k = none := by
  induction l with
  | nil => rfl
  | cons p rest ih =>
    cases p with
    | mk a b =>
      by_cases hk : a = k
      · have h1 : adel ((a, b) :: rest) k = adel rest k := by
          simp [adel, List.filter_cons, hk]
        rw [h1]; exact ih
      · have h1 : adel ((a, b) :: rest) k = (a, b) :: adel rest k := by
          simp [adel, List.filter_cons, hk]
        rw [h1]
        have hne : k ≠ a := fun hh => hk hh.symm
        simp [alook, hne, ih]

theorem alook_adel_ne {α β : Type} [DecidableEq α] (l : List (α × β)) (k k' : α)
    (h : k' ≠ k) : alook (adel l k) k' = alook l k' :=
  alook_filter_ne l k k' h

/-! ### Attribute tuple lemmas -/

theorem mem_immSubsets {S K : Attrs} :
    S ∈ immSubsets K ↔ ∃ i, i < K.length ∧ S = K.eraseIdx i := by
  simp only [immSubsets, List.mem_map, List.mem_range]
  constructor
  · rintro ⟨i, hi, rfl⟩; exact ⟨i, hi, rfl⟩
  · rintro ⟨i, hi, rfl⟩; exact ⟨i, hi, rfl⟩

theorem length_eraseIdx_of_lt {K : Attrs} {i : Nat} (h : i < K.length) :
    (K.eraseIdx i).length = K.length - 1 := by
  rw [List.length_eraseIdx, if_pos h]

theorem wfKey_nodup {n : Nat} {K : Attrs} (h : wfKey n K) : K.Nodup :=
  h.1.nodup

theorem wfKey_length_le {n : Nat} {K : Attrs} (h : wfKey n K) : K.length ≤ n := by
  have hnd : K.Nodup := wfKey_nodup h
  have hsub : K.toFinset ⊆ Finset.range n := by
    intro a ha
    simp only [List.mem_toFinset] at ha
    simpa using h.2 a ha
  calc K.length = K.toFinset.card := (List.toFinset_card_of_nodup hnd).symm
    _ ≤ (Finset.range n).card := Finset.card_le_card hsub
    _ = n := Finset.card_range n

theorem wfKey_eraseIdx {n : Nat} {K : Attrs} (h : wfKey n K) (i : Nat) :
    wfKey n (K.eraseIdx i) := by
  refine ⟨?_, fun a ha => h.2 a ((K.eraseIdx_sublist i).subset ha)⟩
  exact List.Pairwise.sublist (K.eraseIdx_sublist i) h.1

theorem erase_eq_eraseIdx_of_mem {K : Attrs} {y : Nat} (h : y ∈ K) :
    ∃ i, i < K.length ∧ K.erase y = K.eraseIdx i :=
  ⟨K.indexOf y, List.indexOf_lt_length.2 h,
    (List.eraseIdx_indexOf_eq_erase y K).symm⟩

theorem length_erase_of_mem {K : Attrs} {y : Nat} (h : y ∈ K) :
    (K.erase y).length = K.length - 1 := by
  obtain ⟨i, hi, heq⟩ := erase_eq_eraseIdx_of_mem h
  rw [heq, length_eraseIdx_of_lt hi]

theorem length_immSubsets (K : Attrs) : (immSubsets K).length = K.length := by
  simp [immSubsets]

/-! ### Totality of the Cplus getter -/

theorem cplusRemove_cons (A : Attrs) (v : Finset Nat) (rest : CplusMap) (X : Attrs) (y : Nat) :
    cplusRemove ((A, v) :: rest) X y =
      (if A = X then (A, v.erase y) else (A, v)) :: cplusRemove rest X y := by
  simp only [cplusRemove, List.map_cons]

theorem alook_cplusRemove (cp : CplusMap) (X : Attrs) (y : Nat) (K : Attrs) :
    alook (cplusRemove cp X y) K =
      (alook cp K).map (fun v => if K = X then v.erase y else v) := by
  induction cp with
  | nil => rfl
  | cons p rest ih =>
    cases p with
    | mk A v =>
      rw [cplusRemove_cons]
      by_cases hAX : A = X
      · rw [if_pos hAX]
        by_cases hKA : K = A
        · subst hKA
          simp [alook, hAX]
        · simp only [alook, if_neg hKA]
          exact ih
      · rw [if_neg hAX]
        by_cases hKA : K = A
        · subst hKA
          have hKX : K ≠ X := fun h => hAX h
          simp [alook, hKX]
        · simp only [alook, if_neg hKA]
          exact ih

/-- Sequential threading lemma for the memoized getter: if the single-key
getter G succeeds on keys satisfying D, preserving the base entry and
all present entries, then so does the list version, and afterwards every
processed key is present. -/
theorem goList_ok {u : Finset Nat} (G : CplusMap → Attrs → Except TErr (Finset Nat × CplusMap))
    (D : Attrs → Prop)
    (hG : ∀ cp k, D k → alook cp [] = some u →
      ∃ v cp', G cp k = Except.ok (v, cp') ∧ alook cp' [] = some u ∧
        (∀ K, (alook cp K).isSome → alook cp' K = alook cp K) ∧ alook cp' k = some v) :
    ∀ ks cp, (∀ k ∈ ks, D k) → alook cp [] = some u →
      ∃ vs cp', goList G cp ks = Except.ok (vs, cp') ∧ alook cp' [] = some u ∧
        vs.length = ks.length ∧
        (∀ K, (alook cp K).isSome → alook cp' K = alook cp K) ∧
        (∀ k ∈ ks, (alook cp' k).isSome) := by
  intro ks
  induction ks with
  | nil =>
    intro cp _ h
    exact ⟨[], cp, rfl, h, rfl, fun K _ => rfl, by simp⟩
  | cons k ks ih =>
    intro cp hD hcp
    obtain ⟨v, cp1, hG1, hcp1, hpres1, hk1⟩ := hG cp k (hD k (by simp)) hcp
    obtain ⟨vs, cp2, hG2, hcp2, hlen2, hpres2, hmem2⟩ :=
      ih cp1 (fun x hx => hD x (by simp [hx])) hcp1
    refine ⟨v :: vs, cp2, ?_, hcp2, by simp [hlen2], ?_, ?_⟩
    · simp [goList, hG1, exbind, hG2]
    · intro K hK
      have h1 : alook cp1 K = alook cp K := hpres1 K hK
      have h2 : (alook cp1 K).isSome := by rw [h1]; exact hK
      rw [hpres2 K h2, h1]
    · intro x hx
      rcases List.mem_cons.1 hx with hx | hx
      · subst hx
        have h2 : (alook cp1 x).isSome := by rw [hk1]; rfl
        rw [hpres2 x h2, hk1]; rfl
      · exact hmem2 x hx

/-- Totality of rdict lookup: with the base entry present, a lookup with
fuel at least the key's length succeeds, preserves the base entry and
every present entry, and leaves the key present with the returned value. -/
theorem getKeyN_ok {u : Finset Nat} :
    ∀ fuel key cp, key.length ≤ fuel → alook cp [] = some u →
    ∃ v cp', getKeyN fuel cp key = Except.ok (v, cp') ∧ alook cp' [] = some u ∧
      (∀ K, (alook cp K).isSome → alook cp' K = alook cp K) ∧ alook cp' key = some v := by
  intro fuel
  induction fuel with
  | zero =>
    intro key cp hlen hcp
    have hk : key = [] := List.length_eq_zero.1 (Nat.le_zero.1 hlen)
    subst hk
    exact ⟨u, cp, by simp [getKeyN, hcp], hcp, fun K _ => rfl, hcp⟩
  | succ f ihf =>
    intro key cp hlen hcp
    cases halook : alook cp key with
    | some v =>
      exact ⟨v, cp, by simp [getKeyN, halook], hcp, fun K _ => rfl, halook⟩
    | none =>
      have hkey : key ≠ [] := by
        intro h; subst h; rw [hcp] at halook; cases halook
      have hklen : 1 ≤ key.length := by
        cases key with
        | nil => exact absurd rfl hkey
        | cons a l => simp
      have hsub : ∀ k ∈ immSubsets key, k.length ≤ f := by
        intro k hk
        obtain ⟨i, hi, rfl⟩ := mem_immSubsets.1 hk
        rw [length_eraseIdx_of_lt hi]; omega
      obtain ⟨vals, cp1, hg, hcp1, hlen1, hpres1, hmem1⟩ :=
        goList_ok (getKeyN f) (fun k => k.length ≤ f)
          (fun cp k hD hcp => ihf k cp hD hcp) (immSubsets key) cp hsub hcp
      have hvlen : vals.length = key.length := by rw [hlen1, length_immSubsets]
      obtain ⟨v0, vrest, rfl⟩ : ∃ v0 vrest, vals = v0 :: vrest := by
        cases vals with
        | nil => rw [← hvlen] at hklen; simp at hklen
        | cons a l => exact ⟨a, l, rfl⟩
      have hne : ([] : Attrs) ≠ key := fun h => hkey h.symm
      refine ⟨vrest.foldl (· ∩ ·) v0, aset cp1 key (vrest.foldl (· ∩ ·) v0), ?_, ?_, ?_, ?_⟩
      · simp [getKeyN, halook, hg, exbind, reduceInter]
      · rw [alook_aset_ne _ _ _ _ hne]; exact hcp1
      · intro K hK
        have hKne : K ≠ key := by
          intro h; subst h; rw [halook] at hK; cases hK
        rw [alook_aset_ne _ _ _ _ hKne]
        exact hpres1 K hK
      · exact alook_aset_self _ _ _

/-- Totality of rget: only the base entry is needed. -/
theorem rget_ok {u : Finset Nat} (cp : CplusMap) (key : Attrs)
    (hcp : alook cp [] = some u) :
    ∃ v cp', rget cp key = Except.ok (v, cp') ∧ alook cp' [] = some u ∧
      (∀ K, (alook cp K).isSome → alook cp' K = alook cp K) ∧ alook cp' key = some v :=
  getKeyN_ok key.length key cp le_rfl hcp

/-- Totality of rgetList. -/
theorem rgetList_ok {u : Finset Nat} :
    ∀ ks cp, alook cp [] = some u →
    ∃ vs cp', rgetList cp ks = Except.ok (vs, cp') ∧ alook cp' [] = some u ∧
      vs.length = ks.length ∧
      (∀ K, (alook cp K).isSome → alook cp' K = alook cp K) := by
  intro ks
  induction ks with
  | nil => intro cp h; exact ⟨[], cp, rfl, h, rfl, fun K _ => rfl⟩
  | cons k ks ih =>
    intro cp hcp
    obtain ⟨v, cp1, h1, hcp1, hpres1, hk1⟩ := rget_ok cp k hcp
    obtain ⟨vs, cp2, h2, hcp2, hlen2, hpres2⟩ := ih cp1 hcp1
    refine ⟨v :: vs, cp2, ?_, hcp2, by simp [hlen2], ?_⟩
    · simp [rgetList, h1, h2]
    · intro K hK
      have ha : alook cp1 K = alook cp K := hpres1 K hK
      have hb : (alook cp1 K).isSome := by rw [ha]; exact hK
      rw [hpres2 K hb, ha]

/-- The list getter depends on the single-key getter only through its
values at the processed keys. -/
theorem goList_congr (G1 G2 : CplusMap → Attrs → Except TErr (Finset Nat × CplusMap)) :
    ∀ (ks : List Attrs), (∀ cp k, k ∈ ks → G1 cp k = G2 cp k) →
    ∀ cp, goList G1 cp ks = goList G2 cp ks := by
  intro ks
  induction ks with
  | nil => intro _ cp; rfl
  | cons k ks ih =>
    intro h cp
    show exbind (G1 cp k) _ = exbind (G2 cp k) _
    rw [h cp k (by simp)]
    cases hG : G2 cp k with
    | error e => rfl
    | ok p =>
      have hrec := ih (fun cp' k' hk' => h cp' k' (by simp [hk'])) p.2
      simp only [exbind, hrec]

/-- The rdict getter ignores excess fuel: any fuel at least the key's
length computes the same result as the standard entry point rget. -/
theorem getKeyN_fuel :
    ∀ (d : Nat) (key : Attrs), key.length = d → ∀ (f : Nat), d ≤ f →
    ∀ cp, getKeyN f cp key = rget cp key := by
  intro d
  induction d with
  | zero =>
    intro key hkey f _ cp
    have hk : key = [] := List.length_eq_zero.1 hkey
    subst hk
    cases f with
    | zero => rfl
    | succ g =>
      show getKeyN (g + 1) cp [] = getKeyN 0 cp []
      cases halook : alook cp [] with
      | some v => simp [getKeyN, halook]
      | none => simp [getKeyN, halook, immSubsets, goList, exbind, reduceInter]
  | succ e ih =>
    intro key hkey f hf cp
    obtain ⟨g, rfl⟩ : ∃ g, f = g + 1 := ⟨f - 1, by omega⟩
    have hge : e ≤ g := by omega
    have hrget : rget cp key = getKeyN (e + 1) cp key := by
      rw [rget, hkey]
    rw [hrget]
    cases halook : alook cp key with
    | some v => simp [getKeyN, halook]
    | none =>
      have hcongr : goList (getKeyN g) cp (immSubsets key) =
          goList (getKeyN e) cp (immSubsets key) := by
        apply goList_congr
        intro cp' k hk
        obtain ⟨i, hi, rfl⟩ := mem_immSubsets.1 hk
        have hklen : (key.eraseIdx i).length = e := by
          rw [length_eraseIdx_of_lt hi]; omega
        rw [ih _ hklen g hge cp', ih _ hklen e le_rfl cp']
      simp [getKeyN, halook, hcongr]

/-- rgetList is the list getter built over rget. -/
theorem rgetList_eq_goList : ∀ (ks : List Attrs) (cp : CplusMap),
    rgetList cp ks = goList rget cp ks := by
  intro ks
  induction ks with
  | nil => intro cp; rfl
  | cons k ks ih =>
    intro cp
    cases hr : rget cp k with
    | error e => simp [rgetList, goList, exbind, hr]
    | ok p =>
      obtain ⟨v, cp'⟩ := p
      cases hrl : goList rget cp' ks with
      | error e => simp [rgetList, goList, exbind, hr, ih, hrl]
      | ok q => simp [rgetList, goList, exbind, hr, ih, hrl]

/-- rdict.__getitem__ on a present key: a plain dict hit, the table is
unchanged. -/
theorem rget_hit (cp : CplusMap) (X : Attrs) (v : Finset Nat)
    (h : alook cp X = some v) : rget cp X = Except.ok (v, cp) := by
  cases X with
  | nil => simp [rget, getKeyN, h]
  | cons x xs => simp [rget, getKeyN, h]

/-- rdict.__getitem__ on an absent key: recursive_search computes the
values of all immediate subsets (recursively, threading the memo table),
intersects them with reduce, stores the result under the key and returns
it; for the absent empty key, reduce over the empty list of subset
values raises. -/
theorem rget_miss_eq (cp : CplusMap) (X : Attrs) (h : alook cp X = none) :
    rget cp X = exbind (rgetList cp (immSubsets X)) (fun p =>
      exbind (reduceInter p.1) (fun v => Except.ok (v, aset p.2 X v))) := by
  cases X with
  | nil =>
    simp [rget, getKeyN, h, immSubsets, rgetList, exbind, reduceInter]
  | cons x xs =>
    have hcongr : goList (getKeyN xs.length) cp (immSubsets (x :: xs)) =
        goList rget cp (immSubsets (x :: xs)) := by
      apply goList_congr
      intro cp' k hk
      obtain ⟨i, hi, rfl⟩ := mem_immSubsets.1 hk
      have hklen : ((x :: xs).eraseIdx i).length = xs.length := by
        rw [length_eraseIdx_of_lt hi]; simp
      exact getKeyN_fuel xs.length _ hklen xs.length le_rfl cp'
    show getKeyN (xs.length + 1) cp (x :: xs) = _
    rw [rgetList_eq_goList, ← hcongr]
    simp [getKeyN, h]

/-! ### Totality of the per-level phases -/

theorem cplusRemove_isSome (cp : CplusMap) (X : Attrs) (y : Nat) (K : Attrs) :
    (alook (cplusRemove cp X y) K).isSome = (alook cp K).isSome := by
  rw [alook_cplusRemove]
  cases alook cp K <;> rfl

theorem cplusRemove_empty (cp : CplusMap) (X : Attrs) (y : Nat) (hX : X ≠ [])
    {u : Finset Nat} (h : alook cp [] = some u) :
    alook (cplusRemove cp X y) [] = some u := by
  rw [alook_cplusRemove, h]
  have hne : ([] : Attrs) ≠ X := fun hh => hX hh.symm
  simp [hne]

theorem mem_canonList {s : Finset Nat} {y : Nat} : y ∈ canonList s ↔ y ∈ s := by
  rcases s with ⟨val, nd⟩
  induction val using Quot.inductionOn with
  | h l =>
    show y ∈ List.insertionSort (· ≤ ·) l ↔ _
    rw [(List.perm_insertionSort (· ≤ ·) l).mem_iff]
    rfl

theorem cdNode_fold_ok {u : Finset Nat} (T : List Partn) (C : Cache) (X : Attrs)
    (hX : X ≠ [])
    (hchk : ∀ y ∈ X, ∃ b, checkFD T C (X.erase y) y = Except.ok b) :
    ∀ ys : List Nat, (∀ y ∈ ys, y ∈ X) → ∀ st₀ : TState, st₀.cache = C →
      alook st₀.cplus [] = some u →
    ∃ st', (ys.foldlM
        (fun (st : TState) (y : Nat) =>
          match checkFD T st.cache (X.erase y) y with
          | Except.error e => Except.error e
          | Except.ok b =>
            if b then
              Except.ok { st with rules := st.rules ++ [(X.erase y, y)]
                                  cplus := cplusRemove st.cplus X y }
            else Except.ok st)
        st₀) = Except.ok st' ∧
      st'.cache = C ∧ st'.curLevel = st₀.curLevel ∧
      alook st'.cplus [] = some u ∧
      (∀ K v, alook st₀.cplus K = some v →
        ∃ v', alook st'.cplus K = some v' ∧ v' ⊆ v) ∧
      ∃ ex, st'.rules = st₀.rules ++ ex := by
  intro ys
  induction ys with
  | nil =>
    intro _ st₀ hc hcp
    exact ⟨st₀, rfl, hc, rfl, hcp, fun K v h => ⟨v, h, subset_rfl⟩, [], by simp⟩
  | cons y ys ih =>
    intro hys st₀ hc hcp
    obtain ⟨b, hb⟩ := hchk y (hys y (by simp))
    rw [← hc] at hb
    cases b with
    | false =>
      obtain ⟨st', h1, h2, h3, h4, h5, ex, h6⟩ :=
        ih (fun z hz => hys z (by simp [hz])) st₀ hc hcp
      exact ⟨st', by simp [List.foldlM, hb, bind, Except.bind, h1], h2, h3, h4, h5, ex, h6⟩
    | true =>
      set st₁ : TState :=
        { st₀ with rules := st₀.rules ++ [(X.erase y, y)]
                   cplus := cplusRemove st₀.cplus X y } with hst₁
      obtain ⟨st', h1, h2, h3, h4, h5, ex, h6⟩ :=
        ih (fun z hz => hys z (by simp [hz])) st₁ hc (cplusRemove_empty _ _ _ hX hcp)
      refine ⟨st', by simp [List.foldlM, hb, bind, Except.bind, hst₁] at h1 ⊢; exact h1, h2, h3, h4, ?_, ?_⟩
      · intro K v hv
        have hmid : alook (cplusRemove st₀.cplus X y) K =
            some (if K = X then v.erase y else v) := by
          rw [alook_cplusRemove, hv]
          rfl
        obtain ⟨v2, h2v, s2⟩ := h5 K _ hmid
        refine ⟨v2, h2v, s2.trans ?_⟩
        by_cases hKX : K = X
        · rw [if_pos hKX]
          exact Finset.erase_subset _ _
        · rw [if_neg hKX]
      · exact ⟨(X.erase y, y) :: ex, by simp [hst₁] at h6 ⊢; simp [h6]⟩

theorem cdNode_ok {u : Finset Nat} (T : List Partn) (st : TState) (X : Attrs)
    (hX : X ≠ [])
    (hcp : alook st.cplus [] = some u)
    (hchk : ∀ y ∈ X, ∃ b, checkFD T st.cache (X.erase y) y = Except.ok b) :
    ∃ st', cdNode T st X = Except.ok st' ∧
      st'.cache = st.cache ∧ st'.curLevel = st.curLevel ∧
      alook st'.cplus [] = some u ∧
      (∀ K v, alook st.cplus K = some v →
        ∃ v', alook st'.cplus K = some v' ∧ v' ⊆ v) ∧
      ∃ ex, st'.rules = st.rules ++ ex := by
  obtain ⟨cpX, cp1, hr, hcp1, hpres1, hX1⟩ := rget_ok st.cplus X hcp
  obtain ⟨st', h1, h2, h3, h4, h5, ex, h6⟩ :=
    cdNode_fold_ok T st.cache X hX hchk
      (canonList (cpX ∩ X.toFinset))
      (fun y hy => by
        have := mem_canonList.1 hy
        simpa using (Finset.mem_inter.1 this).2)
      { st with cplus := cp1 } rfl hcp1
  refine ⟨st', ?_, h2, h3, h4, ?_, ex, h6⟩
  · simp only [cdNode, hr]
    exact h1
  · intro K v hv
    apply h5
    show alook cp1 K = some v
    rw [hpres1 K (by rw [hv]; rfl)]
    exact hv

theorem computeDependencies_ok {u : Finset Nat} (T : List Partn) :
    ∀ (L : List Attrs) (st : TState),
    (∀ X ∈ L, X ≠ []) →
    alook st.cplus [] = some u →
    (∀ X ∈ L, ∀ y ∈ X, ∃ b, checkFD T st.cache (X.erase y) y = Except.ok b) →
    ∃ st', computeDependencies T st L = Except.ok st' ∧
      st'.cache = st.cache ∧ st'.curLevel = st.curLevel ∧
      alook st'.cplus [] = some u ∧
      (∀ K v, alook st.cplus K = some v →
        ∃ v', alook st'.cplus K = some v' ∧ v' ⊆ v) ∧
      ∃ ex, st'.rules = st.rules ++ ex := by
  intro L
  induction L with
  | nil =>
    intro st _ hcp _
    exact ⟨st, rfl, rfl, rfl, hcp, fun K v h => ⟨v, h, subset_rfl⟩, [], by simp⟩
  | cons X L ih =>
    intro st hne hcp hchk
    obtain ⟨st1, h1, h2, h3, h4, h5, ex1, h6⟩ :=
      cdNode_ok T st X (hne X (by simp)) hcp (hchk X (by simp))
    obtain ⟨st', g1, g2, g3, g4, g5, ex2, g6⟩ :=
      ih st1 (fun Z hZ => hne Z (by simp [hZ]))
        h4 (by rw [h2]; exact fun Z hZ => hchk Z (by simp [hZ]))
    refine ⟨st', ?_, by rw [g2, h2], by rw [g3, h3], g4,
      ?_, ex1 ++ ex2, by rw [g6, h6, List.append_assoc]⟩
    swap
    · intro K v hv
      obtain ⟨v1, hv1, s1⟩ := h5 K v hv
      obtain ⟨v2, hv2, s2⟩ := g5 K v1 hv1
      exact ⟨v2, hv2, s2.trans s1⟩
    simp only [computeDependencies, List.foldlM, bind, Except.bind] at g1 ⊢
    simp [h1]
    exact g1

theorem pruneGuard_fold_ok {u : Finset Nat} (X : Attrs) (hX : X ≠ []) :
    ∀ ys : List Nat, ∀ st₀ : TState, alook st₀.cplus [] = some u →
    ∃ st', (ys.foldlM
        (fun (st : TState) y =>
          let keys := (List.range X.length).map
            (fun b => List.insertionSort (· ≤ ·) (X.eraseIdx b ++ [y]))
          match rgetList st.cplus keys with
          | Except.error e => Except.error e
          | Except.ok (vals, cp') =>
            match reduceInter vals with
            | Except.error e => Except.error e
            | Except.ok inter =>
              if y ∈ inter then
                Except.ok { st with rules := st.rules ++ [(X, y)], cplus := cp' }
              else Except.ok { st with cplus := cp' })
        st₀) = Except.ok st' ∧
      st'.cache = st₀.cache ∧ st'.curLevel = st₀.curLevel ∧
      alook st'.cplus [] = some u ∧
      (∀ K v, alook st₀.cplus K = some v →
        ∃ v', alook st'.cplus K = some v' ∧ v' ⊆ v) ∧
      ∃ ex, st'.rules = st₀.rules ++ ex := by
  intro ys
  induction ys with
  | nil =>
    intro st₀ hcp
    exact ⟨st₀, rfl, rfl, rfl, hcp, fun K v h => ⟨v, h, subset_rfl⟩, [], by simp⟩
  | cons y ys ih =>
    intro st₀ hcp
    obtain ⟨vals, cp', hrl, hcp', hlen, hpres⟩ :=
      rgetList_ok ((List.range X.length).map
        (fun b => List.insertionSort (· ≤ ·) (X.eraseIdx b ++ [y]))) st₀.cplus hcp
    have hvlen : vals.length = X.length := by rw [hlen]; simp
    have hX1 : 1 ≤ X.length := by
      cases X with
      | nil => exact absurd rfl hX
      | cons a l => simp
    obtain ⟨v0, vrest, rfl⟩ : ∃ v0 vrest, vals = v0 :: vrest := by
      cases vals with
      | nil => rw [← hvlen] at hX1; simp at hX1
      | cons a l => exact ⟨a, l, rfl⟩
    by_cases hy : y ∈ vrest.foldl (· ∩ ·) v0
    · set st₁ : TState := { st₀ with rules := st₀.rules ++ [(X, y)], cplus := cp' } with hst₁
      obtain ⟨st', h1, h2, h3, h4, h5, ex, h6⟩ := ih st₁ hcp'
      refine ⟨st', ?_, h2, h3, h4, ?_, (X, y) :: ex, ?_⟩
      · simp [List.foldlM, bind, Except.bind, hrl, reduceInter, hy, hst₁] at h1 ⊢
        exact h1
      · intro K v hv
        apply h5
        show alook cp' K = some v
        rw [hpres K (by rw [hv]; rfl)]; exact hv
      · simp [hst₁] at h6; simp [h6]
    · set st₁ : TState := { st₀ with cplus := cp' } with hst₁
      obtain ⟨st', h1, h2, h3, h4, h5, ex, h6⟩ := ih st₁ hcp'
      refine ⟨st', ?_, h2, h3, h4, ?_, ex, ?_⟩
      · simp [List.foldlM, bind, Except.bind, hrl, reduceInter, hy, hst₁] at h1 ⊢
        exact h1
      · intro K v hv
        apply h5
        show alook cp' K = some v
        rw [hpres K (by rw [hv]; rfl)]; exact hv
      · simp [hst₁] at h6; simp [h6]

theorem pruneNode_ok {u : Finset Nat} (st : TState) (clean : List Attrs) (X : Attrs)
    (hX : X ≠ [])
    (hcp : alook st.cplus [] = some u)
    (hcg : ∃ p, cacheGet st.cache X.length X = Except.ok p) :
    ∃ st' clean', pruneNode (st, clean) X = Except.ok (st', clean') ∧
      st'.cache = st.cache ∧ st'.curLevel = st.curLevel ∧
      alook st'.cplus [] = some u ∧
      (∀ K v, alook st.cplus K = some v →
        ∃ v', alook st'.cplus K = some v' ∧ v' ⊆ v) ∧
      ∃ ex, st'.rules = st.rules ++ ex := by
  obtain ⟨p, hp⟩ := hcg
  obtain ⟨cpX, cp1, hr, hcp1, hpres1, hX1⟩ := rget_ok st.cplus X hcp
  have hsk : isSuperkey st.cache X = Except.ok p.isEmpty := by
    simp [isSuperkey, hp]
  by_cases hske : p.isEmpty
  · obtain ⟨st', h1, h2, h3, h4, h5, ex, h6⟩ :=
      pruneGuard_fold_ok X hX
        (canonList (cpX \ X.toFinset)) { st with cplus := cp1 } hcp1
    refine ⟨st', (if cpX = ∅ then clean ++ [X] else clean) ++ [X], ?_, h2, h3, h4, ?_, ex, h6⟩
    · simp only [pruneNode, hr, hsk, hske, if_true]
      simp [h1]
    · intro K v hv
      apply h5
      show alook cp1 K = some v
      rw [hpres1 K (by rw [hv]; rfl)]; exact hv
  · refine ⟨{ st with cplus := cp1 }, if cpX = ∅ then clean ++ [X] else clean,
      ?_, rfl, rfl, hcp1, ?_, [], by simp⟩
    · simp only [pruneNode, hr, hsk, hske, if_false]
      simp [hske]
    · intro K v hv
      refine ⟨v, ?_, subset_rfl⟩
      show alook cp1 K = some v
      rw [hpres1 K (by rw [hv]; rfl)]; exact hv

theorem prune_fold_ok {u : Finset Nat} :
    ∀ (L : List Attrs) (st : TState) (clean : List Attrs),
    (∀ X ∈ L, X ≠ []) →
    alook st.cplus [] = some u →
    (∀ X ∈ L, ∃ p, cacheGet st.cache X.length X = Except.ok p) →
    ∃ st' clean', L.foldlM pruneNode (st, clean) = Except.ok (st', clean') ∧
      st'.cache = st.cache ∧ st'.curLevel = st.curLevel ∧
      alook st'.cplus [] = some u ∧
      (∀ K v, alook st.cplus K = some v →
        ∃ v', alook st'.cplus K = some v' ∧ v' ⊆ v) ∧
      ∃ ex, st'.rules = st.rules ++ ex := by
  intro L
  induction L with
  | nil =>
    intro st clean _ hcp _
    exact ⟨st, clean, rfl, rfl, rfl, hcp, fun K v h => ⟨v, h, subset_rfl⟩, [], by simp⟩
  | cons X L ih =>
    intro st clean hne hcp hcg
    obtain ⟨st1, clean1, h1, h2, h3, h4, h5, ex1, h6⟩ :=
      pruneNode_ok st clean X (hne X (by simp)) hcp (hcg X (by simp))
    obtain ⟨st', clean', g1, g2, g3, g4, g5, ex2, g6⟩ :=
      ih st1 clean1 (fun Z hZ => hne Z (by simp [hZ])) h4
        (by rw [h2]; exact fun Z hZ => hcg Z (by simp [hZ]))
    refine ⟨st', clean', ?_, by rw [g2, h2], by rw [g3, h3], g4,
      ?_, ex1 ++ ex2, by rw [g6, h6, List.append_assoc]⟩
    swap
    · intro K v hv
      obtain ⟨v1, hv1, s1⟩ := h5 K v hv
      obtain ⟨v2, hv2, s2⟩ := g5 K v1 hv1
      exact ⟨v2, hv2, s2.trans s1⟩
    simp only [List.foldlM, bind, Except.bind]
    simp [h1]
    exact g1

theorem prune_ok {u : Finset Nat} (L : List Attrs) (st : TState)
    (hne : ∀ X ∈ L, X ≠ [])
    (hcp : alook st.cplus [] = some u)
    (hcg : ∀ X ∈ L, ∃ p, cacheGet st.cache X.length X = Except.ok p) :
    ∃ st' L', prune st L = Except.ok (st', L') ∧
      st'.cache = st.cache ∧ st'.curLevel = st.curLevel ∧
      alook st'.cplus [] = some u ∧
      (∀ K v, alook st.cplus K = some v →
        ∃ v', alook st'.cplus K = some v' ∧ v' ⊆ v) ∧
      (∃ ex, st'.rules = st.rules ++ ex) ∧ L'.Sublist L := by
  obtain ⟨st', clean', h1, h2, h3, h4, h5, ex, h6⟩ :=
    prune_fold_ok L st [] hne hcp hcg
  exact ⟨st', L.filter (fun X => decide (X ∉ clean')), by simp [prune, h1], h2, h3, h4,
    h5, ⟨ex, h6⟩, List.filter_sublist L⟩

/-! ### Prefix blocks and pair enumeration -/

theorem mem_pairs {α : Type} : ∀ {k : List α} {a b : α},
    (a, b) ∈ pairs k → a ∈ k ∧ b ∈ k := by
  intro k
  induction k with
  | nil => intro a b h; simp [pairs] at h
  | cons x xs ih =>
    intro a b h
    simp only [pairs, List.mem_append, List.mem_map] at h
    rcases h with ⟨c, hc, heq⟩ | h
    · obtain ⟨h1, h2⟩ := Prod.mk.inj heq
      subst h1; subst h2
      exact ⟨by simp, by simp [hc]⟩
    · obtain ⟨ha, hb⟩ := ih h
      exact ⟨by simp [ha], by simp [hb]⟩

theorem mem_pairs_ne {α : Type} : ∀ {k : List α} {a b : α},
    k.Nodup → (a, b) ∈ pairs k → a ≠ b := by
  intro k
  induction k with
  | nil => intro a b _ h; simp [pairs] at h
  | cons x xs ih =>
    intro a b hnd h
    simp only [pairs, List.mem_append, List.mem_map] at h
    rcases h with ⟨c, hc, heq⟩ | h
    · obtain ⟨h1, h2⟩ := Prod.mk.inj heq
      subst h1; subst h2
      intro hab
      subst hab
      exact (List.nodup_cons.1 hnd).1 hc
    · exact ih (List.nodup_cons.1 hnd).2 h

theorem pairs_complete {α : Type} : ∀ {k : List α} {a b : α},
    a ∈ k → b ∈ k → a ≠ b → (a, b) ∈ pairs k ∨ (b, a) ∈ pairs k := by
  intro k
  induction k with
  | nil => intro a b h; simp at h
  | cons x xs ih =>
    intro a b ha hb hab
    rcases List.mem_cons.1 ha with rfl | ha
    · rcases List.mem_cons.1 hb with rfl | hb
      · exact absurd rfl hab
      · left
        simp [pairs, List.mem_append, List.mem_map]
        exact Or.inl hb
    · rcases List.mem_cons.1 hb with rfl | hb
      · right
        simp [pairs, List.mem_append, List.mem_map]
        rcases List.mem_cons.1 ha with h' | h'
        · exact absurd h' hab
        · exact Or.inl h'
      · rcases ih ha hb hab with h | h
        · left; simp [pairs, List.mem_append]; exact Or.inr h
        · right; simp [pairs, List.mem_append]; exact Or.inr h

theorem mem_blocksAdd_cases :
    ∀ (acc : List (Attrs × List Attrs)) (key : Attrs) (x : Attrs) (q : Attrs × List Attrs),
    q ∈ blocksAdd acc key x →
    q ∈ acc ∨ (∃ lst, (key, lst) ∈ acc ∧ q = (key, lst ++ [x])) ∨ q = (key, [x]) := by
  intro acc
  induction acc with
  | nil =>
    intro key x q hq
    simp [blocksAdd] at hq
    exact Or.inr (Or.inr hq)
  | cons p rest ih =>
    intro key x q hq
    cases p with
    | mk k xs =>
      by_cases hk : k = key
      · subst hk
        simp only [blocksAdd, if_pos rfl] at hq
        rcases List.mem_cons.1 hq with rfl | hq
        · exact Or.inr (Or.inl ⟨xs, by simp, rfl⟩)
        · exact Or.inl (by simp [hq])
      · simp only [blocksAdd, if_neg hk] at hq
        rcases List.mem_cons.1 hq with rfl | hq
        · exact Or.inl (by simp)
        · rcases ih key x q hq with h | ⟨lst, hl, he⟩ | h
          · exact Or.inl (by simp [h])
          · exact Or.inr (Or.inl ⟨lst, by simp [hl], he⟩)
          · exact Or.inr (Or.inr h)

theorem blocksAdd_preserves :
    ∀ (acc : List (Attrs × List Attrs)) (key : Attrs) (x : Attrs) (z : Attrs),
    (∃ p ∈ acc, z ∈ p.2) → ∃ q ∈ blocksAdd acc key x, z ∈ q.2 := by
  intro acc
  induction acc with
  | nil =>
    intro key x z hex
    obtain ⟨p, hp, _⟩ := hex
    simp at hp
  | cons p rest ih =>
    intro key x z hex
    obtain ⟨p', hp', hz⟩ := hex
    cases p with
    | mk k xs =>
      by_cases hk : k = key
      · subst hk
        simp only [blocksAdd, if_pos rfl]
        rcases List.mem_cons.1 hp' with heq | hp'
        · subst heq
          exact ⟨(k, xs ++ [x]), by simp, by simp at hz ⊢; exact Or.inl hz⟩
        · exact ⟨p', by simp [hp'], hz⟩
      · simp only [blocksAdd, if_neg hk]
        rcases List.mem_cons.1 hp' with heq | hp'
        · subst heq
          exact ⟨(k, xs), by simp, hz⟩
        · obtain ⟨q, hq, hzq⟩ := ih key x z ⟨p', hp', hz⟩
          exact ⟨q, by simp [hq], hzq⟩

theorem blocksAdd_self :
    ∀ (acc : List (Attrs × List Attrs)) (key : Attrs) (x : Attrs),
    ∃ q ∈ blocksAdd acc key x, q.1 = key ∧ x ∈ q.2 := by
  intro acc
  induction acc with
  | nil => intro key x; exact ⟨(key, [x]), by simp [blocksAdd], rfl, by simp⟩
  | cons p rest ih =>
    intro key x
    cases p with
    | mk k xs =>
      by_cases hk : k = key
      · subst hk
        exact ⟨(k, xs ++ [x]), by simp [blocksAdd], rfl, by simp⟩
      · obtain ⟨q, hq, h1, h2⟩ := ih key x
        exact ⟨q, by simp [blocksAdd, if_neg hk, hq], h1, h2⟩

theorem blocksAdd_keys (acc : List (Attrs × List Attrs)) (key : Attrs) (x : Attrs) :
    (blocksAdd acc key x).map Prod.fst =
      if key ∈ acc.map Prod.fst then acc.map Prod.fst
      else acc.map Prod.fst ++ [key] := by
  induction acc with
  | nil => simp [blocksAdd]
  | cons p rest ih =>
    cases p with
    | mk k xs =>
      by_cases hk : k = key
      · subst hk
        simp [blocksAdd]
      · simp only [blocksAdd, if_neg hk, List.map_cons, ih]
        by_cases hm : key ∈ rest.map Prod.fst
        · have : key ∈ (k :: rest.map Prod.fst) := by simp [hm]
          simp [hm, this]
        · have hne : key ≠ k := fun h => hk h.symm
          have : key ∉ (k :: rest.map Prod.fst) := by simp [hm, hne]
          simp [hm, this]

theorem assoc_same_key {p p' : Attrs × List Attrs} :
    ∀ (out : List (Attrs × List Attrs)), (out.map Prod.fst).Nodup →
    p ∈ out → p' ∈ out → p.1 = p'.1 → p = p' := by
  intro out
  induction out with
  | nil => intro _ h; simp at h
  | cons q rest ih =>
    intro hnd hp hp' hk
    have hnd2 : (q.1 :: rest.map Prod.fst).Nodup := by simpa using hnd
    have hq1 : q.1 ∉ rest.map Prod.fst := (List.nodup_cons.1 hnd2).1
    have hq2 : (rest.map Prod.fst).Nodup := (List.nodup_cons.1 hnd2).2
    rcases List.mem_cons.1 hp with heq | hp
    · subst heq
      rcases List.mem_cons.1 hp' with heq' | hp'
      · rw [heq']
      · exact absurd (List.mem_map.2 ⟨p', hp', hk.symm⟩) hq1
    · rcases List.mem_cons.1 hp' with heq' | hp'
      · have hmem : p.1 ∈ rest.map Prod.fst := List.mem_map.2 ⟨p, hp, rfl⟩
        rw [hk, heq'] at hmem
        exact absurd hmem hq1
      · exact ih hq2 hp hp' hk

theorem blocksFold_spec :
    ∀ (L : List Attrs) (acc : List (Attrs × List Attrs)),
    ((acc.map Prod.fst).Nodup) →
    (∀ p ∈ acc, ∀ z ∈ p.2, z.dropLast = p.1) →
    (∀ p ∈ acc, p.2.Nodup) →
    (∀ p ∈ acc, ∀ z ∈ p.2, z ∉ L) →
    L.Nodup →
    (((L.foldl (fun a atts => blocksAdd a atts.dropLast atts) acc).map Prod.fst).Nodup) ∧
    (∀ p ∈ L.foldl (fun a atts => blocksAdd a atts.dropLast atts) acc,
      (∀ z ∈ p.2, z.dropLast = p.1) ∧ p.2.Nodup ∧
      (∀ z ∈ p.2, z ∈ L ∨ ∃ p₀ ∈ acc, z ∈ p₀.2)) ∧
    (∀ x ∈ L, ∃ p ∈ L.foldl (fun a atts => blocksAdd a atts.dropLast atts) acc, x ∈ p.2) := by
  intro L
  induction L with
  | nil =>
    intro acc h1 h2 h3 _ _
    refine ⟨h1, fun p hp => ⟨h2 p hp, h3 p hp, fun z hz => Or.inr ⟨p, hp, hz⟩⟩, by simp⟩
  | cons x L ih =>
    intro acc hkeys hdrop hnd hdisj hLnd
    have hLnd' := List.nodup_cons.1 hLnd
    set acc' := blocksAdd acc x.dropLast x with hacc'
    have hkeys' : (acc'.map Prod.fst).Nodup := by
      rw [hacc', blocksAdd_keys]
      by_cases hm : x.dropLast ∈ acc.map Prod.fst
      · simp [hm, hkeys]
      · simp only [hm, if_false]
        rw [List.nodup_append]
        exact ⟨hkeys, List.nodup_singleton _, by simpa using hm⟩
    have hdrop' : ∀ p ∈ acc', ∀ z ∈ p.2, z.dropLast = p.1 := by
      intro p hp z hz
      rcases mem_blocksAdd_cases acc x.dropLast x p hp with h | ⟨lst, hl, rfl⟩ | rfl
      · exact hdrop p h z hz
      · rcases List.mem_append.1 hz with hz | hz
        · exact hdrop (x.dropLast, lst) hl z hz
        · simp at hz; subst hz; rfl
      · simp at hz; subst hz; rfl
    have hnd' : ∀ p ∈ acc', p.2.Nodup := by
      intro p hp
      rcases mem_blocksAdd_cases acc x.dropLast x p hp with h | ⟨lst, hl, rfl⟩ | rfl
      · exact hnd p h
      · simp only
        rw [List.nodup_append]
        refine ⟨hnd (x.dropLast, lst) hl, List.nodup_singleton _, ?_⟩
        intro z hz
        have := hdisj (x.dropLast, lst) hl z hz
        simp only [List.mem_singleton]
        intro h; subst h
        exact this (by simp)
      · simp
    have hdisj' : ∀ p ∈ acc', ∀ z ∈ p.2, z ∉ L := by
      intro p hp z hz
      rcases mem_blocksAdd_cases acc x.dropLast x p hp with h | ⟨lst, hl, rfl⟩ | rfl
      · exact fun hzl => hdisj p h z hz (by simp [hzl])
      · rcases List.mem_append.1 hz with hz | hz
        · exact fun hzl => hdisj (x.dropLast, lst) hl z hz (by simp [hzl])
        · simp at hz; subst hz; exact hLnd'.1
      · simp at hz; subst hz; exact hLnd'.1
    obtain ⟨g1, g2, g3⟩ := ih acc' hkeys' hdrop' hnd' hdisj' hLnd'.2
    refine ⟨g1, ?_, ?_⟩
    · intro p hp
      obtain ⟨k1, k2, k3⟩ := g2 p hp
      refine ⟨k1, k2, ?_⟩
      intro z hz
      rcases k3 z hz with h | ⟨p₀, hp₀, hzp₀⟩
      · exact Or.inl (by simp [h])
      · rcases mem_blocksAdd_cases acc x.dropLast x p₀ hp₀ with h | ⟨lst, hl, rfl⟩ | rfl
        · exact Or.inr ⟨p₀, h, hzp₀⟩
        · rcases List.mem_append.1 hzp₀ with hz' | hz'
          · exact Or.inr ⟨(x.dropLast, lst), hl, hz'⟩
          · simp at hz'; subst hz'; exact Or.inl (by simp)
        · simp at hzp₀; subst hzp₀; exact Or.inl (by simp)
    · intro z hz
      rcases List.mem_cons.1 hz with rfl | hz
      · -- z is the head: it lands in acc' and is preserved by the fold
        obtain ⟨q, hq, _, hzq⟩ := blocksAdd_self acc z.dropLast z
        -- fold preservation
        have : ∀ (M : List Attrs) (a : List (Attrs × List Attrs)),
            (∃ p ∈ a, z ∈ p.2) →
            ∃ p ∈ M.foldl (fun a atts => blocksAdd a atts.dropLast atts) a, z ∈ p.2 := by
          intro M
          induction M with
          | nil => intro a h; simpa using h
          | cons w M ihM =>
            intro a h
            exact ihM _ (blocksAdd_preserves a w.dropLast w z h)
        exact this L acc' ⟨q, hq, hzq⟩
      · exact g3 z hz

theorem prefixBlocks_spec (L : List Attrs) (hnd : L.Nodup) :
    (∀ k ∈ prefixBlocks L, k.Nodup ∧
      (∀ x ∈ k, x ∈ L) ∧ (∀ x ∈ k, ∀ x' ∈ k, x.dropLast = x'.dropLast)) ∧
    (∀ A B, A ∈ L → B ∈ L → A ≠ B → A.dropLast = B.dropLast →
      ∃ k ∈ prefixBlocks L, A ∈ k ∧ B ∈ k) := by
  obtain ⟨g1, g2, g3⟩ := blocksFold_spec L [] (by simp) (by simp) (by simp) (by simp) hnd
  constructor
  · intro k hk
    obtain ⟨p, hp, rfl⟩ := List.mem_map.1 hk
    obtain ⟨k1, k2, k3⟩ := g2 p hp
    refine ⟨k2, ?_, ?_⟩
    · intro x hx
      rcases k3 x hx with h | ⟨p₀, hp₀, _⟩
      · exact h
      · simp at hp₀
    · intro x hx x' hx'
      rw [k1 x hx, k1 x' hx']
  · intro A B hA hB hAB hdrop
    obtain ⟨p, hp, hAp⟩ := g3 A hA
    obtain ⟨p', hp', hBp'⟩ := g3 B hB
    obtain ⟨k1, _, _⟩ := g2 p hp
    obtain ⟨k1', _, _⟩ := g2 p' hp'
    have hkey : p.1 = p'.1 := by rw [← k1 A hAp, ← k1' B hBp', hdrop]
    have : p = p' := assoc_same_key _ g1 hp hp' hkey
    subst this
    exact ⟨p.2, List.mem_map.2 ⟨p, hp, rfl⟩, hAp, hBp'⟩

/-! ### Formation of the joined candidate -/

theorem getLastD_mem {l : List Nat} (h : l ≠ []) (d : Nat) : l.getLastD d ∈ l := by
  induction l generalizing d with
  | nil => exact absurd rfl h
  | cons x xs ih =>
    rw [List.getLastD_cons]
    cases xs with
    | nil => simp
    | cons y ys => simpa using Or.inr (ih (by simp) x)

theorem sorted_mem_le_getLastD {l : List Nat} (h : l.Sorted (· < ·)) :
    ∀ a ∈ l, ∀ d, a ≤ l.getLastD d := by
  induction l with
  | nil => intro a ha; simp at ha
  | cons x xs ih =>
    intro a ha d
    rw [List.getLastD_cons]
    have hx : ∀ b ∈ xs, x < b := fun b hb => List.rel_of_sorted_cons h b hb
    have hs : xs.Sorted (· < ·) := h.of_cons
    rcases List.mem_cons.1 ha with rfl | ha
    · cases xs with
      | nil => simp
      | cons y ys =>
        have : y ≤ (y :: ys).getLastD a := ih hs y (by simp) a
        rw [List.getLastD_cons] at this ⊢
        exact le_trans (le_of_lt (hx y (by simp))) this
    · exact ih hs a ha x

theorem dropLast_append_getLastD {l : Attrs} (h : l ≠ []) :
    l.dropLast ++ [l.getLastD 0] = l := by
  cases l with
  | nil => exact absurd rfl h
  | cons x xs =>
    have h2 := List.dropLast_append_getLast (l := x :: xs) (by simp)
    rw [List.getLast_eq_getLastD] at h2
    rw [List.getLastD_cons]
    exact h2

theorem getLastD_inj {A B : Attrs} (hA : A ≠ []) (hB : B ≠ [])
    (hdrop : A.dropLast = B.dropLast) (hlast : A.getLastD 0 = B.getLastD 0) : A = B := by
  rw [← dropLast_append_getLastD hA, ← dropLast_append_getLastD hB, hdrop, hlast]

theorem joinX_wf {n l : Nat} {A B : Attrs} (hA : wfKey n A) (hB : wfKey n B)
    (hlA : A.length = l) (hlB : B.length = l) (hl : 1 ≤ l)
    (hdrop : A.dropLast = B.dropLast) (hne : A ≠ B) :
    wfKey n (joinX A B) ∧ (joinX A B).length = l + 1 := by
  have hAne : A ≠ [] := by
    intro h; subst h; simp at hlA; omega
  have hBne : B ≠ [] := by
    intro h; subst h; simp at hlB; omega
  have hlast : A.getLastD 0 ≠ B.getLastD 0 := by
    intro h
    exact hne (getLastD_inj hAne hBne hdrop h)
  have main : ∀ P Q : Attrs, wfKey n P → wfKey n Q → P.length = l → Q.length = l →
      P ≠ [] → Q ≠ [] → P.dropLast = Q.dropLast → P.getLastD 0 < Q.getLastD 0 →
      wfKey n (P ++ [Q.getLastD 0]) ∧ (P ++ [Q.getLastD 0]).length = l + 1 := by
    intro P Q hP hQ hlP hlQ hPne hQne hd hlt
    constructor
    · constructor
      · rw [List.Sorted, List.pairwise_append]
        refine ⟨hP.1, List.pairwise_singleton _ _, ?_⟩
        intro a ha b hb
        simp only [List.mem_singleton] at hb
        subst hb
        exact lt_of_le_of_lt (sorted_mem_le_getLastD hP.1 a ha 0) hlt
      · intro a ha
        rcases List.mem_append.1 ha with ha | ha
        · exact hP.2 a ha
        · simp only [List.mem_singleton] at ha
          subst ha
          exact hQ.2 _ (getLastD_mem hQne 0)
    · simp [hlP]
  rcases lt_or_gt_of_ne hlast with hlt | hgt
  · rw [joinX, if_pos hlt]
    exact main A B hA hB hlA hlB hAne hBne hdrop hlt
  · have hnotlt : ¬ A.getLastD 0 < B.getLastD 0 := not_lt_of_gt hgt
    rw [joinX, if_neg hnotlt]
    exact main B A hB hA hlB hlA hBne hAne hdrop.symm hgt

theorem joinX_concat {A : Attrs} {a b : Nat} (hab : a < b) :
    joinX (A ++ [a]) (A ++ [b]) = A ++ [a, b] := by
  have h1 : (A ++ [a]).getLastD 0 = a := List.getLastD_concat _ _ _
  have h2 : (A ++ [b]).getLastD 0 = b := List.getLastD_concat _ _ _
  rw [joinX, h1, h2, if_pos hab]
  simp

theorem two_tail_decomp : ∀ (X : Attrs), 2 ≤ X.length → ∃ Y a b, X = Y ++ [a, b] := by
  intro X
  induction X with
  | nil => intro h; simp at h
  | cons x xs ih =>
    intro h
    cases xs with
    | nil => simp at h
    | cons y ys =>
      cases ys with
      | nil => exact ⟨[], x, y, rfl⟩
      | cons z zs =>
        obtain ⟨Y, a, b, heq⟩ := ih (by simp)
        exact ⟨x :: Y, a, b, by simp [heq]⟩

theorem eraseIdx_concat_two_last (Y : Attrs) (a b : Nat) :
    (Y ++ [a, b]).eraseIdx (Y.length + 1) = Y ++ [a] := by
  induction Y with
  | nil => rfl
  | cons x xs ih => simpa [List.eraseIdx] using ih

theorem eraseIdx_concat_two_fst (Y : Attrs) (a b : Nat) :
    (Y ++ [a, b]).eraseIdx Y.length = Y ++ [b] := by
  induction Y with
  | nil => rfl
  | cons x xs ih => simpa [List.eraseIdx] using ih

theorem sorted_two_tail {Y : Attrs} {a b : Nat}
    (h : (Y ++ [a, b]).Sorted (· < ·)) : a < b := by
  rw [List.Sorted, List.pairwise_append] at h
  have h2 := h.2.1
  have hb : b ∈ [b] := by simp
  exact List.rel_of_pairwise_cons h2 hb

theorem joinX_comm {A B : Attrs} (h : A.getLastD 0 ≠ B.getLastD 0) :
    joinX A B = joinX B A := by
  rcases lt_or_gt_of_ne h with hlt | hgt
  · rw [joinX, if_pos hlt, joinX, if_neg (not_lt_of_gt hlt)]
  · rw [joinX, if_neg (not_lt_of_gt hgt), joinX, if_pos hgt]

theorem joinX_lasts_ne {n l : Nat} {A B : Attrs} (hA : wfKey n A) (hB : wfKey n B)
    (hlA : A.length = l) (hlB : B.length = l) (hl : 1 ≤ l)
    (hdrop : A.dropLast = B.dropLast) (hne : A ≠ B) :
    A.getLastD 0 ≠ B.getLastD 0 := by
  intro h
  have hAne : A ≠ [] := by intro hh; subst hh; simp at hlA; omega
  have hBne : B ≠ [] := by intro hh; subst hh; simp at hlB; omega
  exact hne (getLastD_inj hAne hBne hdrop h)

/-- One genPair step preserves the generation invariant and adds the join
of its pair when the admissibility test passes. -/
theorem genPair_spec {n lvl : Nat} {L : List Attrs} {m : LvlMap} {C : Cache}
    (hlen : ∀ X ∈ L, X.length = lvl) (hwf : ∀ X ∈ L, wfKey n X) (hl : 1 ≤ lvl)
    (hmC : alook C lvl = some (some m)) (hmL : ∀ X ∈ L, (alook m X).isSome)
    (acc : TState × List Attrs) (ij : Attrs × Attrs)
    (hi : ij.1 ∈ L) (hj : ij.2 ∈ L) (hne : ij.1 ≠ ij.2)
    (hdrop : ij.1.dropLast = ij.2.dropLast)
    (hK : ∀ k, k ≠ lvl + 1 → alook acc.1.cache k = alook C k)
    (m' : LvlMap) (hm' : alook acc.1.cache (lvl + 1) = some (some m'))
    (hmem : ∀ X ∈ acc.2, (alook m' X).isSome)
    (hdomm : ∀ X, (alook m' X).isSome → X ∈ acc.2)
    (hnd : acc.2.Nodup)
    (hchar : ∀ X ∈ acc.2, genChar L m m' X) :
    ∃ st' nl' m'', genPair L acc ij = Except.ok (st', nl') ∧
      st'.cplus = acc.1.cplus ∧ st'.rules = acc.1.rules ∧
      st'.curLevel = acc.1.curLevel ∧
      (∀ k, k ≠ lvl + 1 → alook st'.cache k = alook C k) ∧
      alook st'.cache (lvl + 1) = some (some m'') ∧
      (∀ X ∈ nl', (alook m'' X).isSome) ∧
      (∀ X, (alook m'' X).isSome → X ∈ nl') ∧
      nl'.Nodup ∧
      (∀ X ∈ nl', genChar L m m'' X) ∧
      (∀ X ∈ acc.2, X ∈ nl') ∧
      (((List.range (joinX ij.1 ij.2).length).all
          (fun a => decide ((joinX ij.1 ij.2).eraseIdx a ∈ L))) = true →
        joinX ij.1 ij.2 ∈ nl') := by
  obtain ⟨hwfX, hlenX⟩ :=
    joinX_wf (hwf _ hi) (hwf _ hj) (hlen _ hi) (hlen _ hj) hl hdrop hne
  by_cases hguard : ((List.range (joinX ij.1 ij.2).length).all
      (fun a => decide ((joinX ij.1 ij.2).eraseIdx a ∈ L))) = true
  · -- the admissibility test passes: register and add
    obtain ⟨pi, hpi⟩ := Option.isSome_iff_exists.1 (hmL _ hi)
    obtain ⟨pj, hpj⟩ := Option.isSome_iff_exists.1 (hmL _ hj)
    have hci : cacheGet acc.1.cache ij.1.length ij.1 = Except.ok pi := by
      have h1 : alook acc.1.cache ij.1.length = some (some m) := by
        rw [hlen _ hi, hK lvl (by omega)]
        exact hmC
      simp [cacheGet, h1, hpi]
    have hcj : cacheGet acc.1.cache ij.2.length ij.2 = Except.ok pj := by
      have h1 : alook acc.1.cache ij.2.length = some (some m) := by
        rw [hlen _ hj, hK lvl (by omega)]
        exact hmC
      simp [cacheGet, h1, hpj]
    set X := joinX ij.1 ij.2 with hX
    set m2 := aset m' X (PPattern.intersection pi pj) with hm2
    set st' : TState :=
      { acc.1 with cache := aset acc.1.cache (lvl + 1) (some m2) } with hst'
    have hreg : regPartition acc.1 X ij.1 ij.2 = Except.ok st' := by
      simp only [regPartition, hci, hcj, hlenX, hm']
    set nl' := if X ∈ acc.2 then acc.2 else acc.2 ++ [X] with hnl'
    have hZcases : ∀ Z, Z ∈ nl' → Z ∈ acc.2 ∨ Z = X := by
      intro Z hZ
      rw [hnl'] at hZ
      by_cases hXin : X ∈ acc.2
      · rw [if_pos hXin] at hZ
        exact Or.inl hZ
      · rw [if_neg hXin] at hZ
        rcases List.mem_append.1 hZ with h | h
        · exact Or.inl h
        · exact Or.inr (by simpa using h)
    have hXmem : X ∈ nl' := by
      rw [hnl']
      by_cases hXin : X ∈ acc.2
      · rw [if_pos hXin]; exact hXin
      · rw [if_neg hXin]; simp
    refine ⟨st', nl', m2, ?_, rfl, rfl, rfl, ?_, ?_, ?_, ?_, ?_, ?_, ?_, fun _ => hXmem⟩
    · simp only [genPair, hguard, if_true]
      rw [hreg]
    · intro k hk
      show alook (aset acc.1.cache (lvl + 1) (some m2)) k = alook C k
      rw [alook_aset_ne _ _ _ _ hk]
      exact hK k hk
    · exact alook_aset_self _ _ _
    · intro Z hZ
      rcases hZcases Z hZ with h | h
      · by_cases hZX : Z = X
        · subst hZX
          rw [hm2, alook_aset_self]
          rfl
        · rw [hm2, alook_aset_ne _ _ _ _ hZX]
          exact hmem Z h
      · subst h
        rw [hm2, alook_aset_self]
        rfl
    · intro Z hZ
      rw [hm2] at hZ
      by_cases hZX : Z = X
      · subst hZX
        exact hXmem
      · rw [alook_aset_ne _ _ _ _ hZX] at hZ
        have hZa : Z ∈ acc.2 := hdomm Z hZ
        rw [hnl']
        by_cases hXin : X ∈ acc.2
        · rw [if_pos hXin]; exact hZa
        · rw [if_neg hXin]; exact List.mem_append.2 (Or.inl hZa)
    · rw [hnl']
      by_cases hXin : X ∈ acc.2
      · rw [if_pos hXin]; exact hnd
      · rw [if_neg hXin]
        rw [List.nodup_append]
        refine ⟨hnd, List.nodup_singleton _, ?_⟩
        intro a ha hb
        simp only [List.mem_singleton] at hb
        subst hb
        exact hXin ha
    · intro Z hZ
      by_cases hZX : Z = X
      · subst hZX
        refine ⟨ij.1, ij.2, pi, pj, hi, hj, hne, hdrop, rfl, ?_, hpi, hpj, ?_⟩
        · intro i hi2
          have := List.all_eq_true.1 hguard i (List.mem_range.2 hi2)
          simpa using this
        · left
          rw [hm2, alook_aset_self]
      · rcases hZcases Z hZ with h | h
        · obtain ⟨A, B, pA, pB, k1, k2, k3, k4, k5, k6, k7, k8, k9⟩ := hchar Z h
          refine ⟨A, B, pA, pB, k1, k2, k3, k4, k5, k6, k7, k8, ?_⟩
          rw [hm2, alook_aset_ne _ _ _ _ hZX]
          exact k9
        · exact absurd h hZX
    · intro Z hZ
      rw [hnl']
      by_cases hXin : X ∈ acc.2
      · rw [if_pos hXin]; exact hZ
      · rw [if_neg hXin]; simp [hZ]
  · -- the admissibility test fails: nothing changes
    refine ⟨acc.1, acc.2, m', ?_, rfl, rfl, rfl, hK, hm', hmem, hdomm, hnd, hchar,
      fun Z hZ => hZ, fun h => absurd h hguard⟩
    simp only [genPair, hguard]
    rfl

theorem genPairs_fold_spec {n lvl : Nat} {L : List Attrs} {m : LvlMap} {C : Cache}
    (hlen : ∀ X ∈ L, X.length = lvl) (hwf : ∀ X ∈ L, wfKey n X) (hl : 1 ≤ lvl)
    (hmC : alook C lvl = some (some m)) (hmL : ∀ X ∈ L, (alook m X).isSome) :
    ∀ (PS : List (Attrs × Attrs)),
    (∀ ij ∈ PS, ij.1 ∈ L ∧ ij.2 ∈ L ∧ ij.1 ≠ ij.2 ∧ ij.1.dropLast = ij.2.dropLast) →
    ∀ (acc : TState × List Attrs) (m' : LvlMap),
    (∀ k, k ≠ lvl + 1 → alook acc.1.cache k = alook C k) →
    alook acc.1.cache (lvl + 1) = some (some m') →
    (∀ X ∈ acc.2, (alook m' X).isSome) →
    (∀ X, (alook m' X).isSome → X ∈ acc.2) → acc.2.Nodup →
    (∀ X ∈ acc.2, genChar L m m' X) →
    ∃ st' nl' m'', PS.foldlM (genPair L) acc = Except.ok (st', nl') ∧
      st'.cplus = acc.1.cplus ∧ st'.rules = acc.1.rules ∧
      st'.curLevel = acc.1.curLevel ∧
      (∀ k, k ≠ lvl + 1 → alook st'.cache k = alook C k) ∧
      alook st'.cache (lvl + 1) = some (some m'') ∧
      (∀ X ∈ nl', (alook m'' X).isSome) ∧
      (∀ X, (alook m'' X).isSome → X ∈ nl') ∧ nl'.Nodup ∧
      (∀ X ∈ nl', genChar L m m'' X) ∧
      (∀ X ∈ acc.2, X ∈ nl') ∧
      (∀ ij ∈ PS, ((List.range (joinX ij.1 ij.2).length).all
          (fun a => decide ((joinX ij.1 ij.2).eraseIdx a ∈ L))) = true →
        joinX ij.1 ij.2 ∈ nl') := by
  intro PS
  induction PS with
  | nil =>
    intro _ acc m' h1 h2 h3 h3d h4 h5
    exact ⟨acc.1, acc.2, m', rfl, rfl, rfl, rfl, h1, h2, h3, h3d, h4, h5,
      fun X hX => hX, by simp⟩
  | cons ij PS ih =>
    intro hPS acc m' h1 h2 h3 h3d h4 h5
    obtain ⟨hi, hj, hne, hdrop⟩ := hPS ij (by simp)
    obtain ⟨st1, nl1, m1, g0, g1, g2, g3, g4, g5, g6, g6d, g7, g8, g9, g10⟩ :=
      genPair_spec hlen hwf hl hmC hmL acc ij hi hj hne hdrop h1 m' h2 h3 h3d h4 h5
    obtain ⟨st', nl', m'', f0, f1, f2, f3, f4, f5, f6, f6d, f7, f8, f9, f10⟩ :=
      ih (fun p hp => hPS p (by simp [hp])) (st1, nl1) m1 g4 g5 g6 g6d g7 g8
    refine ⟨st', nl', m'', ?_, by rw [f1]; exact g1, by rw [f2]; exact g2,
      by rw [f3]; exact g3, f4, f5, f6, f6d, f7, f8, fun X hX => f9 X (g9 X hX), ?_⟩
    · simp only [List.foldlM, bind, Except.bind, g0]
      exact f0
    · intro p hp
      rcases List.mem_cons.1 hp with heq | hp
      · subst heq
        intro hg
        exact f9 _ (g10 hg)
      · exact f10 p hp

theorem genBlocks_fold_spec {n lvl : Nat} {L : List Attrs} {m : LvlMap} {C : Cache}
    (hlen : ∀ X ∈ L, X.length = lvl) (hwf : ∀ X ∈ L, wfKey n X) (hl : 1 ≤ lvl)
    (hmC : alook C lvl = some (some m)) (hmL : ∀ X ∈ L, (alook m X).isSome) :
    ∀ (ks : List (List Attrs)),
    (∀ k ∈ ks, k.Nodup ∧ (∀ x ∈ k, x ∈ L) ∧
      (∀ x ∈ k, ∀ x' ∈ k, x.dropLast = x'.dropLast)) →
    ∀ (acc : TState × List Attrs) (m' : LvlMap),
    (∀ k, k ≠ lvl + 1 → alook acc.1.cache k = alook C k) →
    alook acc.1.cache (lvl + 1) = some (some m') →
    (∀ X ∈ acc.2, (alook m' X).isSome) →
    (∀ X, (alook m' X).isSome → X ∈ acc.2) → acc.2.Nodup →
    (∀ X ∈ acc.2, genChar L m m' X) →
    ∃ st' nl' m'', (ks.foldlM (fun acc k => (pairs k).foldlM (genPair L) acc) acc) =
        Except.ok (st', nl') ∧
      st'.cplus = acc.1.cplus ∧ st'.rules = acc.1.rules ∧
      st'.curLevel = acc.1.curLevel ∧
      (∀ k, k ≠ lvl + 1 → alook st'.cache k = alook C k) ∧
      alook st'.cache (lvl + 1) = some (some m'') ∧
      (∀ X ∈ nl', (alook m'' X).isSome) ∧
      (∀ X, (alook m'' X).isSome → X ∈ nl') ∧ nl'.Nodup ∧
      (∀ X ∈ nl', genChar L m m'' X) ∧
      (∀ X ∈ acc.2, X ∈ nl') ∧
      (∀ k ∈ ks, ∀ ij ∈ pairs k,
        ((List.range (joinX ij.1 ij.2).length).all
          (fun a => decide ((joinX ij.1 ij.2).eraseIdx a ∈ L))) = true →
        joinX ij.1 ij.2 ∈ nl') := by
  intro ks
  induction ks with
  | nil =>
    intro _ acc m' h1 h2 h3 h3d h4 h5
    exact ⟨acc.1, acc.2, m', rfl, rfl, rfl, rfl, h1, h2, h3, h3d, h4, h5,
      fun X hX => hX, by simp⟩
  | cons k ks ih =>
    intro hks acc m' h1 h2 h3 h3d h4 h5
    obtain ⟨hknd, hkL, hkdrop⟩ := hks k (by simp)
    have hpairs : ∀ ij ∈ pairs k, ij.1 ∈ L ∧ ij.2 ∈ L ∧ ij.1 ≠ ij.2 ∧
        ij.1.dropLast = ij.2.dropLast := by
      intro ij hij
      obtain ⟨ha, hb⟩ := mem_pairs hij
      exact ⟨hkL _ ha, hkL _ hb, mem_pairs_ne hknd hij, hkdrop _ ha _ hb⟩
    obtain ⟨st1, nl1, m1, g0, g1, g2, g3, g4, g5, g6, g6d, g7, g8, g9, g10⟩ :=
      genPairs_fold_spec hlen hwf hl hmC hmL (pairs k) hpairs acc m' h1 h2 h3 h3d h4 h5
    obtain ⟨st', nl', m'', f0, f1, f2, f3, f4, f5, f6, f6d, f7, f8, f9, f10⟩ :=
      ih (fun b hb => hks b (by simp [hb])) (st1, nl1) m1 g4 g5 g6 g6d g7 g8
    refine ⟨st', nl', m'', ?_, by rw [f1]; exact g1, by rw [f2]; exact g2,
      by rw [f3]; exact g3, f4, f5, f6, f6d, f7, f8, fun X hX => f9 X (g9 X hX), ?_⟩
    · simp only [List.foldlM, bind, Except.bind, g0]
      exact f0
    · intro b hb ij hij hg
      rcases List.mem_cons.1 hb with heq | hb
      · subst heq
        exact f9 _ (g10 ij hij hg)
      · exact f10 b hb ij hij hg

theorem generateNextLevel_spec {n : Nat} (st : TState) (L : List Attrs) (m : LvlMap)
    (hlen : ∀ X ∈ L, X.length = st.curLevel)
    (hwf : ∀ X ∈ L, wfKey n X)
    (hnd : L.Nodup)
    (hcur : 1 ≤ st.curLevel)
    (hm : alook st.cache st.curLevel = some (some m))
    (hmL : ∀ X ∈ L, (alook m X).isSome) :
    ∃ st' L' m', generateNextLevel st L = Except.ok (st', L') ∧
      st'.curLevel = st.curLevel + 1 ∧
      st'.cplus = st.cplus ∧ st'.rules = st.rules ∧
      (∀ k, k ≠ st.curLevel + 1 → alook st'.cache k = alook st.cache k) ∧
      alook st'.cache (st.curLevel + 1) = some (some m') ∧
      (∀ X ∈ L', (alook m' X).isSome) ∧
      (∀ X, (alook m' X).isSome → X ∈ L') ∧
      L'.Nodup ∧
      (∀ X ∈ L', genChar L m m' X) ∧
      (∀ X, X ∈ L' ↔ (X.length = st.curLevel + 1 ∧ wfKey n X ∧
        ∀ i < X.length, X.eraseIdx i ∈ L)) := by
  obtain ⟨hblocks, hcompl⟩ := prefixBlocks_spec L hnd
  set st₁ : TState :=
    { st with curLevel := st.curLevel + 1
              cache := aset st.cache (st.curLevel + 1) (some []) } with hst₁
  have h1 : ∀ k, k ≠ st.curLevel + 1 → alook st₁.cache k = alook st.cache k := by
    intro k hk
    exact alook_aset_ne _ _ _ _ hk
  have h2 : alook st₁.cache (st.curLevel + 1) = some (some []) :=
    alook_aset_self _ _ _
  obtain ⟨st', nl', m', f0, f1, f2, f3, f4, f5, f6, f6d, f7, f8, _, f10⟩ :=
    genBlocks_fold_spec hlen hwf hcur hm hmL (prefixBlocks L) hblocks
      (st₁, []) [] h1 h2 (by simp)
      (by intro X hX; simp [alook] at hX) (by simp) (by simp)
  have hrun : generateNextLevel st L = Except.ok (st', nl') := by
    simp only [generateNextLevel]
    exact f0
  refine ⟨st', nl', m', hrun, by rw [f3], by rw [f1], by rw [f2], f4, f5, f6, f6d, f7, f8, ?_⟩
  intro X
  constructor
  · intro hX
    obtain ⟨A, B, pA, pB, k1, k2, k3, k4, k5, k6, _, _, _⟩ := f8 X hX
    obtain ⟨hwfX, hlenX⟩ :=
      joinX_wf (n := n) (l := st.curLevel) (hwf _ k1) (hwf _ k2)
        (hlen _ k1) (hlen _ k2) hcur k4 k3
    rw [← k5] at hwfX hlenX
    exact ⟨hlenX, hwfX, k6⟩
  · rintro ⟨hlenX, hwfX, hsub⟩
    have hlen2 : 2 ≤ X.length := by omega
    obtain ⟨Y, a, b, rfl⟩ := two_tail_decomp X hlen2
    have hab : a < b := sorted_two_tail hwfX.1
    have hYlen : (Y ++ [a, b]).length = Y.length + 2 := by simp
    have hA : Y ++ [a] ∈ L := by
      have := hsub (Y.length + 1) (by omega)
      rwa [eraseIdx_concat_two_last] at this
    have hB : Y ++ [b] ∈ L := by
      have := hsub Y.length (by omega)
      rwa [eraseIdx_concat_two_fst] at this
    have hABne : Y ++ [a] ≠ Y ++ [b] := by
      intro h
      have : a = b := by
        have h1 := List.getLastD_concat 0 a Y
        have h2 := List.getLastD_concat 0 b Y
        rw [← h1, ← h2, h]
      omega
    have hdropAB : (Y ++ [a]).dropLast = (Y ++ [b]).dropLast := by
      rw [List.dropLast_concat, List.dropLast_concat]
    obtain ⟨k, hk, hAk, hBk⟩ := hcompl _ _ hA hB hABne hdropAB
    have hknd : k.Nodup := (hblocks k hk).1
    have hjoin : joinX (Y ++ [a]) (Y ++ [b]) = Y ++ [a, b] := joinX_concat hab
    have hlastne : (Y ++ [a]).getLastD 0 ≠ (Y ++ [b]).getLastD 0 := by
      rw [List.getLastD_concat, List.getLastD_concat]
      omega
    have hguard : ((List.range (Y ++ [a, b]).length).all
        (fun i => decide ((Y ++ [a, b]).eraseIdx i ∈ L))) = true := by
      rw [List.all_eq_true]
      intro i hi
      simp only [decide_eq_true_eq]
      exact hsub i (List.mem_range.1 hi)
    rcases pairs_complete hAk hBk hABne with hp | hp
    · have := f10 k hk (Y ++ [a], Y ++ [b]) hp
      simp only at this
      rw [hjoin] at this
      exact this hguard
    · have := f10 k hk (Y ++ [b], Y ++ [a]) hp
      simp only at this
      rw [joinX_comm (Ne.symm hlastne), hjoin] at this
      exact this hguard

/-! ### The driver step and totality -/

theorem alook_append {α β : Type} [DecidableEq α] (l₁ l₂ : List (α × β)) (k : α) :
    alook (l₁ ++ l₂) k =
      match alook l₁ k with
      | some v => some v
      | none => alook l₂ k := by
  induction l₁ with
  | nil => rfl
  | cons p rest ih =>
    cases p with
    | mk a b =>
      by_cases hk : k = a
      · simp [alook, hk]
      · simp [alook, hk, ih]

theorem alook_range_map_none {β : Type} (f : Nat → β) :
    ∀ (n t : Nat), n ≤ t →
    alook ((List.range n).map (fun j => (([j] : Attrs), f j))) [t] = none := by
  intro n
  induction n with
  | zero => intro t _; rfl
  | succ n ih =>
    intro t ht
    rw [List.range_succ, List.map_append, alook_append, ih t (by omega)]
    have hne : ([t] : Attrs) ≠ [n] := by simp; omega
    simp [alook, hne]

theorem alook_range_map {β : Type} (f : Nat → β) :
    ∀ (n i : Nat), i < n →
    alook ((List.range n).map (fun j => (([j] : Attrs), f j))) [i] = some (f i) := by
  intro n
  induction n with
  | zero => intro i hi; omega
  | succ n ih =>
    intro i hi
    rw [List.range_succ, List.map_append, alook_append]
    by_cases hin : i < n
    · rw [ih i hin]
    · have hieq : i = n := by omega
      subst hieq
      rw [alook_range_map_none f i i le_rfl]
      simp [alook]

/-- One driver iteration preserves the structural invariant, succeeds,
and advances the level counter, and the cache afterwards holds exactly
levels curLevel and curLevel - 1, the purge having removed the map two
levels behind the new current level (which was present before). -/
theorem taneStep_spec {n : Nat} (T : List Partn) (st : TState) (L : List Attrs)
    (hinv : SInv n st L) :
    ∃ st' L', taneStep T st L = Except.ok (st', L') ∧ SInv n st' L' ∧
      st'.curLevel = st.curLevel + 1 ∧
      (alook st.cache (st'.curLevel - 2)).isSome ∧
      alook st'.cache (st'.curLevel - 2) = none ∧
      (∀ K v, alook st.cplus K = some v →
        ∃ v', alook st'.cplus K = some v' ∧ v' ⊆ v) := by
  obtain ⟨hcur, hlenL, hwfL, hndL, hcpe, hdom, ⟨mc, hmc, hmcL⟩, hprev⟩ := hinv
  have hne : ∀ X ∈ L, X ≠ [] := by
    intro X hX h
    subst h
    have := hlenL [] hX
    simp at this
    omega
  -- phase 1: compute_dependencies
  have hchk : ∀ X ∈ L, ∀ y ∈ X, ∃ b, checkFD T st.cache (X.erase y) y = Except.ok b := by
    intro X hX y hy
    by_cases hLHS : X.erase y = []
    · exact ⟨false, by simp [checkFD, hLHS]⟩
    · have hXlen : X.length = st.curLevel := hlenL X hX
      have hlenE : (X.erase y).length = X.length - 1 := length_erase_of_mem hy
      have hc2 : 2 ≤ st.curLevel := by
        rcases Nat.lt_or_ge st.curLevel 2 with h | h
        · exfalso
          have h1 : st.curLevel = 1 := by omega
          have h0 : (X.erase y).length = 0 := by omega
          exact hLHS (List.length_eq_zero.1 h0)
        · exact h
      obtain ⟨mp, hmp, hmpL⟩ := hprev hc2
      obtain ⟨i, hi, heq⟩ := erase_eq_eraseIdx_of_mem hy
      have hsome : (alook mp (X.erase y)).isSome := by
        rw [heq]
        exact hmpL X hX i hi
      obtain ⟨p, hp⟩ := Option.isSome_iff_exists.1 hsome
      refine ⟨PPattern.leq p (T.getD y []), ?_⟩
      have hlev : (X.erase y).length = st.curLevel - 1 := by omega
      simp [checkFD, hLHS, cacheGet, hlev, hmp, hp]
  obtain ⟨st1, c0, c1, c2, c3, c4, cex, c5⟩ :=
    computeDependencies_ok T L st hne hcpe hchk
  -- phase 2: prune
  have hcg1 : ∀ X ∈ L, ∃ p, cacheGet st1.cache X.length X = Except.ok p := by
    intro X hX
    obtain ⟨p, hp⟩ := Option.isSome_iff_exists.1 (hmcL X hX)
    refine ⟨p, ?_⟩
    rw [c1]
    simp [cacheGet, hlenL X hX, hmc, hp]
  obtain ⟨st2, L2, p0, p1, p2, p3, p4, ⟨pex, p5⟩, psub⟩ :=
    prune_ok L st1 hne c3 hcg1
  -- phase 3: generate_next_level
  have hc2cur : st2.curLevel = st.curLevel := by rw [p2, c2]
  have hc2cache : st2.cache = st.cache := by rw [p1, c1]
  have hlen2 : ∀ X ∈ L2, X.length = st2.curLevel := by
    intro X hX
    rw [hc2cur]
    exact hlenL X (psub.subset hX)
  have hwf2 : ∀ X ∈ L2, wfKey n X := fun X hX => hwfL X (psub.subset hX)
  have hnd2 : L2.Nodup := psub.nodup hndL
  have hm2 : alook st2.cache st2.curLevel = some (some mc) := by
    rw [hc2cache, hc2cur]
    exact hmc
  have hm2L : ∀ X ∈ L2, (alook mc X).isSome := fun X hX => hmcL X (psub.subset hX)
  obtain ⟨st3, L3, m3, g0, g1, g2, g3, g4, g5, g6, g6d, g7, g8, g9⟩ :=
    generateNextLevel_spec (n := n) st2 L2 mc hlen2 hwf2 hnd2
      (by rw [hc2cur]; exact hcur) hm2 hm2L
  -- phase 4: memory wipe
  have hg1 : st3.curLevel = st.curLevel + 1 := by rw [g1, hc2cur]
  have hwipe0 : st3.curLevel - 2 = st.curLevel - 1 := by omega
  have hkeep : alook st3.cache (st.curLevel - 1) = alook st.cache (st.curLevel - 1) := by
    have hne2 : st.curLevel - 1 ≠ st2.curLevel + 1 := by omega
    rw [g4 _ hne2, hc2cache]
  have hsome1 : (alook st3.cache (st.curLevel - 1)).isSome := by
    rw [hkeep]
    exact (hdom (st.curLevel - 1)).2 (Or.inr rfl)
  obtain ⟨v1, hv1⟩ := Option.isSome_iff_exists.1 hsome1
  have hwipe : memoryWipe st3 = Except.ok
      { st3 with cache := adel st3.cache (st3.curLevel - 2) } := by
    rw [memoryWipe, hwipe0, hv1]
  set st4 : TState := { st3 with cache := adel st3.cache (st3.curLevel - 2) } with hst4
  have hrun : taneStep T st L = Except.ok (st4, L3) := by
    simp only [taneStep, c0, p0, g0, hwipe]
  have hcur4 : st4.curLevel = st.curLevel + 1 := by rw [hst4]; exact hg1
  -- the new invariant
  refine ⟨st4, L3, hrun, ?_, hcur4, ?_, ?_, ?_⟩
  · refine ⟨by omega, ?_, ?_, g7, ?_, ?_, ?_, ?_⟩
    · intro X hX
      rw [hcur4]
      rw [hc2cur] at g9
      exact ((g9 X).1 hX).1
    · intro X hX
      exact ((g9 X).1 hX).2.1
    · show alook st3.cplus [] = some (Finset.range n)
      rw [g2]
      exact p3
    · intro k
      rw [hcur4]
      show (alook (adel st3.cache (st3.curLevel - 2)) k).isSome = true ↔ _
      rw [hwipe0]
      by_cases hk : k = st.curLevel - 1
      · subst hk
        rw [alook_adel_self]
        constructor
        · intro h; cases h
        · intro h
          exfalso
          rcases h with h | h <;> omega
      · rw [alook_adel_ne _ _ _ hk]
        by_cases hk2 : k = st2.curLevel + 1
        · subst hk2
          rw [g5]
          constructor
          · intro _
            left
            omega
          · intro _; rfl
        · rw [g4 k hk2, hc2cache]
          rw [hdom k]
          constructor
          · intro h
            rcases h with h | h
            · right; omega
            · exact absurd h hk
          · intro h
            rcases h with h | h
            · exfalso
              rw [hc2cur] at hk2
              exact hk2 h
            · left; omega
    · refine ⟨m3, ?_, g6⟩
      rw [hcur4]
      show alook (adel st3.cache (st3.curLevel - 2)) (st.curLevel + 1) = _
      rw [hwipe0, alook_adel_ne _ _ _ (by omega)]
      rw [← hc2cur]
      exact g5
    · intro _
      refine ⟨mc, ?_, ?_⟩
      · rw [hcur4]
        show alook (adel st3.cache (st3.curLevel - 2)) (st.curLevel + 1 - 1) = _
        rw [hwipe0]
        have : st.curLevel + 1 - 1 = st.curLevel := by omega
        rw [this, alook_adel_ne _ _ _ (by omega)]
        have hne3 : st.curLevel ≠ st2.curLevel + 1 := by omega
        rw [g4 _ hne3, hc2cache]
        exact hmc
      · intro X hX i hi
        rw [hc2cur] at g9
        have hsubs := ((g9 X).1 hX).2.2 i hi
        exact hmcL _ (psub.subset hsubs)
  · rw [hcur4]
    have : st.curLevel + 1 - 2 = st.curLevel - 1 := by omega
    rw [this]
    exact (hdom (st.curLevel - 1)).2 (Or.inr rfl)
  · rw [hst4]
    show alook (adel st3.cache (st3.curLevel - 2)) (st4.curLevel - 2) = none
    have : st4.curLevel - 2 = st3.curLevel - 2 := by rw [hst4]
    rw [this, alook_adel_self]
  · intro K v hv
    obtain ⟨v1, hv1, s1⟩ := c4 K v hv
    obtain ⟨v2, hv2, s2⟩ := p4 K v1 hv1
    refine ⟨v2, ?_, s2.trans s1⟩
    show alook st3.cplus K = some v2
    rw [g2]
    exact hv2

theorem SInv_init (T : List Partn) :
    SInv T.length (initState T) ((List.range T.length).map (fun i => [i])) := by
  refine ⟨le_rfl, ?_, ?_, ?_, ?_, ?_, ?_, ?_⟩
  · intro X hX
    obtain ⟨i, _, rfl⟩ := List.mem_map.1 hX
    rfl
  · intro X hX
    obtain ⟨i, hi, rfl⟩ := List.mem_map.1 hX
    exact ⟨List.sorted_singleton i, by simpa using List.mem_range.1 hi⟩
  · exact (List.nodup_range _).map (fun a b h => by simpa using h)
  · rfl
  · intro k
    show (alook [(0, none), (1, some _)] k).isSome = true ↔ k = 1 ∨ k = 1 - 1
    by_cases h0 : k = 0
    · subst h0; simp [alook]
    · by_cases h1 : k = 1
      · subst h1; simp [alook]
      · simp [alook, h0, h1]
  · refine ⟨(List.range T.length).map (fun i => ([i], T.getD i [])), ?_, ?_⟩
    · show alook [(0, none), (1, some _)] 1 = _
      simp [alook]
    · intro X hX
      obtain ⟨i, hi, rfl⟩ := List.mem_map.1 hX
      rw [alook_range_map (fun j => T.getD j []) T.length i (List.mem_range.1 hi)]
      rfl
  · intro h
    exact absurd h (by simp [initState])

theorem runAux_total {n : Nat} (T : List Partn) :
    ∀ (fuel : Nat) (st : TState) (L : List Attrs), SInv n st L →
    n + 2 ≤ st.curLevel + fuel →
    ∃ stf, runAux T fuel st L = Except.ok stf := by
  intro fuel
  induction fuel with
  | zero =>
    intro st L hinv hfuel
    cases L with
    | nil => exact ⟨st, rfl⟩
    | cons X L0 =>
      exfalso
      have h1 : X.length = st.curLevel := hinv.lenL X (by simp)
      have h2 : X.length ≤ n := wfKey_length_le (hinv.wfL X (by simp))
      omega
  | succ fuel ih =>
    intro st L hinv hfuel
    cases L with
    | nil => exact ⟨st, rfl⟩
    | cons X L0 =>
      obtain ⟨st', L', hstep, hinv', hlvl, _, _, _⟩ := taneStep_spec T st (X :: L0) hinv
      obtain ⟨stf, hrec⟩ := ih st' L' hinv' (by omega)
      refine ⟨stf, ?_⟩
      rw [runAux, hstep]
      · exact hrec
      · intro h
        exact List.cons_ne_nil X L0 h

/-- TANE.run never fails: for every input partition list it returns a
final state (no KeyError and enough fuel). -/
theorem tane_run_total (T : List Partn) : ∃ st, run T = Except.ok st := by
  have hcur : (initState T).curLevel = 1 := rfl
  obtain ⟨stf, h⟩ := runAux_total (n := T.length) T (T.length + 2) (initState T)
    ((List.range T.length).map (fun i => [i])) (SInv_init T) (by rw [hcur]; omega)
  exact ⟨stf, h⟩

/-! ### Relation-level lemmas -/

theorem agreeL_iff_agreeF (rows : List (List Nat)) (S : Attrs) (r s : Nat) :
    agreeL rows S r s ↔ agreeF rows S.toFinset r s := by
  unfold agreeL agreeF
  constructor
  · intro h a ha
    exact h a (List.mem_toFinset.1 ha)
  · intro h a ha
    exact h a (List.mem_toFinset.2 ha)

theorem FDl_iff_FDf (rows : List (List Nat)) (S : Attrs) (y : Nat) :
    FDl rows S y ↔ FDf rows S.toFinset y := by
  unfold FDl FDf
  constructor
  · intro h r hr s hs hag
    exact h r hr s hs ((agreeL_iff_agreeF rows S r s).2 hag)
  · intro h r hr s hs hag
    exact h r hr s hs ((agreeL_iff_agreeF rows S r s).1 hag)

theorem agreeF_mono {rows : List (List Nat)} {S S' : Finset Nat} {r s : Nat}
    (hss : S ⊆ S') (h : agreeF rows S' r s) : agreeF rows S r s :=
  fun a ha => h a (hss ha)

theorem FDf_mono {rows : List (List Nat)} {S S' : Finset Nat} {y : Nat}
    (hss : S ⊆ S') (h : FDf rows S y) : FDf rows S' y :=
  fun r hr s hs hag => h r hr s hs (agreeF_mono hss hag)

theorem SKf_mono {rows : List (List Nat)} {S S' : Finset Nat}
    (hss : S ⊆ S') (h : SKf rows S) : SKf rows S' :=
  fun r hr s hs hag => h r hr s hs (agreeF_mono hss hag)

theorem SKf_FDf {rows : List (List Nat)} {S : Finset Nat} (h : SKf rows S) (y : Nat) :
    FDf rows S y := by
  intro r hr s hs hag
  rw [h r hr s hs hag]

/-- If G determines y and Y ∪ {y} is a superkey for some Y ⊆ G, then G is
itself a superkey. -/
theorem SKf_of_FD_insert {rows : List (List Nat)} {G Y : Finset Nat} {y : Nat}
    (hfd : FDf rows G y) (hsub : Y ⊆ G) (hsk : SKf rows (insert y Y)) :
    SKf rows G := by
  intro r hr s hs hag
  apply hsk r hr s hs
  intro a ha
  rcases Finset.mem_insert.1 ha with rfl | ha
  · exact hfd r hr s hs hag
  · exact hag a (hsub ha)

/-- Every determining set contains a minimal determining subset. -/
theorem exists_minimal_FDf {rows : List (List Nat)} {y : Nat} :
    ∀ (G : Finset Nat), FDf rows G y →
    ∃ G', G' ⊆ G ∧ FDf rows G' y ∧ ∀ x ∈ G', ¬FDf rows (G'.erase x) y := by
  intro G
  induction G using Finset.strongInduction with
  | _ G ih =>
    intro hfd
    by_cases h : ∃ x ∈ G, FDf rows (G.erase x) y
    · obtain ⟨x, hx, hfd'⟩ := h
      obtain ⟨G', hsub, h1, h2⟩ := ih (G.erase x) (Finset.erase_ssubset hx) hfd'
      exact ⟨G', hsub.trans (Finset.erase_subset _ _), h1, h2⟩
    · push_neg at h
      exact ⟨G, subset_rfl, hfd, h⟩

/-! ### inLp lemmas -/

theorem inLp_singleton (rows : List (List Nat)) (x : Nat) : inLp rows {x} := by
  refine ⟨⟨x, Finset.mem_singleton_self x⟩, ?_⟩
  intro Y hY hYne hYs
  exfalso
  rcases Finset.subset_singleton_iff.1 (Finset.mem_powerset.1 hY) with rfl | rfl
  · exact absurd rfl hYne.ne_empty
  · exact hYs rfl

theorem inLp_erase {rows : List (List Nat)} {S : Finset Nat} (h : inLp rows S)
    (hcard : 2 ≤ S.card) {x : Nat} (hx : x ∈ S) :
    inLp rows (S.erase x) ∧ ¬SKf rows (S.erase x) := by
  have hne : (S.erase x).Nonempty := by
    apply Finset.card_pos.1
    rw [Finset.card_erase_of_mem hx]
    omega
  have hss : S.erase x ≠ S := by
    intro heq
    have h0 := Finset.not_mem_erase x S
    rw [heq] at h0
    exact h0 hx
  constructor
  · refine ⟨hne, ?_⟩
    intro Y hY hYne hYe
    apply h.2 Y
      (Finset.mem_powerset.2 ((Finset.mem_powerset.1 hY).trans (Finset.erase_subset _ _)))
      hYne
    intro hYS
    subst hYS
    exact Finset.not_mem_erase x Y ((Finset.mem_powerset.1 hY) hx)
  · exact h.2 (S.erase x) (Finset.mem_powerset.2 (Finset.erase_subset _ _)) hne hss

theorem inLp_of_parts {rows : List (List Nat)} {S : Finset Nat} (hcard : 2 ≤ S.card)
    (h : ∀ x ∈ S, inLp rows (S.erase x) ∧ ¬SKf rows (S.erase x)) : inLp rows S := by
  have hne : S.Nonempty := Finset.card_pos.1 (by omega)
  refine ⟨hne, ?_⟩
  intro Y hY hYne hYS hSK
  have hYsub : Y ⊆ S := Finset.mem_powerset.1 hY
  obtain ⟨x, hxS, hxY⟩ :=
    Finset.exists_of_ssubset (Finset.ssubset_iff_subset_ne.2 ⟨hYsub, hYS⟩)
  have hYsub2 : Y ⊆ S.erase x := fun a ha =>
    Finset.mem_erase.2 ⟨fun heq => hxY (heq ▸ ha), hYsub ha⟩
  by_cases hYeq : Y = S.erase x
  · exact (h x hxS).2 (hYeq ▸ hSK)
  · exact (h x hxS).1.2 Y (Finset.mem_powerset.2 hYsub2) hYne hYeq hSK

/-! ### Membership in the model sets -/

theorem mem_cpfinSet {rows : List (List Nat)} {n : Nat} {S : Finset Nat} {y : Nat} :
    y ∈ cpfinSet rows n S ↔ y < n ∧ ∀ M, M ⊆ S → ¬remQ rows M y := by
  unfold cpfinSet
  rw [Finset.mem_filter, Finset.mem_range]
  constructor
  · rintro ⟨h1, h2⟩
    exact ⟨h1, fun M hM => h2 M (Finset.mem_powerset.2 hM)⟩
  · rintro ⟨h1, h2⟩
    exact ⟨h1, fun M hM => h2 M (Finset.mem_powerset.1 hM)⟩

theorem mem_cpinitSet {rows : List (List Nat)} {n : Nat} {S : Finset Nat} {y : Nat} :
    y ∈ cpinitSet rows n S ↔ y < n ∧ ∀ M, M ⊆ S → M ≠ S → ¬remQ rows M y := by
  unfold cpinitSet
  rw [Finset.mem_filter, Finset.mem_range]
  constructor
  · rintro ⟨h1, h2⟩
    exact ⟨h1, fun M hM => h2 M (Finset.mem_powerset.2 hM)⟩
  · rintro ⟨h1, h2⟩
    exact ⟨h1, fun M hM => h2 M (Finset.mem_powerset.1 hM)⟩

theorem cpfinSet_subset_range (rows : List (List Nat)) (n : Nat) (S : Finset Nat) :
    cpfinSet rows n S ⊆ Finset.range n :=
  Finset.filter_subset _ _

theorem cpinitSet_subset_range (rows : List (List Nat)) (n : Nat) (S : Finset Nat) :
    cpinitSet rows n S ⊆ Finset.range n :=
  Finset.filter_subset _ _

theorem mem_cpfinSet_of_not_mem {rows : List (List Nat)} {n : Nat} {S : Finset Nat}
    {y : Nat} (hy : y < n) (h : y ∉ S) : y ∈ cpfinSet rows n S :=
  mem_cpfinSet.2 ⟨hy, fun M hM hQ => h (hM hQ.2.1)⟩

theorem cpfinSet_empty (rows : List (List Nat)) (n : Nat) :
    cpfinSet rows n ∅ = Finset.range n := by
  ext y
  rw [mem_cpfinSet, Finset.mem_range]
  constructor
  · exact fun h => h.1
  · intro hy
    refine ⟨hy, fun M hM hQ => ?_⟩
    rw [Finset.subset_empty.1 hM] at hQ
    exact absurd hQ.2.1 (Finset.not_mem_empty y)

theorem cpfinSet_eq_cpinitSet_of_not_inLp {rows : List (List Nat)} {n : Nat}
    {S : Finset Nat} (h : ¬inLp rows S) : cpfinSet rows n S = cpinitSet rows n S := by
  ext y
  rw [mem_cpfinSet, mem_cpinitSet]
  constructor
  · rintro ⟨h1, h2⟩
    exact ⟨h1, fun M hM _ => h2 M hM⟩
  · rintro ⟨h1, h2⟩
    refine ⟨h1, fun M hM hQ => ?_⟩
    by_cases hMS : M = S
    · subst hMS
      exact h hQ.1
    · exact h2 M hM hMS hQ

theorem cpfinSet_eq_sdiff_of_inLp {rows : List (List Nat)} {n : Nat} {S : Finset Nat}
    (h : inLp rows S) :
    cpfinSet rows n S = cpinitSet rows n S \
      S.filter (fun y => 2 ≤ S.card ∧ FDf rows (S.erase y) y) := by
  ext y
  rw [Finset.mem_sdiff, mem_cpfinSet, mem_cpinitSet, Finset.mem_filter]
  constructor
  · rintro ⟨h1, h2⟩
    refine ⟨⟨h1, fun M hM _ => h2 M hM⟩, ?_⟩
    rintro ⟨hyS, hc, hfd⟩
    exact h2 S subset_rfl ⟨h, hyS, hc, hfd⟩
  · rintro ⟨⟨h1, h2⟩, h3⟩
    refine ⟨h1, fun M hM hQ => ?_⟩
    by_cases hMS : M = S
    · subst hMS
      exact h3 ⟨hQ.2.1, hQ.2.2.1, hQ.2.2.2⟩
    · exact h2 M hM hMS hQ

theorem mem_cpinitSet_iff_all_erase {rows : List (List Nat)} {n : Nat} {S : Finset Nat}
    (hne : S.Nonempty) {y : Nat} :
    y ∈ cpinitSet rows n S ↔ ∀ x ∈ S, y ∈ cpfinSet rows n (S.erase x) := by
  constructor
  · intro h x hx
    obtain ⟨h1, h2⟩ := mem_cpinitSet.1 h
    refine mem_cpfinSet.2 ⟨h1, fun M hM => ?_⟩
    refine h2 M (hM.trans (Finset.erase_subset _ _)) ?_
    intro hMS
    subst hMS
    exact Finset.not_mem_erase x M (hM hx)
  · intro h
    obtain ⟨x₀, hx₀⟩ := hne
    have h₀ := mem_cpfinSet.1 (h x₀ hx₀)
    refine mem_cpinitSet.2 ⟨h₀.1, fun M hM hMS => ?_⟩
    obtain ⟨x, hxS, hxM⟩ :=
      Finset.exists_of_ssubset (Finset.ssubset_iff_subset_ne.2 ⟨hM, hMS⟩)
    have hM2 : M ⊆ S.erase x := fun a ha =>
      Finset.mem_erase.2 ⟨fun heq => hxM (heq ▸ ha), hM ha⟩
    exact (mem_cpfinSet.1 (h x hxS)).2 M hM2

/-! ### Sorted tuples and canonical lists -/

theorem sorted_lt_of_le_nodup {l : List Nat} (h1 : l.Sorted (· ≤ ·)) (h2 : l.Nodup) :
    l.Sorted (· < ·) :=
  (List.Pairwise.and h1 h2).imp (fun h => lt_of_le_of_ne h.1 h.2)

theorem canonList_nodup (s : Finset Nat) : (canonList s).Nodup := by
  rcases s with ⟨val, nd⟩
  induction val using Quot.inductionOn with
  | h l =>
    have hnd : l.Nodup := nd
    show (List.insertionSort (· ≤ ·) l).Nodup
    exact ((List.perm_insertionSort (· ≤ ·) l).nodup_iff).2 hnd

theorem canonList_sorted_le (s : Finset Nat) : (canonList s).Sorted (· ≤ ·) := by
  rcases s with ⟨val, nd⟩
  induction val using Quot.inductionOn with
  | h l =>
    show (List.insertionSort (· ≤ ·) l).Sorted (· ≤ ·)
    exact List.sorted_insertionSort _ l

theorem canonList_sorted (s : Finset Nat) : (canonList s).Sorted (· < ·) :=
  sorted_lt_of_le_nodup (canonList_sorted_le s) (canonList_nodup s)

theorem canonList_toFinset (s : Finset Nat) : (canonList s).toFinset = s := by
  ext a
  rw [List.mem_toFinset, mem_canonList]

theorem canonList_length (s : Finset Nat) : (canonList s).length = s.card := by
  have h1 := List.toFinset_card_of_nodup (canonList_nodup s)
  rw [canonList_toFinset] at h1
  omega

theorem canonList_of_sorted {X : Attrs} (h : X.Sorted (· < ·)) :
    canonList X.toFinset = X := by
  have hnd : X.Nodup := h.imp (fun hab => ne_of_lt hab)
  apply List.eq_of_perm_of_sorted ?_ (canonList_sorted _) h
  apply List.perm_of_nodup_nodup_toFinset_eq (canonList_nodup _) hnd
  rw [canonList_toFinset]

theorem wfKey_card {n : Nat} {K : Attrs} (h : wfKey n K) :
    K.toFinset.card = K.length :=
  List.toFinset_card_of_nodup (wfKey_nodup h)

theorem wfKey_toFinset_subset {n : Nat} {K : Attrs} (h : wfKey n K) :
    K.toFinset ⊆ Finset.range n := fun a ha =>
  Finset.mem_range.2 (h.2 a (List.mem_toFinset.1 ha))

theorem wfKey_canonList {n : Nat} {S : Finset Nat} (h : S ⊆ Finset.range n) :
    wfKey n (canonList S) := by
  refine ⟨canonList_sorted S, ?_⟩
  intro a ha
  exact Finset.mem_range.1 (h (mem_canonList.1 ha))

theorem canonList_wfKey_self {n : Nat} {K : Attrs} (h : wfKey n K) :
    canonList K.toFinset = K :=
  canonList_of_sorted h.1

theorem toFinset_list_erase {K : Attrs} (h : K.Nodup) (y : Nat) :
    (K.erase y).toFinset = K.toFinset.erase y := by
  induction K with
  | nil => simp
  | cons a t ih =>
    have hat : a ∉ t := (List.nodup_cons.1 h).1
    have ht : t.Nodup := (List.nodup_cons.1 h).2
    by_cases hya : y = a
    · subst hya
      rw [List.erase_cons_head]
      rw [List.toFinset_cons, Finset.erase_insert]
      rw [List.mem_toFinset] at *
      simpa using hat
    · rw [List.erase_cons_tail]
      · rw [List.toFinset_cons, List.toFinset_cons, ih ht,
          Finset.erase_insert_of_ne (fun heq => hya heq.symm)]
      · simp
        exact fun heq => hya heq.symm

theorem eraseIdx_toFinset {K : Attrs} :
    ∀ (i : Nat) (hi : i < K.length), K.Nodup →
    (K.eraseIdx i).toFinset = K.toFinset.erase (K.get ⟨i, hi⟩) := by
  induction K with
  | nil => intro i hi; simp at hi
  | cons a t ih =>
    intro i hi h
    have hat : a ∉ t := (List.nodup_cons.1 h).1
    have ht : t.Nodup := (List.nodup_cons.1 h).2
    cases i with
    | zero =>
      have h0 : ((a :: t).eraseIdx 0) = t := rfl
      have h1 : ((a :: t).get ⟨0, hi⟩) = a := rfl
      rw [h0, h1, List.toFinset_cons,
        Finset.erase_insert (by rw [List.mem_toFinset]; exact hat)]
    | succ i =>
      have hit : i < t.length := by
        simp at hi
        omega
      have h0 : ((a :: t).eraseIdx (i + 1)) = a :: t.eraseIdx i := rfl
      have h1 : ((a :: t).get ⟨i + 1, hi⟩) = t.get ⟨i, hit⟩ := rfl
      have hne : a ≠ t.get ⟨i, hit⟩ := fun heq => hat (heq ▸ t.get_mem i hit)
      rw [h0, h1, List.toFinset_cons, List.toFinset_cons, ih i hit ht,
        Finset.erase_insert_of_ne hne]

theorem mem_foldl_inter (y : Nat) :
    ∀ (vs : List (Finset Nat)) (v0 : Finset Nat),
    (y ∈ vs.foldl (· ∩ ·) v0 ↔ (y ∈ v0 ∧ ∀ v ∈ vs, y ∈ v)) := by
  intro vs
  induction vs with
  | nil => intro v0; simp
  | cons w ws ih =>
    intro v0
    rw [List.foldl_cons, ih]
    constructor
    · rintro ⟨h1, h2⟩
      rcases Finset.mem_inter.1 h1 with ⟨ha, hb⟩
      refine ⟨ha, ?_⟩
      intro v hv
      rcases List.mem_cons.1 hv with rfl | hv
      · exact hb
      · exact h2 v hv
    · rintro ⟨h1, h2⟩
      refine ⟨Finset.mem_inter.2 ⟨h1, h2 w (by simp)⟩, ?_⟩
      intro v hv
      exact h2 v (by simp [hv])

/-! ### Stripped partitions faithfully represent attribute sets -/

theorem isSP_congr {rows : List (List Nat)} {S S2 : Attrs} {P : Partn}
    (hmem : ∀ a, a ∈ S ↔ a ∈ S2) (h : isSP rows S P) : isSP rows S2 P := by
  have hag : ∀ r s, agreeL rows S r s → agreeL rows S2 r s := by
    intro r s hr a ha
    exact hr a ((hmem a).2 ha)
  have hag2 : ∀ r s, agreeL rows S2 r s → agreeL rows S r s := by
    intro r s hr a ha
    exact hr a ((hmem a).1 ha)
  exact ⟨h.card2, h.validIdx,
    fun c hc r hr s hs => hag r s (h.agreeCls c hc r hr s hs),
    fun r s h1 h2 h3 h4 => h.covers r s h1 h2 h3 (hag2 r s h4)⟩

theorem mem_colClasses {rows : List (List Nat)} {i : Nat} {c : Finset Nat} :
    c ∈ colClasses rows i ↔ 1 < c.card ∧
      ∃ v, (∃ r, r < rows.length ∧ cell rows r i = v) ∧
        c = (Finset.range rows.length).filter (fun r => cell rows r i = v) := by
  unfold colClasses
  simp only [List.mem_filter, List.mem_map, List.mem_dedup, List.mem_range,
    decide_eq_true_eq]
  constructor
  · rintro ⟨⟨v, hv, rfl⟩, hcard⟩
    obtain ⟨r, hr, hrv⟩ := hv
    exact ⟨hcard, v, ⟨r, hr, hrv⟩, rfl⟩
  · rintro ⟨hcard, v, ⟨r, hr, hrv⟩, rfl⟩
    exact ⟨⟨v, ⟨r, hr, hrv⟩, rfl⟩, hcard⟩

theorem colClasses_isSP (rows : List (List Nat)) (i : Nat) :
    isSP rows [i] (colClasses rows i) := by
  constructor
  · intro c hc
    have h := (mem_colClasses.1 hc).1
    omega
  · intro c hc r hr
    obtain ⟨_, v, _, rfl⟩ := mem_colClasses.1 hc
    exact Finset.mem_range.1 (Finset.mem_filter.1 hr).1
  · intro c hc r hr s hs a ha
    obtain ⟨_, v, _, rfl⟩ := mem_colClasses.1 hc
    have h1 := (Finset.mem_filter.1 hr).2
    have h2 := (Finset.mem_filter.1 hs).2
    have hai : a = i := by simpa using ha
    subst hai
    rw [h1, h2]
  · intro r s hrN hsN hrs hag
    have hv : cell rows r i = cell rows s i := hag i (by simp)
    refine ⟨(Finset.range rows.length).filter
      (fun t => cell rows t i = cell rows r i), ?_, ?_, ?_⟩
    · rw [mem_colClasses]
      refine ⟨?_, cell rows r i, ⟨r, hrN, rfl⟩, rfl⟩
      apply Finset.one_lt_card.2
      refine ⟨r, ?_, s, ?_, hrs⟩
      · exact Finset.mem_filter.2 ⟨Finset.mem_range.2 hrN, rfl⟩
      · exact Finset.mem_filter.2 ⟨Finset.mem_range.2 hsN, hv.symm⟩
    · exact Finset.mem_filter.2 ⟨Finset.mem_range.2 hrN, rfl⟩
    · exact Finset.mem_filter.2 ⟨Finset.mem_range.2 hsN, hv.symm⟩

theorem mem_intersection {P1 P2 : Partn} {c : Finset Nat} :
    c ∈ PPattern.intersection P1 P2 ↔
      1 < c.card ∧ ∃ a ∈ P1, ∃ b ∈ P2, c = a ∩ b := by
  unfold PPattern.intersection
  simp only [List.mem_flatMap, List.mem_filter, List.mem_map, decide_eq_true_eq]
  constructor
  · rintro ⟨b, hb, ⟨a, ha, rfl⟩, hcard⟩
    exact ⟨hcard, a, ha, b, hb, rfl⟩
  · rintro ⟨hcard, a, ha, b, hb, rfl⟩
    exact ⟨b, hb, ⟨a, ha, rfl⟩, hcard⟩

theorem isSP_inter {rows : List (List Nat)} {S1 S2 : Attrs} {P1 P2 : Partn}
    (h1 : isSP rows S1 P1) (h2 : isSP rows S2 P2) :
    isSP rows (S1 ++ S2) (PPattern.intersection P1 P2) := by
  constructor
  · intro c hc
    have h := (mem_intersection.1 hc).1
    omega
  · intro c hc r hr
    obtain ⟨_, a, ha, b, hb, rfl⟩ := mem_intersection.1 hc
    exact h1.validIdx a ha r (Finset.mem_inter.1 hr).1
  · intro c hc r hr s hs
    obtain ⟨_, a, ha, b, hb, rfl⟩ := mem_intersection.1 hc
    intro x hx
    rcases List.mem_append.1 hx with hx | hx
    · exact h1.agreeCls a ha r (Finset.mem_inter.1 hr).1 s (Finset.mem_inter.1 hs).1 x hx
    · exact h2.agreeCls b hb r (Finset.mem_inter.1 hr).2 s (Finset.mem_inter.1 hs).2 x hx
  · intro r s hrN hsN hrs hag
    have hag1 : agreeL rows S1 r s := fun a ha => hag a (List.mem_append.2 (Or.inl ha))
    have hag2 : agreeL rows S2 r s := fun a ha => hag a (List.mem_append.2 (Or.inr ha))
    obtain ⟨a, ha, hra, hsa⟩ := h1.covers r s hrN hsN hrs hag1
    obtain ⟨b, hb, hrb, hsb⟩ := h2.covers r s hrN hsN hrs hag2
    refine ⟨a ∩ b, mem_intersection.2 ⟨?_, a, ha, b, hb, rfl⟩,
      Finset.mem_inter.2 ⟨hra, hrb⟩, Finset.mem_inter.2 ⟨hsa, hsb⟩⟩
    apply Finset.one_lt_card.2
    exact ⟨r, Finset.mem_inter.2 ⟨hra, hrb⟩, s, Finset.mem_inter.2 ⟨hsa, hsb⟩, hrs⟩

/-- Partition subsumption against the raw column partition decides the
functional dependency, for a faithful left partition. -/
theorem leq_iff_FDl {rows : List (List Nat)} {S : Attrs} {P : Partn} {y : Nat}
    (hP : isSP rows S P) :
    (PPattern.leq P (colClasses rows y) = true) ↔ FDl rows S y := by
  unfold PPattern.leq
  rw [List.all_eq_true]
  constructor
  · intro h r hr s hs hag
    by_cases hrs : r = s
    · rw [hrs]
    · obtain ⟨c, hc, hrc, hsc⟩ := hP.covers r s hr hs hrs hag
      have hany := h c hc
      rw [List.any_eq_true] at hany
      obtain ⟨d, hd, hsub⟩ := hany
      rw [decide_eq_true_eq] at hsub
      obtain ⟨_, v, _, rfl⟩ := mem_colClasses.1 hd
      have e1 := (Finset.mem_filter.1 (hsub hrc)).2
      have e2 := (Finset.mem_filter.1 (hsub hsc)).2
      rw [e1, e2]
  · intro hfd c hc
    rw [List.any_eq_true]
    obtain ⟨r₀, hr₀⟩ : c.Nonempty := by
      apply Finset.card_pos.1
      have := hP.card2 c hc
      omega
    have hr₀N : r₀ < rows.length := hP.validIdx c hc r₀ hr₀
    have hsub : c ⊆ (Finset.range rows.length).filter
        (fun t => cell rows t y = cell rows r₀ y) := by
      intro t ht
      have htN : t < rows.length := hP.validIdx c hc t ht
      refine Finset.mem_filter.2 ⟨Finset.mem_range.2 htN, ?_⟩
      exact hfd t htN r₀ hr₀N (hP.agreeCls c hc t ht r₀ hr₀)
    refine ⟨(Finset.range rows.length).filter
      (fun t => cell rows t y = cell rows r₀ y), ?_, ?_⟩
    · rw [mem_colClasses]
      refine ⟨?_, cell rows r₀ y, ⟨r₀, hr₀N, rfl⟩, rfl⟩
      have hcc := hP.card2 c hc
      have hle := Finset.card_le_card hsub
      omega
    · rw [decide_eq_true_eq]
      exact hsub

/-- An empty faithful stripped partition is exactly a superkey. -/
theorem isSP_isEmpty_iff {rows : List (List Nat)} {X : Attrs} {P : Partn}
    (h : isSP rows X P) : (P.isEmpty = true) ↔ SKf rows X.toFinset := by
  constructor
  · intro hP r hr s hs hag
    by_contra hrs
    obtain ⟨c, hc, _, _⟩ := h.covers r s hr hs hrs ((agreeL_iff_agreeF rows X r s).2 hag)
    rw [List.isEmpty_iff] at hP
    rw [hP] at hc
    exact absurd hc (List.not_mem_nil c)
  · intro hsk
    rw [List.isEmpty_iff]
    cases hP : P with
    | nil => rfl
    | cons c P0 =>
      exfalso
      have hc : c ∈ P := by rw [hP]; simp
      have hcard := h.card2 c hc
      obtain ⟨r, hr, s, hs, hrs⟩ := Finset.one_lt_card.1 (show 1 < c.card by omega)
      exact hrs (hsk r (h.validIdx c hc r hr) s (h.validIdx c hc s hs)
        ((agreeL_iff_agreeF rows X r s).1 (h.agreeCls c hc r hr s hs)))

theorem buildT_length (rows : List (List Nat)) :
    (buildT rows).length = (rows.headD []).length := by
  unfold buildT
  simp

theorem buildT_getD {rows : List (List Nat)} {y : Nat}
    (hy : y < (rows.headD []).length) :
    (buildT rows).getD y [] = colClasses rows y := by
  unfold buildT
  rw [List.getD_eq_getElem?_getD, List.getElem?_map, List.getElem?_range hy]
  rfl

/-! ### The Cplus getter against the model -/

/-- Invariant-preserving threading of goList with known values. -/
theorem goList_vals (G : CplusMap → Attrs → Except TErr (Finset Nat × CplusMap))
    (D : Attrs → Prop) (V : Attrs → Finset Nat) (I : CplusMap → Prop)
    (hG : ∀ cp k, D k → I cp →
      ∃ cp', G cp k = Except.ok (V k, cp') ∧ I cp' ∧
        ∀ K v, alook cp K = some v → alook cp' K = some v) :
    ∀ (ks : List Attrs) (cp : CplusMap), (∀ k ∈ ks, D k) → I cp →
    ∃ cp', goList G cp ks = Except.ok (ks.map V, cp') ∧ I cp' ∧
      ∀ K v, alook cp K = some v → alook cp' K = some v := by
  intro ks
  induction ks with
  | nil => intro cp _ hI; exact ⟨cp, rfl, hI, fun K v h => h⟩
  | cons k ks ih =>
    intro cp hD hI
    obtain ⟨cp1, h1, hI1, hp1⟩ := hG cp k (hD k (by simp)) hI
    obtain ⟨cp2, h2, hI2, hp2⟩ := ih cp1 (fun x hx => hD x (by simp [hx])) hI1
    refine ⟨cp2, ?_, hI2, fun K v h => hp2 K v (hp1 K v h)⟩
    show exbind (G cp k) _ = _
    rw [h1]
    show exbind (goList G cp1 ks) _ = _
    rw [h2]
    rfl

/-- For a non-empty well-formed key, intersecting the final values of its
immediate subsets yields the key's initial value. -/
theorem reduce_subsets_eq_cpinit (rows : List (List Nat)) (n : Nat) {K : Attrs}
    (hwf : wfKey n K) (hne : K ≠ []) :
    reduceInter ((immSubsets K).map (fun k => cpfinSet rows n k.toFinset)) =
      Except.ok (cpinitSet rows n K.toFinset) := by
  have hKfne : K.toFinset.Nonempty := by
    cases K with
    | nil => exact absurd rfl hne
    | cons a t => exact ⟨a, by simp⟩
  have hiff : ∀ y,
      (∀ p ∈ (immSubsets K).map (fun k => cpfinSet rows n k.toFinset), y ∈ p) ↔
      y ∈ cpinitSet rows n K.toFinset := by
    intro y
    rw [mem_cpinitSet_iff_all_erase hKfne]
    constructor
    · intro h x hx
      obtain ⟨i, hi, heq⟩ := erase_eq_eraseIdx_of_mem (List.mem_toFinset.1 hx)
      have h2 := h (cpfinSet rows n (K.eraseIdx i).toFinset)
        (List.mem_map.2 ⟨K.eraseIdx i, mem_immSubsets.2 ⟨i, hi, rfl⟩, rfl⟩)
      rw [← heq, toFinset_list_erase (wfKey_nodup hwf) x] at h2
      exact h2
    · intro h p hp
      obtain ⟨k, hk, rfl⟩ := List.mem_map.1 hp
      obtain ⟨i, hi, rfl⟩ := mem_immSubsets.1 hk
      rw [eraseIdx_toFinset i hi (wfKey_nodup hwf)]
      exact h _ (List.mem_toFinset.2 (K.get_mem i hi))
  obtain ⟨k0, ks, hsubs⟩ : ∃ k0 ks, immSubsets K = k0 :: ks := by
    have hlen := length_immSubsets K
    cases hs : immSubsets K with
    | nil =>
      rw [hs] at hlen
      cases K with
      | nil => exact absurd rfl hne
      | cons a t => simp at hlen
    | cons a t => exact ⟨a, t, rfl⟩
  rw [hsubs, List.map_cons]
  show Except.ok _ = _
  congr 1
  ext y
  rw [mem_foldl_inter, ← hiff y, hsubs, List.map_cons]
  constructor
  · rintro ⟨h0, h1⟩ p hp
    rcases List.mem_cons.1 hp with rfl | hp
    · exact h0
    · exact h1 p hp
  · intro h
    exact ⟨h _ (by simp), fun p hp => h p (by simp [hp])⟩

/-- Reading a well-formed key strictly below the current level returns
its final model value, preserves the invariant and touches no existing
entry. -/
theorem rget_fin {rows : List (List Nat)} {n l : Nat} {P : List Attrs} :
    ∀ (d : Nat) (K : Attrs) (cp : CplusMap), K.length = d →
    CpInv rows n l P cp → wfKey n K → K.length < l →
    ∃ cp', rget cp K = Except.ok (cpfinSet rows n K.toFinset, cp') ∧
      CpInv rows n l P cp' ∧
      ∀ K2 v, alook cp K2 = some v → alook cp' K2 = some v := by
  intro d
  induction d with
  | zero =>
    intro K cp hd hI hwf hlen
    have hK : K = [] := List.length_eq_zero.1 hd
    subst hK
    have hval : cpfinSet rows n ([] : Attrs).toFinset = Finset.range n := by
      show cpfinSet rows n ∅ = Finset.range n
      exact cpfinSet_empty rows n
    refine ⟨cp, ?_, hI, fun K2 v h => h⟩
    rw [hval]
    exact rget_hit cp [] (Finset.range n) hI.base
  | succ e ih =>
    intro K cp hd hI hwf hlen
    cases halook : alook cp K with
    | some v =>
      obtain ⟨_, _, hv, _⟩ := hI.val K v halook
      rw [hv (Or.inl hlen)] at halook
      exact ⟨cp, rget_hit cp K _ halook, hI, fun K2 v2 h => h⟩
    | none =>
      have hKne : K ≠ [] := by
        intro h
        subst h
        rw [hI.base] at halook
        cases halook
      have hnotin : ¬inLp rows K.toFinset := by
        intro hin
        have h2 := hI.live K hwf hlen hin
        rw [halook] at h2
        cases h2
      have hDs : ∀ k ∈ immSubsets K, wfKey n k ∧ k.length = e := by
        intro k hk
        obtain ⟨i, hi, rfl⟩ := mem_immSubsets.1 hk
        exact ⟨wfKey_eraseIdx hwf i, by rw [length_eraseIdx_of_lt hi]; omega⟩
      obtain ⟨cp1, hg, hI1, hp1⟩ :=
        goList_vals rget (fun k => wfKey n k ∧ k.length = e)
          (fun k => cpfinSet rows n k.toFinset) (CpInv rows n l P)
          (fun cp2 k hD hIcp => ih k cp2 hD.2 hIcp hD.1 (by omega))
          (immSubsets K) cp hDs hI
      have hrun : rget cp K = Except.ok (cpinitSet rows n K.toFinset,
          aset cp1 K (cpinitSet rows n K.toFinset)) := by
        rw [rget_miss_eq cp K halook, rgetList_eq_goList, hg]
        show exbind (reduceInter
          ((immSubsets K).map (fun k => cpfinSet rows n k.toFinset))) _ = _
        rw [reduce_subsets_eq_cpinit rows n hwf hKne]
        rfl
      have hfininit : cpfinSet rows n K.toFinset = cpinitSet rows n K.toFinset :=
        cpfinSet_eq_cpinitSet_of_not_inLp hnotin
      refine ⟨aset cp1 K (cpinitSet rows n K.toFinset), ?_, ?_, ?_⟩
      · rw [hfininit]
        exact hrun
      · constructor
        · rw [alook_aset_ne _ _ _ _ (fun h => hKne h.symm)]
          exact hI1.base
        · intro K2 v2 h2
          by_cases hK2 : K2 = K
          · subst hK2
            rw [alook_aset_self] at h2
            have hv2 : v2 = cpinitSet rows n K2.toFinset := by
              cases h2
              rfl
            subst hv2
            refine ⟨hwf, by omega, ?_, ?_⟩
            · intro _
              rw [hfininit]
            · intro h3
              omega
          · rw [alook_aset_ne _ _ _ _ hK2] at h2
            exact hI1.val K2 v2 h2
        · intro K2 hwf2 hlen2 hin2
          by_cases hK2 : K2 = K
          · subst hK2
            rw [alook_aset_self]
            rfl
          · rw [alook_aset_ne _ _ _ _ hK2]
            exact hI1.live K2 hwf2 hlen2 hin2
      · intro K2 v2 h2
        have h3 := hp1 K2 v2 h2
        have hK2 : K2 ≠ K := by
          intro h
          subst h
          rw [halook] at h2
          cases h2
        rw [alook_aset_ne _ _ _ _ hK2]
        exact h3

/-- Reading an unprocessed well-formed key of the current level returns
its initial model value and leaves it stored. -/
theorem rget_level {rows : List (List Nat)} {n l : Nat} {P : List Attrs}
    (K : Attrs) (cp : CplusMap) (hI : CpInv rows n l P cp) (hwf : wfKey n K)
    (hlen : K.length = l) (hP : K ∉ P) :
    ∃ cp', rget cp K = Except.ok (cpinitSet rows n K.toFinset, cp') ∧
      CpInv rows n l P cp' ∧ alook cp' K = some (cpinitSet rows n K.toFinset) ∧
      ∀ K2 v, alook cp K2 = some v → alook cp' K2 = some v := by
  cases halook : alook cp K with
  | some v =>
    obtain ⟨_, _, _, hv⟩ := hI.val K v halook
    rw [hv hlen hP] at halook
    exact ⟨cp, rget_hit cp K _ halook, hI, halook, fun K2 v2 h => h⟩
  | none =>
    have hKne : K ≠ [] := by
      intro h
      subst h
      rw [hI.base] at halook
      cases halook
    have hl1 : 1 ≤ l := by
      cases K with
      | nil => exact absurd rfl hKne
      | cons a t => simp at hlen; omega
    have hDs : ∀ k ∈ immSubsets K, wfKey n k ∧ k.length = l - 1 := by
      intro k hk
      obtain ⟨i, hi, rfl⟩ := mem_immSubsets.1 hk
      exact ⟨wfKey_eraseIdx hwf i, by rw [length_eraseIdx_of_lt hi]; omega⟩
    obtain ⟨cp1, hg, hI1, hp1⟩ :=
      goList_vals rget (fun k => wfKey n k ∧ k.length = l - 1)
        (fun k => cpfinSet rows n k.toFinset) (CpInv rows n l P)
        (fun cp2 k hD hIcp => rget_fin (l - 1) k cp2 hD.2 hIcp hD.1 (by omega))
        (immSubsets K) cp hDs hI
    have hrun : rget cp K = Except.ok (cpinitSet rows n K.toFinset,
        aset cp1 K (cpinitSet rows n K.toFinset)) := by
      rw [rget_miss_eq cp K halook, rgetList_eq_goList, hg]
      show exbind (reduceInter
        ((immSubsets K).map (fun k => cpfinSet rows n k.toFinset))) _ = _
      rw [reduce_subsets_eq_cpinit rows n hwf hKne]
      rfl
    refine ⟨aset cp1 K (cpinitSet rows n K.toFinset), hrun, ?_, alook_aset_self _ _ _, ?_⟩
    · constructor
      · rw [alook_aset_ne _ _ _ _ (fun h => hKne h.symm)]
        exact hI1.base
      · intro K2 v2 h2
        by_cases hK2 : K2 = K
        · subst hK2
          rw [alook_aset_self] at h2
          have hv2 : v2 = cpinitSet rows n K2.toFinset := by
            cases h2
            rfl
          subst hv2
          refine ⟨hwf, by omega, ?_, fun _ _ => rfl⟩
          intro hc
          rcases hc with hc | hc
          · omega
          · exact absurd hc hP
        · rw [alook_aset_ne _ _ _ _ hK2] at h2
          exact hI1.val K2 v2 h2
      · intro K2 hwf2 hlen2 hin2
        by_cases hK2 : K2 = K
        · subst hK2
          rw [alook_aset_self]
          rfl
        · rw [alook_aset_ne _ _ _ _ hK2]
          exact hI1.live K2 hwf2 hlen2 hin2
    · intro K2 v2 h2
      have h3 := hp1 K2 v2 h2
      have hK2 : K2 ≠ K := by
        intro h
        subst h
        rw [halook] at h2
        cases h2
      rw [alook_aset_ne _ _ _ _ hK2]
      exact h3

/-- After the compute_dependencies pass (P covers every live key of the
level), every read of a well-formed key of length at most the level
returns the final model value. -/
theorem rget_allfin {rows : List (List Nat)} {n l : Nat} {P : List Attrs}
    (hfull : ∀ K, wfKey n K → K.length = l → inLp rows K.toFinset → K ∈ P)
    (K : Attrs) (cp : CplusMap) (hI : CpInv rows n l P cp)
    (hPp : ∀ X ∈ P, (alook cp X).isSome) (hwf : wfKey n K) (hlen : K.length ≤ l) :
    ∃ cp', rget cp K = Except.ok (cpfinSet rows n K.toFinset, cp') ∧
      CpInv rows n l P cp' ∧ (∀ X ∈ P, (alook cp' X).isSome) ∧
      ∀ K2 v, alook cp K2 = some v → alook cp' K2 = some v := by
  have hkeep : ∀ (cp' : CplusMap),
      (∀ K2 v, alook cp K2 = some v → alook cp' K2 = some v) →
      ∀ X ∈ P, (alook cp' X).isSome := by
    intro cp' hpres X hX
    obtain ⟨v, hv⟩ := Option.isSome_iff_exists.1 (hPp X hX)
    rw [hpres X v hv]
    rfl
  rcases Nat.lt_or_ge K.length l with h | h
  · obtain ⟨cp', a, b, c⟩ := rget_fin K.length K cp rfl hI hwf h
    exact ⟨cp', a, b, hkeep cp' c, c⟩
  · have hKl : K.length = l := by omega
    by_cases hKP : K ∈ P
    · obtain ⟨v, hv⟩ := Option.isSome_iff_exists.1 (hPp K hKP)
      obtain ⟨_, _, hv1, _⟩ := hI.val K v hv
      rw [hv1 (Or.inr hKP)] at hv
      exact ⟨cp, rget_hit cp K _ hv, hI, hPp, fun K2 v2 h2 => h2⟩
    · have hnotin : ¬inLp rows K.toFinset := fun hin => hKP (hfull K hwf hKl hin)
      obtain ⟨cp', a, b, _, c⟩ := rget_level K cp hI hwf hKl hKP
      refine ⟨cp', ?_, b, hkeep cp' c, c⟩
      rw [cpfinSet_eq_cpinitSet_of_not_inLp hnotin]
      exact a

/-! ### compute_dependencies against the model -/

/-- The value computed by check_fd for a non-singleton node of the
level. -/
theorem checkFD_val {rows : List (List Nat)} {n : Nat} {C : Cache} {l : Nat}
    (hSP : ∀ k mm X2 Pp, alook C k = some (some mm) → alook mm X2 = some Pp →
      wfKey n X2 ∧ isSP rows X2 Pp)
    (hn : n = (rows.headD []).length)
    {mprev : LvlMap} (hprev : alook C (l - 1) = some (some mprev))
    {X : Attrs} (hwf : wfKey n X) (hXlen : X.length = l) (hl2 : 2 ≤ l)
    {y : Nat} (hy : y ∈ X)
    (hpres : (alook mprev (X.erase y)).isSome) :
    checkFD (buildT rows) C (X.erase y) y =
      Except.ok (decide (FDl rows (X.erase y) y)) := by
  have hlenE : (X.erase y).length = l - 1 := by
    rw [length_erase_of_mem hy, hXlen]
  have hne : X.erase y ≠ [] := by
    intro h
    rw [h] at hlenE
    simp at hlenE
    omega
  obtain ⟨Pp, hPp⟩ := Option.isSome_iff_exists.1 hpres
  have hcg : cacheGet C (X.erase y).length (X.erase y) = Except.ok Pp := by
    rw [hlenE]
    simp [cacheGet, hprev, hPp]
  obtain ⟨_, hsp⟩ := hSP (l - 1) mprev (X.erase y) Pp hprev hPp
  have hyn : y < n := hwf.2 y hy
  have hgetT : (buildT rows).getD y [] = colClasses rows y := by
    apply buildT_getD
    omega
  have hleq : PPattern.leq Pp (colClasses rows y) = decide (FDl rows (X.erase y) y) := by
    have hiff := leq_iff_FDl (y := y) hsp
    cases hfd : decide (FDl rows (X.erase y) y) with
    | true => exact hiff.2 (of_decide_eq_true hfd)
    | false =>
      cases hleq2 : PPattern.leq Pp (colClasses rows y) with
      | false => rfl
      | true => exact absurd (hiff.1 hleq2) (of_decide_eq_false hfd)
  simp only [checkFD, if_neg hne, hcg, hgetT, hleq]

/-- The compute_dependencies inner fold at node X against the model: the
accepted snapshot members produce rules and shrink the node's entry in
place. -/
theorem cdNode_fold_model {rows : List (List Nat)} {n l : Nat} {C : Cache}
    (T : List Partn) (hTeq : T = buildT rows)
    (hn : n = (rows.headD []).length)
    (hSP : ∀ k mm X2 Pp, alook C k = some (some mm) → alook mm X2 = some Pp →
      wfKey n X2 ∧ isSP rows X2 Pp)
    {mprev : LvlMap} (hprev : 2 ≤ l → alook C (l - 1) = some (some mprev))
    (X : Attrs) (hwf : wfKey n X) (hXlen : X.length = l)
    (hmp : ∀ y ∈ X, 2 ≤ l → (alook mprev (X.erase y)).isSome) :
    ∀ (ys : List Nat), (∀ y ∈ ys, y ∈ X) →
    ∀ (st₀ : TState) (v₀ : Finset Nat), st₀.cache = C →
      alook st₀.cplus X = some v₀ →
    ∃ st', (ys.foldlM
        (fun (st : TState) (y : Nat) =>
          match checkFD T st.cache (X.erase y) y with
          | Except.error e => Except.error e
          | Except.ok b =>
            if b then
              Except.ok { st with rules := st.rules ++ [(X.erase y, y)]
                                  cplus := cplusRemove st.cplus X y }
            else Except.ok st)
        st₀) = Except.ok st' ∧
      st'.cache = C ∧ st'.curLevel = st₀.curLevel ∧
      st'.rules = st₀.rules ++ (ys.filter
        (fun y => decide (X.erase y ≠ [] ∧ FDl rows (X.erase y) y))).map
        (fun y => (X.erase y, y)) ∧
      (∀ K, K ≠ X → alook st'.cplus K = alook st₀.cplus K) ∧
      alook st'.cplus X = some (v₀ \ (ys.filter
        (fun y => decide (X.erase y ≠ [] ∧ FDl rows (X.erase y) y))).toFinset) := by
  intro ys
  induction ys with
  | nil =>
    intro _ st₀ v₀ hc hv
    exact ⟨st₀, rfl, hc, rfl, by simp, fun K _ => rfl, by simpa using hv⟩
  | cons y ys ih =>
    intro hys st₀ v₀ hc hv
    have hyX : y ∈ X := hys y (by simp)
    have hl1 : 1 ≤ l := by
      have hXne : X ≠ [] := by
        intro h
        rw [h] at hyX
        simp at hyX
      cases X with
      | nil => exact absurd rfl hXne
      | cons a t => rw [← hXlen]; simp
    rcases Nat.lt_or_ge l 2 with hlt | hl2
    · -- singleton level: check_fd is always False
      have hXy : X.erase y = [] := by
        apply List.length_eq_zero.1
        rw [length_erase_of_mem hyX, hXlen]
        omega
      have hchk : checkFD T st₀.cache (X.erase y) y = Except.ok false := by
        rw [hXy]
        rfl
      have hp : decide (X.erase y ≠ [] ∧ FDl rows (X.erase y) y) = false := by
        simp [hXy]
      obtain ⟨st', h0, h1, h2, h3, h4, h5⟩ :=
        ih (fun z hz => hys z (by simp [hz])) st₀ v₀ hc hv
      refine ⟨st', ?_, h1, h2, ?_, h4, ?_⟩
      · simp only [List.foldlM, bind, Except.bind, hchk, if_neg (by simp : ¬false = true)]
        exact h0
      · rw [h3, List.filter_cons, hp]
        simp
      · rw [h5, List.filter_cons, hp]
        simp
    · -- proper level: check_fd decides the dependency
      have hchk : checkFD T st₀.cache (X.erase y) y =
          Except.ok (decide (FDl rows (X.erase y) y)) := by
        rw [hTeq, hc]
        exact checkFD_val hSP hn (hprev hl2) hwf hXlen hl2 hyX (hmp y hyX hl2)
      have hne : X.erase y ≠ [] := by
        intro h
        have := length_erase_of_mem hyX
        rw [h] at this
        simp at this
        omega
      cases hfd : decide (FDl rows (X.erase y) y) with
      | true =>
        have hp : decide (X.erase y ≠ [] ∧ FDl rows (X.erase y) y) = true := by
          rw [decide_eq_true_eq]
          exact ⟨hne, of_decide_eq_true hfd⟩
        set st₁ : TState :=
          { st₀ with rules := st₀.rules ++ [(X.erase y, y)]
                     cplus := cplusRemove st₀.cplus X y } with hst₁
        have hv₁ : alook st₁.cplus X = some (v₀.erase y) := by
          show alook (cplusRemove st₀.cplus X y) X = _
          rw [alook_cplusRemove, hv]
          simp
        obtain ⟨st', h0, h1, h2, h3, h4, h5⟩ :=
          ih (fun z hz => hys z (by simp [hz])) st₁ (v₀.erase y) hc hv₁
        refine ⟨st', ?_, h1, h2, ?_, ?_, ?_⟩
        · simp only [List.foldlM, bind, Except.bind, hchk, hfd, if_pos rfl]
          exact h0
        · rw [h3, List.filter_cons, hp]
          show st₁.rules ++ _ = _
          rw [hst₁]
          simp
        · intro K hK
          rw [h4 K hK]
          show alook (cplusRemove st₀.cplus X y) K = _
          rw [alook_cplusRemove]
          cases halook2 : alook st₀.cplus K with
          | none => rfl
          | some w => simp [hK]
        · rw [h5, List.filter_cons, hp, if_pos rfl]
          congr 1
          rw [List.toFinset_cons]
          ext a
          simp only [Finset.mem_sdiff, Finset.mem_erase, Finset.mem_insert,
            List.mem_toFinset]
          constructor
          · rintro ⟨⟨hay, hav⟩, hns⟩
            refine ⟨hav, ?_⟩
            rintro (rfl | h)
            · exact hay rfl
            · exact hns h
          · rintro ⟨hav, hno⟩
            exact ⟨⟨fun h => hno (Or.inl h), hav⟩, fun h => hno (Or.inr h)⟩
      | false =>
        have hp : decide (X.erase y ≠ [] ∧ FDl rows (X.erase y) y) = false := by
          rw [decide_eq_false_iff_not]
          rintro ⟨_, hfd2⟩
          exact of_decide_eq_false hfd hfd2
        obtain ⟨st', h0, h1, h2, h3, h4, h5⟩ :=
          ih (fun z hz => hys z (by simp [hz])) st₀ v₀ hc hv
        refine ⟨st', ?_, h1, h2, ?_, h4, ?_⟩
        · simp only [List.foldlM, bind, Except.bind, hchk, hfd,
            if_neg (by simp : ¬false = true)]
          exact h0
        · rw [h3, List.filter_cons, hp, if_neg Bool.false_ne_true]
        · rw [h5, List.filter_cons, hp, if_neg Bool.false_ne_true]

/-- One compute_dependencies node against the model. -/
theorem cdNode_model {rows : List (List Nat)} {n l : Nat} {C : Cache} {P : List Attrs}
    (T : List Partn) (hTeq : T = buildT rows)
    (hn : n = (rows.headD []).length)
    (hSP : ∀ k mm X2 Pp, alook C k = some (some mm) → alook mm X2 = some Pp →
      wfKey n X2 ∧ isSP rows X2 Pp)
    {mprev : LvlMap} (hprev : 2 ≤ l → alook C (l - 1) = some (some mprev))
    (st : TState) (hc : st.cache = C)
    (X : Attrs) (hwf : wfKey n X) (hXlen : X.length = l) (hXP : X ∉ P)
    (hmp : ∀ y ∈ X, 2 ≤ l → (alook mprev (X.erase y)).isSome)
    (hinL : inLp rows X.toFinset)
    (hI : CpInv rows n l P st.cplus) :
    ∃ st', cdNode T st X = Except.ok st' ∧
      st'.cache = C ∧ st'.curLevel = st.curLevel ∧
      st'.rules = st.rules ++ cdNodeRules rows n X ∧
      CpInv rows n l (P ++ [X]) st'.cplus ∧
      alook st'.cplus X = some (cpfinSet rows n X.toFinset) ∧
      (∀ K v, alook st.cplus K = some v → (alook st'.cplus K).isSome) := by
  have hXne : X ≠ [] := by
    intro h
    obtain ⟨a, ha⟩ := hinL.1
    rw [h] at ha
    simp at ha
  obtain ⟨cp1, hr, hI1, hX1, hp1⟩ := rget_level X st.cplus hI hwf hXlen hXP
  obtain ⟨st', h0, h1, h2, h3, h4, h5⟩ :=
    cdNode_fold_model T hTeq hn hSP hprev X hwf hXlen hmp
      (canonList (cpinitSet rows n X.toFinset ∩ X.toFinset))
      (fun y hy => by
        have h := mem_canonList.1 hy
        simpa using (Finset.mem_inter.1 h).2)
      { st with cplus := cp1 } (cpinitSet rows n X.toFinset) hc hX1
  have hbr : ∀ a, a ∈ X.toFinset →
      ((X.erase a ≠ [] ∧ FDl rows (X.erase a) a) ↔
       (2 ≤ X.toFinset.card ∧ FDf rows (X.toFinset.erase a) a)) := by
    intro a ha
    have haX : a ∈ X := List.mem_toFinset.1 ha
    have hlenE : (X.erase a).length = X.length - 1 := length_erase_of_mem haX
    have hXpos : 1 ≤ X.length := by
      cases X with
      | nil => exact absurd rfl hXne
      | cons b t => simp
    have h1 : X.erase a ≠ [] ↔ 2 ≤ X.toFinset.card := by
      rw [wfKey_card hwf]
      constructor
      · intro h
        have hpos : 1 ≤ (X.erase a).length := by
          cases he : X.erase a with
          | nil => exact absurd he h
          | cons b t => simp
        omega
      · intro h hnil
        rw [hnil] at hlenE
        simp at hlenE
        omega
    have h2 : FDl rows (X.erase a) a ↔ FDf rows (X.toFinset.erase a) a := by
      rw [FDl_iff_FDf, toFinset_list_erase (wfKey_nodup hwf)]
    rw [h1, h2]
  have hfin : cpinitSet rows n X.toFinset \
      ((canonList (cpinitSet rows n X.toFinset ∩ X.toFinset)).filter
        (fun y => decide (X.erase y ≠ [] ∧ FDl rows (X.erase y) y))).toFinset =
      cpfinSet rows n X.toFinset := by
    rw [cpfinSet_eq_sdiff_of_inLp hinL]
    ext a
    simp only [Finset.mem_sdiff, List.mem_toFinset, List.mem_filter, mem_canonList,
      Finset.mem_inter, Finset.mem_filter, decide_eq_true_eq]
    constructor
    · rintro ⟨ha, hno⟩
      refine ⟨ha, ?_⟩
      rintro ⟨haX, hcond⟩
      exact hno ⟨⟨ha, haX⟩, (hbr a (List.mem_toFinset.2 haX)).2 hcond⟩
    · rintro ⟨ha, hno⟩
      refine ⟨ha, ?_⟩
      rintro ⟨⟨_, haX⟩, hcond⟩
      exact hno ⟨haX, (hbr a (List.mem_toFinset.2 haX)).1 hcond⟩
  have hXfin : alook st'.cplus X = some (cpfinSet rows n X.toFinset) := by
    rw [h5, hfin]
  refine ⟨st', ?_, h1, h2, ?_, ?_, hXfin, ?_⟩
  · simp only [cdNode, hr]
    exact h0
  · rw [h3]
    rfl
  · constructor
    · have hne2 : ([] : Attrs) ≠ X := fun h => hXne h.symm
      rw [h4 [] hne2]
      exact hI1.base
    · intro K v hv
      by_cases hKX : K = X
      · subst hKX
        rw [hXfin] at hv
        have hveq : v = cpfinSet rows n K.toFinset := by
          cases hv
          rfl
        subst hveq
        refine ⟨hwf, by omega, fun _ => rfl, ?_⟩
        intro _ hKP2
        exfalso
        exact hKP2 (List.mem_append.2 (Or.inr (by simp)))
      · rw [h4 K hKX] at hv
        obtain ⟨hw, hle, hv1, hv2⟩ := hI1.val K v hv
        refine ⟨hw, hle, ?_, ?_⟩
        · intro hcase
          apply hv1
          rcases hcase with hcase | hcase
          · exact Or.inl hcase
          · rcases List.mem_append.1 hcase with hcase | hcase
            · exact Or.inr hcase
            · exact absurd (by simpa using hcase) hKX
        · intro hKl hKP2
          exact hv2 hKl (fun hin => hKP2 (List.mem_append.2 (Or.inl hin)))
    · intro K hw hlt hin
      have hKX : K ≠ X := by
        intro h
        subst h
        omega
      rw [h4 K hKX]
      exact hI1.live K hw hlt hin
  · intro K v hv
    by_cases hKX : K = X
    · subst hKX
      rw [hXfin]
      rfl
    · rw [h4 K hKX]
      rw [hp1 K v hv]
      rfl

/-- The compute_dependencies pass over the level against the model. -/
theorem computeDependencies_model {rows : List (List Nat)} {n l : Nat} {C : Cache}
    (T : List Partn) (hTeq : T = buildT rows)
    (hn : n = (rows.headD []).length)
    (hSP : ∀ k mm X2 Pp, alook C k = some (some mm) → alook mm X2 = some Pp →
      wfKey n X2 ∧ isSP rows X2 Pp)
    {mprev : LvlMap} (hprev : 2 ≤ l → alook C (l - 1) = some (some mprev)) :
    ∀ (L2 P : List Attrs) (st : TState), st.cache = C →
    (∀ X ∈ L2, wfKey n X ∧ X.length = l ∧ inLp rows X.toFinset) →
    (∀ X ∈ L2, X ∉ P) → L2.Nodup →
    (∀ X ∈ L2, ∀ y ∈ X, 2 ≤ l → (alook mprev (X.erase y)).isSome) →
    CpInv rows n l P st.cplus →
    (∀ X ∈ P, (alook st.cplus X).isSome) →
    ∃ st', computeDependencies T st L2 = Except.ok st' ∧
      st'.cache = C ∧ st'.curLevel = st.curLevel ∧
      st'.rules = st.rules ++ L2.flatMap (cdNodeRules rows n) ∧
      CpInv rows n l (P ++ L2) st'.cplus ∧
      (∀ X ∈ P ++ L2, (alook st'.cplus X).isSome) := by
  intro L2
  induction L2 with
  | nil =>
    intro P st hc _ _ _ _ hI hPp
    exact ⟨st, rfl, hc, rfl, by simp, by simpa using hI, by simpa using hPp⟩
  | cons X L2 ih =>
    intro P st hc hL hP hnd hmp hI hPp
    obtain ⟨hwf, hXlen, hinL⟩ := hL X (by simp)
    obtain ⟨st1, h0, h1, h2, h3, h4, hX1, h6⟩ :=
      cdNode_model T hTeq hn hSP hprev st hc X hwf hXlen (hP X (by simp))
        (hmp X (by simp)) hinL hI
    have hPp1 : ∀ Z ∈ P ++ [X], (alook st1.cplus Z).isSome := by
      intro Z hZ
      rcases List.mem_append.1 hZ with hZ | hZ
      · obtain ⟨v, hv⟩ := Option.isSome_iff_exists.1 (hPp Z hZ)
        exact h6 Z v hv
      · have hZX : Z = X := by simpa using hZ
        subst hZX
        rw [hX1]
        rfl
    obtain ⟨st', g0, g1, g2, g3, g4, g5⟩ :=
      ih (P ++ [X]) st1 h1
        (fun Z hZ => hL Z (by simp [hZ]))
        (fun Z hZ => by
          intro hmem
          rcases List.mem_append.1 hmem with hmem | hmem
          · exact hP Z (by simp [hZ]) hmem
          · have hZX : Z = X := by simpa using hmem
            subst hZX
            exact (List.nodup_cons.1 hnd).1 hZ)
        (List.nodup_cons.1 hnd).2
        (fun Z hZ => hmp Z (by simp [hZ]))
        h4 hPp1
    have hre : (P ++ [X]) ++ L2 = P ++ (X :: L2) := by simp
    refine ⟨st', ?_, g1, by rw [g2, h2], ?_, ?_, ?_⟩
    · simp only [computeDependencies, List.foldlM, bind, Except.bind] at g0 ⊢
      simp [h0]
      exact g0
    · rw [g3, h3, List.flatMap_cons, List.append_assoc]
    · rw [← hre]
      exact g4
    · rw [← hre]
      exact g5

/-! ### prune against the model -/

/-- is_superkey decides SKf through the cached faithful partition. -/
theorem isSuperkey_val {rows : List (List Nat)} {n : Nat} {C : Cache}
    (hSP : ∀ k mm X2 Pp, alook C k = some (some mm) → alook mm X2 = some Pp →
      wfKey n X2 ∧ isSP rows X2 Pp)
    {mlev : LvlMap} {l : Nat} (hml : alook C l = some (some mlev))
    {X : Attrs} (hXlen : X.length = l) {Pp : Partn} (hPp : alook mlev X = some Pp) :
    isSuperkey C X = Except.ok (decide (SKf rows X.toFinset)) := by
  have hcg : cacheGet C X.length X = Except.ok Pp := by
    rw [hXlen]
    simp [cacheGet, hml, hPp]
  obtain ⟨_, hsp⟩ := hSP l mlev X Pp hml hPp
  have hiff := isSP_isEmpty_iff hsp
  have hb : Pp.isEmpty = decide (SKf rows X.toFinset) := by
    cases hd : decide (SKf rows X.toFinset) with
    | true => exact hiff.2 (of_decide_eq_true hd)
    | false =>
      cases he : Pp.isEmpty with
      | false => rfl
      | true => exact absurd (hiff.1 he) (of_decide_eq_false hd)
  simp [isSuperkey, hcg, hb]

/-- The sorted guard key sorted(X[:b] + X[b+1:] + (y,)) is well-formed of
the node's length and denotes (X - X[b]) ∪ {y}. -/
theorem guardKey_wf {n : Nat} {X : Attrs} (hwf : wfKey n X) {y : Nat} (hy : y < n)
    (hyX : y ∉ X) {b : Nat} (hb : b < X.length) :
    wfKey n (List.insertionSort (· ≤ ·) (X.eraseIdx b ++ [y])) ∧
    (List.insertionSort (· ≤ ·) (X.eraseIdx b ++ [y])).toFinset =
      insert y (X.toFinset.erase (X.get ⟨b, hb⟩)) ∧
    (List.insertionSort (· ≤ ·) (X.eraseIdx b ++ [y])).length = X.length := by
  have hperm := List.perm_insertionSort (· ≤ ·) (X.eraseIdx b ++ [y])
  have hnd0 : (X.eraseIdx b ++ [y]).Nodup := by
    rw [List.nodup_append]
    refine ⟨wfKey_nodup (wfKey_eraseIdx hwf b), List.nodup_singleton y, ?_⟩
    intro a ha hamem
    have hay : a = y := by simpa using hamem
    subst hay
    exact hyX ((X.eraseIdx_sublist b).subset ha)
  have hnd : (List.insertionSort (· ≤ ·) (X.eraseIdx b ++ [y])).Nodup :=
    hperm.nodup_iff.2 hnd0
  refine ⟨⟨?_, ?_⟩, ?_, ?_⟩
  · exact sorted_lt_of_le_nodup (List.sorted_insertionSort _ _) hnd
  · intro a ha
    have ha2 : a ∈ X.eraseIdx b ++ [y] := hperm.subset ha
    rcases List.mem_append.1 ha2 with ha2 | ha2
    · exact (wfKey_eraseIdx hwf b).2 a ha2
    · have hay : a = y := by simpa using ha2
      subst hay
      exact hy
  · rw [List.toFinset_eq_of_perm _ _ hperm, List.toFinset_append,
      eraseIdx_toFinset b hb (wfKey_nodup hwf)]
    ext a
    simp only [Finset.mem_union, List.toFinset_cons, List.toFinset_nil,
      Finset.mem_insert, Finset.not_mem_empty, or_false, Finset.mem_erase]
    constructor
    · rintro (⟨h1, h2⟩ | rfl)
      · exact Or.inr ⟨h1, h2⟩
      · exact Or.inl rfl
    · rintro (rfl | ⟨h1, h2⟩)
      · exact Or.inr rfl
      · exact Or.inl ⟨h1, h2⟩
  · rw [hperm.length_eq, List.length_append, length_eraseIdx_of_lt hb]
    simp
    omega

/-- The prune superkey guard fold at node X against the model. -/
theorem pruneGuard_fold_model {rows : List (List Nat)} {n l : Nat} {C : Cache}
    {P : List Attrs}
    (hfull : ∀ K, wfKey n K → K.length = l → inLp rows K.toFinset → K ∈ P)
    (X : Attrs) (hwf : wfKey n X) (hXlen : X.length = l) (hl1 : 1 ≤ l) :
    ∀ (ys : List Nat), (∀ y ∈ ys, y < n ∧ y ∉ X) →
    ∀ (st₀ : TState), st₀.cache = C →
    CpInv rows n l P st₀.cplus → (∀ Z ∈ P, (alook st₀.cplus Z).isSome) →
    ∃ st', (ys.foldlM
        (fun (st : TState) y =>
          let keys := (List.range X.length).map
            (fun b => List.insertionSort (· ≤ ·) (X.eraseIdx b ++ [y]))
          match rgetList st.cplus keys with
          | Except.error e => Except.error e
          | Except.ok (vals, cp') =>
            match reduceInter vals with
            | Except.error e => Except.error e
            | Except.ok inter =>
              if y ∈ inter then
                Except.ok { st with rules := st.rules ++ [(X, y)], cplus := cp' }
              else Except.ok { st with cplus := cp' })
        st₀) = Except.ok st' ∧
      st'.cache = C ∧ st'.curLevel = st₀.curLevel ∧
      st'.rules = st₀.rules ++ (ys.filter
        (fun y => decide (skGuardF rows n X.toFinset y))).map (fun y => (X, y)) ∧
      CpInv rows n l P st'.cplus ∧ (∀ Z ∈ P, (alook st'.cplus Z).isSome) ∧
      (∀ K v, alook st₀.cplus K = some v → alook st'.cplus K = some v) := by
  intro ys
  induction ys with
  | nil =>
    intro _ st₀ hc hI hPp
    exact ⟨st₀, rfl, hc, rfl, by simp, hI, hPp, fun K v h => h⟩
  | cons y ys ih =>
    intro hys st₀ hc hI hPp
    obtain ⟨hyn, hyX⟩ := hys y (by simp)
    have hkeysD : ∀ k ∈ (List.range X.length).map
        (fun b => List.insertionSort (· ≤ ·) (X.eraseIdx b ++ [y])),
        wfKey n k ∧ k.length ≤ l := by
      intro k hk
      obtain ⟨b, hbmem, rfl⟩ := List.mem_map.1 hk
      have hb := List.mem_range.1 hbmem
      obtain ⟨hwfk, _, hlenk⟩ := guardKey_wf hwf hyn hyX hb
      exact ⟨hwfk, by omega⟩
    obtain ⟨cp1, hgo, hI1, hpres1⟩ :=
      goList_vals rget (fun k => wfKey n k ∧ k.length ≤ l)
        (fun k => cpfinSet rows n k.toFinset)
        (fun cp => CpInv rows n l P cp ∧ ∀ Z ∈ P, (alook cp Z).isSome)
        (fun cp k hD hIcp => by
          obtain ⟨cp', a, b2, c, d⟩ := rget_allfin hfull k cp hIcp.1 hIcp.2 hD.1 hD.2
          exact ⟨cp', a, ⟨b2, c⟩, d⟩)
        ((List.range X.length).map
          (fun b => List.insertionSort (· ≤ ·) (X.eraseIdx b ++ [y])))
        st₀.cplus hkeysD ⟨hI, hPp⟩
    have hrgl : rgetList st₀.cplus ((List.range X.length).map
        (fun b => List.insertionSort (· ≤ ·) (X.eraseIdx b ++ [y]))) =
        Except.ok (((List.range X.length).map
          (fun b => List.insertionSort (· ≤ ·) (X.eraseIdx b ++ [y]))).map
          (fun k => cpfinSet rows n k.toFinset), cp1) := by
      rw [rgetList_eq_goList]
      exact hgo
    -- the values list, reindexed over b
    have hvals : ((List.range X.length).map
        (fun b => List.insertionSort (· ≤ ·) (X.eraseIdx b ++ [y]))).map
        (fun k => cpfinSet rows n k.toFinset) =
        (List.range X.length).map
          (fun b => cpfinSet rows n
            (List.insertionSort (· ≤ ·) (X.eraseIdx b ++ [y])).toFinset) := by
      rw [List.map_map]
      rfl
    obtain ⟨b0, brest, hbs⟩ : ∃ b0 brest, List.range X.length = b0 :: brest := by
      cases hr : List.range X.length with
      | nil =>
        have := List.length_range X.length
        rw [hr] at this
        simp at this
        omega
      | cons a t => exact ⟨a, t, rfl⟩
    have hinter : ∀ w, reduceInter (((List.range X.length).map
        (fun b => List.insertionSort (· ≤ ·) (X.eraseIdx b ++ [y]))).map
        (fun k => cpfinSet rows n k.toFinset)) = Except.ok w →
        (y ∈ w ↔ skGuardF rows n X.toFinset y) := by
      intro w hw
      rw [hvals, hbs, List.map_cons] at hw
      have hweq : w = ((brest.map (fun b => cpfinSet rows n
          (List.insertionSort (· ≤ ·) (X.eraseIdx b ++ [y])).toFinset)).foldl (· ∩ ·)
          (cpfinSet rows n
            (List.insertionSort (· ≤ ·) (X.eraseIdx b0 ++ [y])).toFinset)) := by
        cases hw
        rfl
      subst hweq
      rw [mem_foldl_inter]
      have hforms : ∀ b (hb : b < X.length),
          (List.insertionSort (· ≤ ·) (X.eraseIdx b ++ [y])).toFinset =
          insert y (X.toFinset.erase (X.get ⟨b, hb⟩)) := by
        intro b hb
        exact (guardKey_wf hwf hyn hyX hb).2.1
      constructor
      · rintro ⟨h0, hrest⟩ a haX
        obtain ⟨⟨b, hb⟩, rfl⟩ := List.mem_iff_get.1 (List.mem_toFinset.1 haX)
        have hbmem : b ∈ List.range X.length := List.mem_range.2 hb
        rw [hbs] at hbmem
        rcases List.mem_cons.1 hbmem with rfl | hbmem
        · rw [← hforms b hb]
          exact h0
        · rw [← hforms b hb]
          exact hrest _ (List.mem_map.2 ⟨b, hbmem, rfl⟩)
      · intro hg
        have hb0 : b0 < X.length := by
          have : b0 ∈ List.range X.length := by rw [hbs]; simp
          exact List.mem_range.1 this
        refine ⟨?_, ?_⟩
        · rw [hforms b0 hb0]
          exact hg _ (List.mem_toFinset.2 (X.get_mem b0 hb0))
        · intro v hv
          obtain ⟨b, hbmem, rfl⟩ := List.mem_map.1 hv
          have hb : b < X.length := by
            have : b ∈ List.range X.length := by rw [hbs]; simp [hbmem]
            exact List.mem_range.1 this
          rw [hforms b hb]
          exact hg _ (List.mem_toFinset.2 (X.get_mem b hb))
    -- run the head step
    have hvne : ∃ w, reduceInter (((List.range X.length).map
        (fun b => List.insertionSort (· ≤ ·) (X.eraseIdx b ++ [y]))).map
        (fun k => cpfinSet rows n k.toFinset)) = Except.ok w := by
      rw [hvals, hbs, List.map_cons]
      exact ⟨_, rfl⟩
    obtain ⟨w, hw⟩ := hvne
    have hyiff := hinter w hw
    by_cases hsg : skGuardF rows n X.toFinset y
    · have hyw : y ∈ w := hyiff.2 hsg
      have hp : decide (skGuardF rows n X.toFinset y) = true := decide_eq_true hsg
      obtain ⟨st', h0, h1, h2, h3, h4, h5, h6⟩ :=
        ih (fun z hz => hys z (by simp [hz]))
          { st₀ with rules := st₀.rules ++ [(X, y)], cplus := cp1 } hc hI1.1 hI1.2
      refine ⟨st', ?_, h1, h2, ?_, h4, h5, ?_⟩
      · simp only [List.foldlM, bind, Except.bind, hrgl, hw, if_pos hyw]
        exact h0
      · rw [h3, List.filter_cons, hp, if_pos rfl]
        simp
      · intro K v hv
        exact h6 K v (hpres1 K v hv)
    · have hyw : y ∉ w := fun h => hsg (hyiff.1 h)
      have hp : decide (skGuardF rows n X.toFinset y) = false :=
        decide_eq_false hsg
      obtain ⟨st', h0, h1, h2, h3, h4, h5, h6⟩ :=
        ih (fun z hz => hys z (by simp [hz]))
          { st₀ with cplus := cp1 } hc hI1.1 hI1.2
      refine ⟨st', ?_, h1, h2, ?_, h4, h5, ?_⟩
      · simp only [List.foldlM, bind, Except.bind, hrgl, hw, if_neg hyw]
        exact h0
      · rw [h3, List.filter_cons, hp, if_neg Bool.false_ne_true]
      · intro K v hv
        exact h6 K v (hpres1 K v hv)

/-- One prune node against the model. -/
theorem pruneNode_model {rows : List (List Nat)} {n l : Nat} {C : Cache} {P : List Attrs}
    (hSP : ∀ k mm X2 Pp, alook C k = some (some mm) → alook mm X2 = some Pp →
      wfKey n X2 ∧ isSP rows X2 Pp)
    {mlev : LvlMap} (hml : alook C l = some (some mlev))
    (hfull : ∀ K, wfKey n K → K.length = l → inLp rows K.toFinset → K ∈ P)
    (st : TState) (clean : List Attrs) (hc : st.cache = C)
    (X : Attrs) (hwf : wfKey n X) (hXlen : X.length = l) (hXP : X ∈ P)
    {Pp : Partn} (hPp : alook mlev X = some Pp) (hl1 : 1 ≤ l)
    (hI : CpInv rows n l P st.cplus)
    (hPpres : ∀ Z ∈ P, (alook st.cplus Z).isSome) :
    ∃ st' clean2, pruneNode (st, clean) X = Except.ok (st', clean2) ∧
      st'.cache = C ∧ st'.curLevel = st.curLevel ∧
      st'.rules = st.rules ++ skNodeRules rows n X ∧
      CpInv rows n l P st'.cplus ∧ (∀ Z ∈ P, (alook st'.cplus Z).isSome) ∧
      (∀ K v, alook st.cplus K = some v → alook st'.cplus K = some v) ∧
      (∀ Z, Z ∈ clean2 ↔ (Z ∈ clean ∨ (Z = X ∧
        (cpfinSet rows n X.toFinset = ∅ ∨ SKf rows X.toFinset)))) := by
  obtain ⟨v, hv⟩ := Option.isSome_iff_exists.1 (hPpres X hXP)
  obtain ⟨_, _, hv1, _⟩ := hI.val X v hv
  have hvfin : v = cpfinSet rows n X.toFinset := hv1 (Or.inr hXP)
  subst hvfin
  have hr : rget st.cplus X = Except.ok (cpfinSet rows n X.toFinset, st.cplus) :=
    rget_hit st.cplus X _ hv
  have hskv : isSuperkey st.cache X = Except.ok (decide (SKf rows X.toFinset)) := by
    rw [hc]
    exact isSuperkey_val hSP hml hXlen hPp
  by_cases hsk : SKf rows X.toFinset
  · have hskd : decide (SKf rows X.toFinset) = true := decide_eq_true hsk
    have hys : ∀ y ∈ canonList (cpfinSet rows n X.toFinset \ X.toFinset),
        y < n ∧ y ∉ X := by
      intro y hy
      have h2 := mem_canonList.1 hy
      rw [Finset.mem_sdiff] at h2
      refine ⟨Finset.mem_range.1 (cpfinSet_subset_range rows n _ h2.1), ?_⟩
      intro hmem
      exact h2.2 (List.mem_toFinset.2 hmem)
    obtain ⟨st', h0, h1, h2, h3, h4, h5, h6⟩ :=
      pruneGuard_fold_model hfull X hwf hXlen hl1
        (canonList (cpfinSet rows n X.toFinset \ X.toFinset)) hys
        { st with cplus := st.cplus } hc hI hPpres
    refine ⟨st', (if cpfinSet rows n X.toFinset = ∅ then clean ++ [X] else clean) ++ [X],
      ?_, h1, h2, ?_, h4, h5, h6, ?_⟩
    · simp only [pruneNode, hr, hskv, hskd, if_pos rfl]
      simp [h0]
    · rw [h3]
      congr 1
      rw [skNodeRules, if_pos hsk]
    · intro Z
      by_cases hZc : cpfinSet rows n X.toFinset = ∅ <;>
        simp [hZc, hsk]
  · have hskd : decide (SKf rows X.toFinset) = false := decide_eq_false hsk
    refine ⟨{ st with cplus := st.cplus },
      if cpfinSet rows n X.toFinset = ∅ then clean ++ [X] else clean,
      ?_, hc, rfl, ?_, hI, hPpres, fun K v h => h, ?_⟩
    · simp only [pruneNode, hr, hskv, hskd]
      simp
    · rw [skNodeRules, if_neg hsk]
      simp
    · intro Z
      by_cases hZc : cpfinSet rows n X.toFinset = ∅ <;>
        simp [hZc, hsk]

/-- The prune fold over the level against the model. -/
theorem prune_fold_model {rows : List (List Nat)} {n l : Nat} {C : Cache}
    {P : List Attrs}
    (hSP : ∀ k mm X2 Pp, alook C k = some (some mm) → alook mm X2 = some Pp →
      wfKey n X2 ∧ isSP rows X2 Pp)
    {mlev : LvlMap} (hml : alook C l = some (some mlev))
    (hfull : ∀ K, wfKey n K → K.length = l → inLp rows K.toFinset → K ∈ P)
    (hl1 : 1 ≤ l) :
    ∀ (L2 : List Attrs) (st : TState) (clean : List Attrs), st.cache = C →
    (∀ X ∈ L2, wfKey n X ∧ X.length = l ∧ X ∈ P ∧ (alook mlev X).isSome) →
    CpInv rows n l P st.cplus →
    (∀ Z ∈ P, (alook st.cplus Z).isSome) →
    ∃ st' clean2, L2.foldlM pruneNode (st, clean) = Except.ok (st', clean2) ∧
      st'.cache = C ∧ st'.curLevel = st.curLevel ∧
      st'.rules = st.rules ++ L2.flatMap (skNodeRules rows n) ∧
      CpInv rows n l P st'.cplus ∧ (∀ Z ∈ P, (alook st'.cplus Z).isSome) ∧
      (∀ K v, alook st.cplus K = some v → alook st'.cplus K = some v) ∧
      (∀ Z, Z ∈ clean2 ↔ (Z ∈ clean ∨ (∃ X ∈ L2, Z = X ∧
        (cpfinSet rows n X.toFinset = ∅ ∨ SKf rows X.toFinset)))) := by
  intro L2
  induction L2 with
  | nil =>
    intro st clean hc _ hI hPp
    exact ⟨st, clean, rfl, hc, rfl, by simp, hI, hPp, fun K v h => h, by simp⟩
  | cons X L2 ih =>
    intro st clean hc hL hI hPp
    obtain ⟨hwf, hXlen, hXP, hml2⟩ := hL X (by simp)
    obtain ⟨Pp, hPp2⟩ := Option.isSome_iff_exists.1 hml2
    obtain ⟨st1, clean1, h0, h1, h2, h3, h4, h5, h6, h7⟩ :=
      pruneNode_model hSP hml hfull st clean hc X hwf hXlen hXP hPp2 hl1 hI hPp
    obtain ⟨st', clean2, g0, g1, g2, g3, g4, g5, g6, g7⟩ :=
      ih st1 clean1 h1 (fun Z hZ => hL Z (by simp [hZ])) h4 h5
    refine ⟨st', clean2, ?_, g1, by rw [g2, h2], ?_, g4, g5,
      fun K v hv => g6 K v (h6 K v hv), ?_⟩
    · simp only [List.foldlM, bind, Except.bind]
      simp [h0]
      exact g0
    · rw [g3, h3, List.flatMap_cons, List.append_assoc]
    · intro Z
      rw [g7 Z, h7 Z]
      constructor
      · rintro ((hZ | ⟨hZX, hcond⟩) | ⟨Y, hY, hZY, hcond⟩)
        · exact Or.inl hZ
        · exact Or.inr ⟨X, by simp, hZX, hcond⟩
        · exact Or.inr ⟨Y, by simp [hY], hZY, hcond⟩
      · rintro (hZ | ⟨Y, hY, hZY, hcond⟩)
        · exact Or.inl (Or.inl hZ)
        · rcases List.mem_cons.1 hY with rfl | hY2
          · exact Or.inl (Or.inr ⟨hZY, hcond⟩)
          · exact Or.inr ⟨Y, hY2, hZY, hcond⟩

/-- The prune phase against the model: rules, Cplus, and the exact
surviving level. -/
theorem prune_model {rows : List (List Nat)} {n l : Nat} {C : Cache}
    (hSP : ∀ k mm X2 Pp, alook C k = some (some mm) → alook mm X2 = some Pp →
      wfKey n X2 ∧ isSP rows X2 Pp)
    {mlev : LvlMap} (hml : alook C l = some (some mlev))
    (hl1 : 1 ≤ l)
    (L : List Attrs) (st : TState) (hc : st.cache = C)
    (hfull : ∀ K, wfKey n K → K.length = l → inLp rows K.toFinset → K ∈ L)
    (hL : ∀ X ∈ L, wfKey n X ∧ X.length = l ∧ (alook mlev X).isSome)
    (hI : CpInv rows n l L st.cplus)
    (hPp : ∀ Z ∈ L, (alook st.cplus Z).isSome) :
    ∃ st' L2, prune st L = Except.ok (st', L2) ∧
      st'.cache = C ∧ st'.curLevel = st.curLevel ∧
      st'.rules = st.rules ++ L.flatMap (skNodeRules rows n) ∧
      CpInv rows n l L st'.cplus ∧ (∀ Z ∈ L, (alook st'.cplus Z).isSome) ∧
      (∀ K v, alook st.cplus K = some v → alook st'.cplus K = some v) ∧
      L2.Sublist L ∧
      (∀ Z, Z ∈ L2 ↔ (Z ∈ L ∧ cpfinSet rows n Z.toFinset ≠ ∅ ∧
        ¬SKf rows Z.toFinset)) := by
  obtain ⟨st', clean2, h0, h1, h2, h3, h4, h5, h6, h7⟩ :=
    prune_fold_model hSP hml hfull hl1 L st [] hc
      (fun X hX => ⟨(hL X hX).1, (hL X hX).2.1, hX, (hL X hX).2.2⟩) hI hPp
  refine ⟨st', L.filter (fun X => decide (X ∉ clean2)), ?_, h1, h2, h3, h4, h5, h6,
    List.filter_sublist L, ?_⟩
  · simp [prune, h0]
  · intro Z
    rw [List.mem_filter]
    simp only [decide_eq_true_eq]
    constructor
    · rintro ⟨hZL, hZc⟩
      refine ⟨hZL, ?_, ?_⟩
      · intro hempty
        exact hZc ((h7 Z).2 (Or.inr ⟨Z, hZL, rfl, Or.inl hempty⟩))
      · intro hskz
        exact hZc ((h7 Z).2 (Or.inr ⟨Z, hZL, rfl, Or.inr hskz⟩))
    · rintro ⟨hZL, hne, hnsk⟩
      refine ⟨hZL, ?_⟩
      intro hZc
      rcases (h7 Z).1 hZc with h | ⟨Y, hY, rfl, hcond⟩
      · simp at h
      · rcases hcond with h | h
        · exact hne h
        · exact hnsk h

/-! ### Level characterization and rule accumulation -/

/-- A well-formed tuple of the next level is live exactly when all its
immediate subsets are live non-superkeys. -/
theorem inLp_next {rows : List (List Nat)} {n : Nat} {X : Attrs} (hwf : wfKey n X)
    (hlen : 2 ≤ X.length) :
    inLp rows X.toFinset ↔
      (∀ i, (hi : i < X.length) → inLp rows ((X.eraseIdx i).toFinset) ∧
        ¬SKf rows ((X.eraseIdx i).toFinset)) := by
  have hcard : X.toFinset.card = X.length := wfKey_card hwf
  constructor
  · intro h i hi
    rw [eraseIdx_toFinset i hi (wfKey_nodup hwf)]
    exact inLp_erase h (by omega) (List.mem_toFinset.2 (X.get_mem i hi))
  · intro h
    apply inLp_of_parts (by omega)
    intro x hx
    obtain ⟨i, hi, heq⟩ := erase_eq_eraseIdx_of_mem (List.mem_toFinset.1 hx)
    have h2 := h i hi
    rw [← heq, toFinset_list_erase (wfKey_nodup hwf) x] at h2
    exact h2

/-- A proper sub-universe set always keeps a survivor in Cplus. -/
theorem cpfinSet_ne_empty {rows : List (List Nat)} {n : Nat} {S : Finset Nat}
    (hsub : S ⊆ Finset.range n) (hcard : S.card < n) :
    cpfinSet rows n S ≠ ∅ := by
  intro hempty
  have hss : S ⊂ Finset.range n := by
    refine Finset.ssubset_iff_subset_ne.2 ⟨hsub, ?_⟩
    intro h
    rw [h, Finset.card_range] at hcard
    omega
  obtain ⟨x, hxr, hxS⟩ := Finset.exists_of_ssubset hss
  have hmem : x ∈ cpfinSet rows n S :=
    mem_cpfinSet_of_not_mem (Finset.mem_range.1 hxr) hxS
  rw [hempty] at hmem
  exact absurd hmem (Finset.not_mem_empty x)

theorem erase_sorted {X : Attrs} (h : X.Sorted (· < ·)) (y : Nat) :
    (X.erase y).Sorted (· < ·) :=
  List.Pairwise.sublist (X.erase_sublist y) h

/-- Membership in the join of two prefix-block partners. -/
theorem joinX_mem {A B : Attrs} (hA : A ≠ []) (hB : B ≠ [])
    (hdrop : A.dropLast = B.dropLast) (a : Nat) :
    (a ∈ joinX A B ↔ a ∈ A ++ B) := by
  have main : ∀ (A B : Attrs), A ≠ [] → B ≠ [] → A.dropLast = B.dropLast →
      ∀ a, a ∈ A ++ [B.getLastD 0] → a ∈ A ++ B := by
    intro A B hA hB hdrop a ha
    rcases List.mem_append.1 ha with h1 | h1
    · exact List.mem_append.2 (Or.inl h1)
    · have hab : a = B.getLastD 0 := by simpa using h1
      subst hab
      exact List.mem_append.2 (Or.inr (getLastD_mem hB 0))
  have main2 : ∀ (A B : Attrs), A ≠ [] → B ≠ [] → A.dropLast = B.dropLast →
      ∀ a, a ∈ A ++ B → a ∈ A ++ [B.getLastD 0] := by
    intro A B hA hB hdrop a ha
    rcases List.mem_append.1 ha with h1 | h1
    · exact List.mem_append.2 (Or.inl h1)
    · rw [← dropLast_append_getLastD hB] at h1
      rcases List.mem_append.1 h1 with h1 | h1
      · rw [← hdrop] at h1
        exact List.mem_append.2 (Or.inl (List.dropLast_sublist A |>.subset h1))
      · exact List.mem_append.2 (Or.inr h1)
  unfold joinX
  by_cases h : A.getLastD 0 < B.getLastD 0
  · rw [if_pos h]
    exact ⟨main A B hA hB hdrop a, main2 A B hA hB hdrop a⟩
  · rw [if_neg h]
    constructor
    · intro ha
      have := main B A hB hA hdrop.symm a ha
      rcases List.mem_append.1 this with h1 | h1
      · exact List.mem_append.2 (Or.inr h1)
      · exact List.mem_append.2 (Or.inl h1)
    · intro ha
      apply main2 B A hB hA hdrop.symm a
      rcases List.mem_append.1 ha with h1 | h1
      · exact List.mem_append.2 (Or.inr h1)
      · exact List.mem_append.2 (Or.inl h1)

theorem mem_cdRuleSetB {rows : List (List Nat)} {n l : Nat} {p : Rule} :
    p ∈ cdRuleSetB rows n l ↔ ∃ S y, S ⊆ Finset.range n ∧ y < n ∧ S.card < l ∧
      inLp rows S ∧ 2 ≤ S.card ∧ y ∈ S ∧ y ∈ cpinitSet rows n S ∧
      FDf rows (S.erase y) y ∧ p = (canonList (S.erase y), y) := by
  unfold cdRuleSetB
  simp only [Finset.mem_image, Finset.mem_filter, Finset.mem_product,
    Finset.mem_powerset, Finset.mem_range]
  constructor
  · rintro ⟨⟨S, y⟩, ⟨⟨hS, hy⟩, h1, h2, h3, h4, h5, h6⟩, heq⟩
    exact ⟨S, y, hS, hy, h1, h2, h3, h4, h5, h6, heq.symm⟩
  · rintro ⟨S, y, hS, hy, h1, h2, h3, h4, h5, h6, heq⟩
    exact ⟨(S, y), ⟨⟨hS, hy⟩, h1, h2, h3, h4, h5, h6⟩, heq.symm⟩

theorem mem_skRuleSetB {rows : List (List Nat)} {n l : Nat} {p : Rule} :
    p ∈ skRuleSetB rows n l ↔ ∃ S y, S ⊆ Finset.range n ∧ y < n ∧ S.card < l ∧
      inLp rows S ∧ SKf rows S ∧ y ∉ S ∧ y ∈ cpfinSet rows n S ∧
      skGuardF rows n S y ∧ p = (canonList S, y) := by
  unfold skRuleSetB
  simp only [Finset.mem_image, Finset.mem_filter, Finset.mem_product,
    Finset.mem_powerset, Finset.mem_range]
  constructor
  · rintro ⟨⟨S, y⟩, ⟨⟨hS, hy⟩, h1, h2, h3, h4, h5, h6⟩, heq⟩
    exact ⟨S, y, hS, hy, h1, h2, h3, h4, h5, h6, heq.symm⟩
  · rintro ⟨S, y, hS, hy, h1, h2, h3, h4, h5, h6, heq⟩
    exact ⟨(S, y), ⟨⟨hS, hy⟩, h1, h2, h3, h4, h5, h6⟩, heq.symm⟩

theorem mem_minFDne {rows : List (List Nat)} {n : Nat} {p : Rule} :
    p ∈ minFDne rows n ↔ ∃ S y, S ⊆ Finset.range n ∧ y < n ∧ S.Nonempty ∧
      y ∉ S ∧ FDf rows S y ∧ (∀ x ∈ S, 2 ≤ S.card → ¬FDf rows (S.erase x) y) ∧
      p = (canonList S, y) := by
  unfold minFDne
  simp only [Finset.mem_image, Finset.mem_filter, Finset.mem_product,
    Finset.mem_powerset, Finset.mem_range]
  constructor
  · rintro ⟨⟨S, y⟩, ⟨⟨hS, hy⟩, h1, h2, h3, h4⟩, heq⟩
    exact ⟨S, y, hS, hy, h1, h2, h3, h4, heq.symm⟩
  · rintro ⟨S, y, hS, hy, h1, h2, h3, h4, heq⟩
    exact ⟨(S, y), ⟨⟨hS, hy⟩, h1, h2, h3, h4⟩, heq.symm⟩

/-- Processing the level adds exactly the size-l stratum of the
compute_dependencies rules. -/
theorem cdB_step {rows : List (List Nat)} {n l : Nat} {L : List Attrs}
    (hlchar : ∀ X, X ∈ L ↔ (wfKey n X ∧ X.length = l ∧ inLp rows X.toFinset)) :
    cdRuleSetB rows n l ∪ (L.flatMap (cdNodeRules rows n)).toFinset =
      cdRuleSetB rows n (l + 1) := by
  ext p
  rw [Finset.mem_union, mem_cdRuleSetB, mem_cdRuleSetB, List.mem_toFinset,
    List.mem_flatMap]
  constructor
  · rintro (⟨S, y, hS, hy, h1, h2, h3, h4, h5, h6, heq⟩ | ⟨X, hX, hpX⟩)
    · exact ⟨S, y, hS, hy, by omega, h2, h3, h4, h5, h6, heq⟩
    · obtain ⟨hwf, hXlen, hinL⟩ := (hlchar X).1 hX
      unfold cdNodeRules at hpX
      obtain ⟨y, hyf, rfl⟩ := List.mem_map.1 hpX
      rw [List.mem_filter, mem_canonList, Finset.mem_inter, decide_eq_true_eq] at hyf
      obtain ⟨⟨hyinit, hyX⟩, hyne, hyfd⟩ := hyf
      have hyXl : y ∈ X := List.mem_toFinset.1 hyX
      have hcard : X.toFinset.card = l := by rw [wfKey_card hwf, hXlen]
      have h2c : 2 ≤ X.toFinset.card := by
        have hlene : (X.erase y).length = X.length - 1 := length_erase_of_mem hyXl
        have hpos : 1 ≤ (X.erase y).length := by
          cases he : X.erase y with
          | nil => exact absurd he hyne
          | cons b t => simp
        omega
      refine ⟨X.toFinset, y, wfKey_toFinset_subset hwf, hwf.2 y hyXl, by omega,
        hinL, h2c, hyX, hyinit, ?_, ?_⟩
      · rw [← toFinset_list_erase (wfKey_nodup hwf), ← FDl_iff_FDf]
        exact hyfd
      · rw [← toFinset_list_erase (wfKey_nodup hwf),
          canonList_of_sorted (erase_sorted hwf.1 y)]
  · rintro ⟨S, y, hS, hy, h1, h2, h3, h4, h5, h6, heq⟩
    rcases Nat.lt_or_ge S.card l with hlt | hge
    · exact Or.inl ⟨S, y, hS, hy, hlt, h2, h3, h4, h5, h6, heq⟩
    · have hcard : S.card = l := by omega
      right
      set X := canonList S with hX
      have hwf : wfKey n X := wfKey_canonList hS
      have hXf : X.toFinset = S := canonList_toFinset S
      have hXlen : X.length = l := by rw [hX, canonList_length, hcard]
      refine ⟨X, (hlchar X).2 ⟨hwf, hXlen, by rw [hXf]; exact h2⟩, ?_⟩
      unfold cdNodeRules
      have hyX : y ∈ X := by
        rw [hX, mem_canonList]
        exact h4
      have hfde : (X.erase y).toFinset = S.erase y := by
        rw [toFinset_list_erase (wfKey_nodup hwf), hXf]
      have hne : X.erase y ≠ [] := by
        intro hnil
        have h0 : (X.erase y).length = X.length - 1 := length_erase_of_mem hyX
        rw [hnil] at h0
        simp at h0
        omega
      apply List.mem_map.2
      refine ⟨y, ?_, ?_⟩
      · rw [List.mem_filter, mem_canonList, Finset.mem_inter, hXf]
        refine ⟨⟨h5, h4⟩, ?_⟩
        rw [decide_eq_true_eq]
        refine ⟨hne, ?_⟩
        rw [FDl_iff_FDf, hfde]
        exact h6
      · rw [heq]
        congr 1
        rw [← hfde, canonList_of_sorted (erase_sorted hwf.1 y)]

/-- Processing the level adds exactly the size-l stratum of the
superkey-prune rules. -/
theorem skB_step {rows : List (List Nat)} {n l : Nat} {L : List Attrs}
    (hlchar : ∀ X, X ∈ L ↔ (wfKey n X ∧ X.length = l ∧ inLp rows X.toFinset)) :
    skRuleSetB rows n l ∪ (L.flatMap (skNodeRules rows n)).toFinset =
      skRuleSetB rows n (l + 1) := by
  ext p
  rw [Finset.mem_union, mem_skRuleSetB, mem_skRuleSetB, List.mem_toFinset,
    List.mem_flatMap]
  constructor
  · rintro (⟨S, y, hS, hy, h1, h2, h3, h4, h5, h6, heq⟩ | ⟨X, hX, hpX⟩)
    · exact ⟨S, y, hS, hy, by omega, h2, h3, h4, h5, h6, heq⟩
    · obtain ⟨hwf, hXlen, hinL⟩ := (hlchar X).1 hX
      unfold skNodeRules at hpX
      by_cases hsk : SKf rows X.toFinset
      · rw [if_pos hsk] at hpX
        obtain ⟨y, hyf, rfl⟩ := List.mem_map.1 hpX
        rw [List.mem_filter, mem_canonList, Finset.mem_sdiff, decide_eq_true_eq] at hyf
        obtain ⟨⟨hyfin, hyX⟩, hyg⟩ := hyf
        have hcard : X.toFinset.card = l := by rw [wfKey_card hwf, hXlen]
        refine ⟨X.toFinset, y, wfKey_toFinset_subset hwf,
          Finset.mem_range.1 (cpfinSet_subset_range rows n _ hyfin), by omega,
          hinL, hsk, hyX, hyfin, hyg, ?_⟩
        rw [canonList_wfKey_self hwf]
      · rw [if_neg hsk] at hpX
        simp at hpX
  · rintro ⟨S, y, hS, hy, h1, h2, h3, h4, h5, h6, heq⟩
    rcases Nat.lt_or_ge S.card l with hlt | hge
    · exact Or.inl ⟨S, y, hS, hy, hlt, h2, h3, h4, h5, h6, heq⟩
    · have hcard : S.card = l := by omega
      right
      set X := canonList S with hX
      have hwf : wfKey n X := wfKey_canonList hS
      have hXf : X.toFinset = S := canonList_toFinset S
      have hXlen : X.length = l := by rw [hX, canonList_length, hcard]
      refine ⟨X, (hlchar X).2 ⟨hwf, hXlen, by rw [hXf]; exact h2⟩, ?_⟩
      unfold skNodeRules
      rw [hXf, if_pos h3]
      apply List.mem_map.2
      refine ⟨y, ?_, by rw [heq]⟩
      rw [List.mem_filter, mem_canonList, Finset.mem_sdiff]
      refine ⟨⟨h5, h4⟩, ?_⟩
      rw [decide_eq_true_eq]
      exact h6

theorem alook_mem {α β : Type} [DecidableEq α] :
    ∀ {l : List (α × β)} {k : α} {v : β}, alook l k = some v → (k, v) ∈ l := by
  intro l
  induction l with
  | nil => intro k v h; cases h
  | cons p rest ih =>
    intro k v h
    obtain ⟨a, b⟩ := p
    by_cases hk : k = a
    · subst hk
      simp [alook] at h
      subst h
      simp
    · simp only [alook, if_neg hk] at h
      exact List.mem_cons.2 (Or.inr (ih h))

/-- The model invariant holds initially. -/
theorem MInv_init (rows : List (List Nat)) {n : Nat}
    (hn : n = (rows.headD []).length) :
    MInv rows n (initState (buildT rows)) ((List.range n).map (fun i => [i])) := by
  have hTlen : (buildT rows).length = n := by rw [buildT_length, hn]
  constructor
  · have h := SInv_init (buildT rows)
    rw [hTlen] at h
    exact h
  · intro X
    constructor
    · intro hX
      obtain ⟨i, hi, rfl⟩ := List.mem_map.1 hX
      have hin : i < n := List.mem_range.1 hi
      refine ⟨⟨List.sorted_singleton i, by simpa using hin⟩, rfl, ?_⟩
      show inLp rows ([i] : Attrs).toFinset
      have h1 : ([i] : Attrs).toFinset = {i} := by simp
      rw [h1]
      exact inLp_singleton rows i
    · rintro ⟨hwf, hlen1, _⟩
      have hl1 : X.length = 1 := hlen1
      obtain ⟨a, rfl⟩ : ∃ a, X = [a] := by
        cases X with
        | nil => simp at hl1
        | cons a t =>
          cases t with
          | nil => exact ⟨a, rfl⟩
          | cons b t2 => simp at hl1
      have han : a < n := hwf.2 a (by simp)
      exact List.mem_map.2 ⟨a, List.mem_range.2 han, rfl⟩
  · intro k mm X Pp hk hX
    have hkmem : ((k, some mm) ∈
        [((0 : Nat), (none : Option LvlMap)),
         (1, some ((List.range (buildT rows).length).map
           (fun i => ([i], (buildT rows).getD i []))))]) := alook_mem hk
    rcases List.mem_cons.1 hkmem with heq | hkmem
    · exact absurd (Prod.mk.inj heq).2 (by simp)
    · have heq : (k, some mm) = (1, some ((List.range (buildT rows).length).map
          (fun i => ([i], (buildT rows).getD i [])))) := by simpa using hkmem
      have hmm : mm = (List.range (buildT rows).length).map
          (fun i => ([i], (buildT rows).getD i [])) :=
        Option.some.inj (Prod.mk.inj heq).2
      subst hmm
      have hXmem := alook_mem hX
      obtain ⟨i, hi, heq2⟩ := List.mem_map.1 hXmem
      have hin : i < n := by rw [← hTlen]; exact List.mem_range.1 hi
      obtain ⟨hX1, hX2⟩ : X = [i] ∧ Pp = (buildT rows).getD i [] :=
        ⟨(Prod.mk.inj heq2.symm).1, (Prod.mk.inj heq2.symm).2⟩
      subst hX1
      subst hX2
      refine ⟨⟨List.sorted_singleton i, by simpa using hin⟩, ?_⟩
      rw [buildT_getD (by omega)]
      exact colClasses_isSP rows i
  · show CpInv rows n 1 [] [(([] : Attrs), Finset.range (buildT rows).length)]
    constructor
    · show some (Finset.range (buildT rows).length) = some (Finset.range n)
      rw [hTlen]
    · intro K v hv
      obtain ⟨hK1, hK2⟩ : K = [] ∧ v = Finset.range (buildT rows).length := by
        simpa using alook_mem hv
      subst hK1
      subst hK2
      refine ⟨⟨List.sorted_nil, by simp⟩, by simp, ?_, by simp⟩
      intro _
      rw [hTlen]
      show Finset.range n = cpfinSet rows n (∅ : Finset Nat)
      rw [cpfinSet_empty]
    · intro K hwf hlt hin
      have hK : K = [] := List.length_eq_zero.1 (by omega)
      subst hK
      obtain ⟨a, ha⟩ := hin.1
      simp at ha
  · show (([] : List Rule)).toFinset = cdRuleSetB rows n 1 ∪ skRuleSetB rows n 1
    ext p
    simp only [List.toFinset_nil, Finset.not_mem_empty, Finset.mem_union, false_iff]
    rintro (h | h)
    · obtain ⟨S, y, _, _, hcard, _, h2c, _⟩ := mem_cdRuleSetB.1 h
      omega
    · obtain ⟨S, y, _, _, hcard, hinL, _⟩ := mem_skRuleSetB.1 h
      have := Finset.card_pos.2 hinL.1
      omega

/-- One driver iteration preserves the model invariant. -/
theorem taneStep_model {rows : List (List Nat)} {n : Nat} (T : List Partn)
    (hTeq : T = buildT rows) (hn : n = (rows.headD []).length)
    (st : TState) (L : List Attrs) (hM : MInv rows n st L) :
    ∃ st' L', taneStep T st L = Except.ok (st', L') ∧ MInv rows n st' L' ∧
      st'.curLevel = st.curLevel + 1 := by
  obtain ⟨hsinv, lchar, cacheSP, cpinv, rulesEq⟩ := hM
  obtain ⟨hcur, hlenL, hwfL, hndL, hcpe, hdom, ⟨mc, hmc, hmcL⟩, hprev0⟩ := hsinv
  -- the previous-level map (trivial at level 1)
  obtain ⟨mprev, hprev, hprevL⟩ : ∃ mp,
      (2 ≤ st.curLevel → alook st.cache (st.curLevel - 1) = some (some mp)) ∧
      (∀ X ∈ L, ∀ i, i < X.length → 2 ≤ st.curLevel →
        (alook mp (X.eraseIdx i)).isSome) := by
    by_cases hl2 : 2 ≤ st.curLevel
    · obtain ⟨mp, h1, h2⟩ := hprev0 hl2
      exact ⟨mp, fun _ => h1, fun X hX i hi _ => h2 X hX i hi⟩
    · exact ⟨[], fun h => absurd h hl2, fun X hX i hi h => absurd h hl2⟩
  -- phase 1: compute_dependencies
  obtain ⟨st1, hcd0, hc1, hcur1, hrules1, hI1, hpres1⟩ :=
    computeDependencies_model T hTeq hn cacheSP hprev L [] st rfl
      (fun X hX => (lchar X).1 hX)
      (fun X _ hmem => by cases hmem)
      hndL
      (fun X hX y hy hl2 => by
        obtain ⟨i, hi, heq⟩ := erase_eq_eraseIdx_of_mem hy
        rw [heq]
        exact hprevL X hX i hi hl2)
      cpinv
      (fun X hX => by cases hX)
  have hI1L : CpInv rows n st.curLevel L st1.cplus := hI1
  have hpres1L : ∀ Z ∈ L, (alook st1.cplus Z).isSome := fun Z hZ => hpres1 Z hZ
  -- phase 2: prune
  have hfull : ∀ K, wfKey n K → K.length = st.curLevel → inLp rows K.toFinset →
      K ∈ L := fun K h1 h2 h3 => (lchar K).2 ⟨h1, h2, h3⟩
  obtain ⟨st2, L2, hpr0, hc2, hcur2, hrules2, hI2, hpres2, _, hsub2, hL2⟩ :=
    prune_model cacheSP hmc hcur L st1 hc1 hfull
      (fun X hX => ⟨hwfL X hX, hlenL X hX, hmcL X hX⟩) hI1L hpres1L
  have hcur2l : st2.curLevel = st.curLevel := by rw [hcur2, hcur1]
  -- phase 3: generate_next_level
  obtain ⟨st3, L3, m3, hgen0, g1, g2, g3, g4, g5, g6, g6d, g7, g8, g9⟩ :=
    generateNextLevel_spec (n := n) st2 L2 mc
      (fun X hX => by rw [hcur2l]; exact hlenL X (hsub2.subset hX))
      (fun X hX => hwfL X (hsub2.subset hX))
      (hsub2.nodup hndL)
      (by rw [hcur2l]; exact hcur)
      (by rw [hc2, hcur2l]; exact hmc)
      (fun X hX => hmcL X (hsub2.subset hX))
  have hcur3 : st3.curLevel = st.curLevel + 1 := by rw [g1, hcur2l]
  -- phase 4: memory wipe
  have hwipe0 : st3.curLevel - 2 = st.curLevel - 1 := by omega
  have hkeep : alook st3.cache (st.curLevel - 1) =
      alook st.cache (st.curLevel - 1) := by
    have hne2 : st.curLevel - 1 ≠ st2.curLevel + 1 := by omega
    rw [g4 _ hne2, hc2]
  have hsome1 : (alook st3.cache (st.curLevel - 1)).isSome := by
    rw [hkeep]
    exact (hdom (st.curLevel - 1)).2 (Or.inr rfl)
  obtain ⟨v1, hv1⟩ := Option.isSome_iff_exists.1 hsome1
  have hwipe : memoryWipe st3 = Except.ok
      { st3 with cache := adel st3.cache (st3.curLevel - 2) } := by
    rw [memoryWipe, hwipe0, hv1]
  set st4 : TState := { st3 with cache := adel st3.cache (st3.curLevel - 2) } with hst4
  have hrun : taneStep T st L = Except.ok (st4, L3) := by
    simp only [taneStep, hcd0, hpr0, hgen0, hwipe]
  have hcur4 : st4.curLevel = st.curLevel + 1 := hcur3
  -- the structural invariant, via the totality theorem and determinism
  obtain ⟨st5, L5, hrun5, hsinv5, _, _, _, _⟩ :=
    taneStep_spec T st L
      ⟨hcur, hlenL, hwfL, hndL, hcpe, hdom, ⟨mc, hmc, hmcL⟩, hprev0⟩
  rw [hrun] at hrun5
  obtain ⟨h5a, h5b⟩ := Prod.mk.inj (Except.ok.inj hrun5)
  subst h5a
  subst h5b
  -- the next-level characterization
  have hlchar4 : ∀ X, X ∈ L3 ↔
      (wfKey n X ∧ X.length = st.curLevel + 1 ∧ inLp rows X.toFinset) := by
    intro X
    rw [g9 X, hcur2l]
    constructor
    · rintro ⟨hXlen, hXwf, hXsub⟩
      refine ⟨hXwf, hXlen, ?_⟩
      rw [inLp_next hXwf (by omega)]
      intro i hi
      obtain ⟨hmemL, _, hnsk⟩ := (hL2 (X.eraseIdx i)).1 (hXsub i hi)
      exact ⟨((lchar _).1 hmemL).2.2, hnsk⟩
    · rintro ⟨hXwf, hXlen, hXin⟩
      refine ⟨hXlen, hXwf, ?_⟩
      intro i hi
      have hparts := (inLp_next hXwf (by omega)).1 hXin i hi
      have hwfe : wfKey n (X.eraseIdx i) := wfKey_eraseIdx hXwf i
      have hlene : (X.eraseIdx i).length = st.curLevel := by
        rw [length_eraseIdx_of_lt hi, hXlen]
        omega
      have hmemL : X.eraseIdx i ∈ L := (lchar _).2 ⟨hwfe, hlene, hparts.1⟩
      refine (hL2 (X.eraseIdx i)).2 ⟨hmemL, ?_, hparts.2⟩
      apply cpfinSet_ne_empty (wfKey_toFinset_subset hwfe)
      have hcard : (X.eraseIdx i).toFinset.card = st.curLevel := by
        rw [wfKey_card hwfe, hlene]
      have hXn : X.length ≤ n := wfKey_length_le hXwf
      omega
  refine ⟨st4, L3, hrun, ⟨hsinv5, ?_, ?_, ?_, ?_⟩, hcur4⟩
  · intro X
    rw [hcur4]
    exact hlchar4 X
  · -- cache faithfulness
    intro k2 mm X2 Pp2 hk2 hX2
    have hk2a : alook (adel st3.cache (st3.curLevel - 2)) k2 = some (some mm) := hk2
    rw [hwipe0] at hk2a
    have hk2' : alook st3.cache k2 = some (some mm) := by
      by_cases hkk : k2 = st.curLevel - 1
      · subst hkk
        rw [alook_adel_self] at hk2a
        cases hk2a
      · rw [alook_adel_ne _ _ _ hkk] at hk2a
        exact hk2a
    by_cases hk2l : k2 = st2.curLevel + 1
    · subst hk2l
      rw [g5] at hk2'
      obtain rfl : m3 = mm := Option.some.inj (Option.some.inj hk2')
      have hX2mem : X2 ∈ L3 := g6d X2 (by simp [hX2])
      have hwfX2 : wfKey n X2 := ((g9 X2).1 hX2mem).2.1
      obtain ⟨A, B, pA, pB, hAL2, hBL2, hABne, hdrop, hXjoin, hsubs, hpA, hpB, hstore⟩ :=
        g8 X2 hX2mem
      have hAL : A ∈ L := hsub2.subset hAL2
      have hBL : B ∈ L := hsub2.subset hBL2
      obtain ⟨hwfA, hspA⟩ := cacheSP st.curLevel mc A pA hmc hpA
      obtain ⟨hwfB, hspB⟩ := cacheSP st.curLevel mc B pB hmc hpB
      have hAne : A ≠ [] := by
        intro h
        have h2 := hlenL A hAL
        rw [h] at h2
        simp at h2
        omega
      have hBne : B ≠ [] := by
        intro h
        have h2 := hlenL B hBL
        rw [h] at h2
        simp at h2
        omega
      have hmemX2 : ∀ a, a ∈ A ++ B ↔ a ∈ X2 := by
        intro a
        rw [hXjoin]
        exact (joinX_mem hAne hBne hdrop a).symm
      refine ⟨hwfX2, ?_⟩
      rcases hstore with hstore | hstore
      · have heqp : some (PPattern.intersection pA pB) = some Pp2 := by
          rw [← hstore, hX2]
        obtain rfl : PPattern.intersection pA pB = Pp2 := Option.some.inj heqp
        exact isSP_congr hmemX2 (isSP_inter hspA hspB)
      · have heqp : some (PPattern.intersection pB pA) = some Pp2 := by
          rw [← hstore, hX2]
        obtain rfl : PPattern.intersection pB pA = Pp2 := Option.some.inj heqp
        refine isSP_congr (S := B ++ A) ?_ (isSP_inter hspB hspA)
        intro a
        rw [← hmemX2 a]
        constructor
        · intro h
          rcases List.mem_append.1 h with h | h
          · exact List.mem_append.2 (Or.inr h)
          · exact List.mem_append.2 (Or.inl h)
        · intro h
          rcases List.mem_append.1 h with h | h
          · exact List.mem_append.2 (Or.inr h)
          · exact List.mem_append.2 (Or.inl h)
    · rw [g4 _ hk2l, hc2] at hk2'
      exact cacheSP k2 mm X2 Pp2 hk2' hX2
  · -- the Cplus model at the next level
    have hcp2 : st4.cplus = st2.cplus := g2
    rw [hcur4, hcp2]
    constructor
    · exact hI2.base
    · intro K v hv
      obtain ⟨hw, hle, hv1b, hv2b⟩ := hI2.val K v hv
      refine ⟨hw, by omega, ?_, ?_⟩
      · intro _
        rcases Nat.lt_or_ge K.length st.curLevel with hlt | hge
        · exact hv1b (Or.inl hlt)
        · have hKl : K.length = st.curLevel := by omega
          by_cases hKL : K ∈ L
          · exact hv1b (Or.inr hKL)
          · have hnotin : ¬inLp rows K.toFinset := fun hin =>
              hKL ((lchar K).2 ⟨hw, hKl, hin⟩)
            rw [hv2b hKl hKL, ← cpfinSet_eq_cpinitSet_of_not_inLp hnotin]
      · intro hKl hKP
        omega
    · intro K hw hlt hin
      rcases Nat.lt_or_ge K.length st.curLevel with hlt2 | hge
      · exact hI2.live K hw hlt2 hin
      · have hKl : K.length = st.curLevel := by omega
        exact hpres2 K ((lchar K).2 ⟨hw, hKl, hin⟩)
  · -- the rules
    have hr4 : st4.rules = st.rules ++
        (L.flatMap (cdNodeRules rows n) ++ L.flatMap (skNodeRules rows n)) := by
      have h43 : st4.rules = st3.rules := rfl
      rw [h43, g3, hrules2, hrules1, List.append_assoc]
    rw [hcur4, hr4, List.toFinset_append, List.toFinset_append, rulesEq,
      ← cdB_step lchar, ← skB_step lchar]
    ext p
    simp only [Finset.mem_union]
    constructor
    · rintro ((h | h) | (h | h))
      · exact Or.inl (Or.inl h)
      · exact Or.inr (Or.inl h)
      · exact Or.inl (Or.inr h)
      · exact Or.inr (Or.inr h)
    · rintro ((h | h) | (h | h))
      · exact Or.inl (Or.inl h)
      · exact Or.inr (Or.inl h)
      · exact Or.inl (Or.inr h)
      · exact Or.inr (Or.inr h)

/-- No live candidate exists at or above a dead size. -/
theorem no_inLp_above {rows : List (List Nat)} {n l : Nat} (hl1 : 1 ≤ l)
    (hnone : ∀ S, S ⊆ Finset.range n → S.card = l → ¬inLp rows S) :
    ∀ S, S ⊆ Finset.range n → l ≤ S.card → ¬inLp rows S := by
  intro S
  induction S using Finset.strongInduction with
  | _ S ih =>
    intro hsub hge hin
    rcases Nat.eq_or_lt_of_le hge with heq | hlt
    · exact hnone S hsub heq.symm hin
    · obtain ⟨x, hx⟩ := hin.1
      have h2 := (inLp_erase hin (by omega) hx).1
      exact ih (S.erase x) (Finset.erase_ssubset hx)
        ((Finset.erase_subset _ _).trans hsub)
        (by rw [Finset.card_erase_of_mem hx]; omega) h2

/-- Once the level dies, the bounded rule sets are saturated. -/
theorem ruleSetB_saturate {rows : List (List Nat)} {n l : Nat} (hl1 : 1 ≤ l)
    (hnone : ∀ S, S ⊆ Finset.range n → S.card = l → ¬inLp rows S) :
    cdRuleSetB rows n l = cdRuleSet rows n ∧
    skRuleSetB rows n l = skRuleSet rows n := by
  have habove := no_inLp_above hl1 hnone
  constructor
  · ext p
    rw [mem_cdRuleSetB]
    unfold cdRuleSet
    rw [mem_cdRuleSetB]
    constructor
    · rintro ⟨S, y, hS, hy, h1, h2, h3, h4, h5, h6, heq⟩
      have hcn : S.card ≤ n := by
        have := Finset.card_le_card hS
        simpa using this
      exact ⟨S, y, hS, hy, by omega, h2, h3, h4, h5, h6, heq⟩
    · rintro ⟨S, y, hS, hy, h1, h2, h3, h4, h5, h6, heq⟩
      rcases Nat.lt_or_ge S.card l with hlt | hge
      · exact ⟨S, y, hS, hy, hlt, h2, h3, h4, h5, h6, heq⟩
      · exact absurd h2 (habove S hS hge)
  · ext p
    rw [mem_skRuleSetB]
    unfold skRuleSet
    rw [mem_skRuleSetB]
    constructor
    · rintro ⟨S, y, hS, hy, h1, h2, h3, h4, h5, h6, heq⟩
      have hcn : S.card ≤ n := by
        have := Finset.card_le_card hS
        simpa using this
      exact ⟨S, y, hS, hy, by omega, h2, h3, h4, h5, h6, heq⟩
    · rintro ⟨S, y, hS, hy, h1, h2, h3, h4, h5, h6, heq⟩
      rcases Nat.lt_or_ge S.card l with hlt | hge
      · exact ⟨S, y, hS, hy, hlt, h2, h3, h4, h5, h6, heq⟩
      · exact absurd h2 (habove S hS hge)

/-- The driver loop against the model. -/
theorem runAux_model {rows : List (List Nat)} {n : Nat} (T : List Partn)
    (hTeq : T = buildT rows) (hn : n = (rows.headD []).length) :
    ∀ (fuel : Nat) (st : TState) (L : List Attrs), MInv rows n st L →
    n + 2 ≤ st.curLevel + fuel →
    ∃ stf, runAux T fuel st L = Except.ok stf ∧
      stf.rules.toFinset = cdRuleSet rows n ∪ skRuleSet rows n := by
  have hnil : ∀ (st : TState), MInv rows n st [] →
      st.rules.toFinset = cdRuleSet rows n ∪ skRuleSet rows n := by
    intro st hM
    have hnone : ∀ S, S ⊆ Finset.range n → S.card = st.curLevel →
        ¬inLp rows S := by
      intro S hS hcard hin
      have hX : canonList S ∈ ([] : List Attrs) := by
        apply (hM.lchar (canonList S)).2
        refine ⟨wfKey_canonList hS, ?_, ?_⟩
        · rw [canonList_length, hcard]
        · rw [canonList_toFinset]
          exact hin
      cases hX
    obtain ⟨hcd, hsk⟩ := ruleSetB_saturate hM.sinv.curpos hnone
    rw [hM.rulesEq, hcd, hsk]
  intro fuel
  induction fuel with
  | zero =>
    intro st L hM hfuel
    cases L with
    | nil => exact ⟨st, rfl, hnil st hM⟩
    | cons X L0 =>
      exfalso
      have h1 : X.length = st.curLevel := hM.sinv.lenL X (by simp)
      have h2 : X.length ≤ n := wfKey_length_le (hM.sinv.wfL X (by simp))
      omega
  | succ fuel ih =>
    intro st L hM hfuel
    cases L with
    | nil => exact ⟨st, rfl, hnil st hM⟩
    | cons X L0 =>
      obtain ⟨st', L', hstep, hM', hlvl⟩ := taneStep_model T hTeq hn st (X :: L0) hM
      obtain ⟨stf, hrec, hrules⟩ := ih st' L' hM' (by omega)
      refine ⟨stf, ?_, hrules⟩
      rw [runAux, hstep]
      · exact hrec
      · intro h
        exact List.cons_ne_nil X L0 h

/-- The rules of a completed run are exactly the declarative rule sets. -/
theorem runRules_model (rows : List (List Nat)) :
    (runRules rows).toFinset =
      cdRuleSet rows (rows.headD []).length ∪
      skRuleSet rows (rows.headD []).length := by
  set n := (rows.headD []).length with hn
  have hTlen : (buildT rows).length = n := by rw [buildT_length, hn]
  have hM := MInv_init rows hn
  obtain ⟨stf, hrunf, hrules⟩ :=
    runAux_model (buildT rows) rfl hn (n + 2)
      (initState (buildT rows)) ((List.range n).map (fun i => [i])) hM
      (by
        have hc : (initState (buildT rows)).curLevel = 1 := rfl
        omega)
  have hrunOk : run (buildT rows) = Except.ok stf := by
    unfold run
    rw [hTlen]
    exact hrunf
  unfold runRules runRulesT
  rw [hrunOk]
  exact hrules

theorem finset_erase_comm (s : Finset Nat) (a b : Nat) :
    (s.erase a).erase b = (s.erase b).erase a := by
  ext x
  simp only [Finset.mem_erase]
  tauto

/-- The two rule families of the model are together exactly the minimal
non-trivial FDs with non-empty left-hand sides. -/
theorem ruleSets_eq_minFDne (rows : List (List Nat)) (n : Nat) :
    cdRuleSet rows n ∪ skRuleSet rows n = minFDne rows n := by
  ext p
  rw [Finset.mem_union]
  unfold cdRuleSet skRuleSet
  rw [mem_cdRuleSetB, mem_skRuleSetB, mem_minFDne]
  constructor
  · rintro (⟨S, y, hS, hy, hcard, hinL, h2c, hyS, hcpinit, hfd, hpeq⟩ |
            ⟨S, y, hS, hy, hcard, hinL, hsk, hyS, hcpfin, hguard, hpeq⟩)
    · -- a compute_dependencies rule is minimal
      have hcE := Finset.card_erase_of_mem hyS
      refine ⟨S.erase y, y, (Finset.erase_subset _ _).trans hS, hy, ?_,
        Finset.not_mem_erase _ _, hfd, ?_, hpeq⟩
      · apply Finset.card_pos.1
        omega
      · intro x hx hGc hfdx
        have hxS : x ∈ S := Finset.mem_of_mem_erase hx
        have hxy : x ≠ y := Finset.ne_of_mem_erase hx
        have hcEx := Finset.card_erase_of_mem hxS
        have hQ : remQ rows (S.erase x) y := by
          refine ⟨(inLp_erase hinL h2c hxS).1,
            Finset.mem_erase.2 ⟨Ne.symm hxy, hyS⟩, by omega, ?_⟩
          rw [finset_erase_comm]
          exact hfdx
        refine (mem_cpinitSet.1 hcpinit).2 (S.erase x) (Finset.erase_subset _ _)
          ?_ hQ
        intro hEq
        exact (Finset.erase_eq_self.1 hEq) hxS
    · -- a superkey-prune rule is minimal
      obtain ⟨hSne, hmin2⟩ := hinL
      refine ⟨S, y, hS, hy, hSne, hyS, SKf_FDf hsk y, ?_, hpeq⟩
      intro x hx hGc hfdx
      have hymem : y ∉ S.erase x := fun hh => hyS (Finset.mem_of_mem_erase hh)
      have hMe : (insert y (S.erase x)).erase y = S.erase x :=
        Finset.erase_insert hymem
      have hcardM : 2 ≤ (insert y (S.erase x)).card := by
        rw [Finset.card_insert_of_not_mem hymem, Finset.card_erase_of_mem hx]
        omega
      have hnotinL : ¬inLp rows (insert y (S.erase x)) := by
        intro hin
        refine (mem_cpfinSet.1 (hguard x hx)).2 (insert y (S.erase x))
          subset_rfl ⟨hin, Finset.mem_insert_self _ _, hcardM, ?_⟩
        rw [hMe]
        exact hfdx
      have hexY : ∃ Y, Y ⊆ insert y (S.erase x) ∧ Y.Nonempty ∧
          Y ≠ insert y (S.erase x) ∧ SKf rows Y := by
        by_contra hno
        push_neg at hno
        exact hnotinL ⟨Finset.insert_nonempty _ _,
          fun Y hY h1 h2 => hno Y (Finset.mem_powerset.1 hY) h1 h2⟩
      obtain ⟨Y, hYsub, hYne, hYneq, hYsk⟩ := hexY
      have hSxne : (S.erase x).Nonempty := by
        apply Finset.card_pos.1
        rw [Finset.card_erase_of_mem hx]
        omega
      by_cases hyY : y ∈ Y
      · have hYe : Y.erase y ⊆ S.erase x := by
          intro a ha
          rcases Finset.mem_insert.1 (hYsub (Finset.mem_of_mem_erase ha)) with hh | hh
          · exact absurd hh (Finset.ne_of_mem_erase ha)
          · exact hh
        have hsk2 : SKf rows (insert y (Y.erase y)) := by
          rw [Finset.insert_erase hyY]
          exact hYsk
        have hskx : SKf rows (S.erase x) := SKf_of_FD_insert hfdx hYe hsk2
        exact hmin2 (S.erase x) (Finset.mem_powerset.2 (Finset.erase_subset _ _))
          hSxne (fun hh => (Finset.erase_eq_self.1 hh) hx) hskx
      · have hYe : Y ⊆ S.erase x := by
          intro a ha
          rcases Finset.mem_insert.1 (hYsub ha) with hh | hh
          · exact absurd (hh ▸ ha) hyY
          · exact hh
        refine hmin2 Y (Finset.mem_powerset.2 (hYe.trans (Finset.erase_subset _ _)))
          hYne ?_ hYsk
        intro hEq
        exact Finset.not_mem_erase x S (hYe (by rw [hEq]; exact hx))
  · rintro ⟨G, y, hG, hy, hGne, hyG, hfd, hmin, hpeq⟩
    have hcardn : G.card ≤ n := by
      have hle := Finset.card_le_card hG
      rwa [Finset.card_range] at hle
    by_cases hinS : inLp rows (insert y G)
    · -- emitted by compute_dependencies at the node insert y G
      left
      have hsubS : insert y G ⊆ Finset.range n :=
        Finset.insert_subset_iff.2 ⟨Finset.mem_range.2 hy, hG⟩
      have hcardS : (insert y G).card = G.card + 1 :=
        Finset.card_insert_of_not_mem hyG
      have hGlt : G.card < n := by
        have h1 : G ⊂ Finset.range n := by
          apply Finset.ssubset_iff_subset_ne.2
          refine ⟨hG, ?_⟩
          intro hEq
          apply hyG
          rw [hEq]
          exact Finset.mem_range.2 hy
        have h2 := Finset.card_lt_card h1
        rwa [Finset.card_range] at h2
      refine ⟨insert y G, y, hsubS, hy, ?_, hinS, ?_,
        Finset.mem_insert_self _ _, ?_, ?_, ?_⟩
      · omega
      · have h1 := Finset.card_pos.2 hGne
        omega
      · refine mem_cpinitSet.2 ⟨hy, ?_⟩
        intro M hM hMne hQ
        obtain ⟨hinM, hyM, hMc, hMfd⟩ := hQ
        have hMe : M.erase y ⊆ G := by
          intro a ha
          rcases Finset.mem_insert.1 (hM (Finset.mem_of_mem_erase ha)) with hh | hh
          · exact absurd hh (Finset.ne_of_mem_erase ha)
          · exact hh
        have hMeNe : M.erase y ≠ G := by
          intro hEq
          apply hMne
          rw [← Finset.insert_erase hyM, hEq]
        have hss : M.erase y ⊂ G := Finset.ssubset_iff_subset_ne.2 ⟨hMe, hMeNe⟩
        obtain ⟨x, hxG, hxM⟩ := Finset.exists_of_ssubset hss
        have hsub2 : M.erase y ⊆ G.erase x := fun a ha =>
          Finset.mem_erase.2 ⟨fun hh => hxM (hh ▸ ha), hMe ha⟩
        rcases Nat.lt_or_ge G.card 2 with hG1 | hG2
        · have h1 := Finset.card_erase_of_mem hyM
          have h2 := Finset.card_lt_card hss
          omega
        · exact hmin x hxG hG2 (FDf_mono hsub2 hMfd)
      · rw [Finset.erase_insert hyG]
        exact hfd
      · rw [Finset.erase_insert hyG]
        exact hpeq
    · -- emitted by the superkey case of prune at the node G
      right
      have hexY : ∃ Y, Y ⊆ insert y G ∧ Y.Nonempty ∧ Y ≠ insert y G ∧
          SKf rows Y := by
        by_contra hno
        push_neg at hno
        exact hinS ⟨Finset.insert_nonempty _ _,
          fun Y hY h1 h2 => hno Y (Finset.mem_powerset.1 hY) h1 h2⟩
      obtain ⟨Y, hYsub, hYne, hYneq, hYsk⟩ := hexY
      have hskG : SKf rows G := by
        by_cases hyY : y ∈ Y
        · have hYe : Y.erase y ⊆ G := by
            intro a ha
            rcases Finset.mem_insert.1 (hYsub (Finset.mem_of_mem_erase ha)) with hh | hh
            · exact absurd hh (Finset.ne_of_mem_erase ha)
            · exact hh
          have hsk2 : SKf rows (insert y (Y.erase y)) := by
            rw [Finset.insert_erase hyY]
            exact hYsk
          exact SKf_of_FD_insert hfd hYe hsk2
        · have hYe : Y ⊆ G := by
            intro a ha
            rcases Finset.mem_insert.1 (hYsub ha) with hh | hh
            · exact absurd (hh ▸ ha) hyY
            · exact hh
          exact SKf_mono hYe hYsk
      have hinLG : inLp rows G := by
        refine ⟨hGne, ?_⟩
        intro Z hZ hZne hZneq hZsk
        have hZsub : Z ⊆ G := Finset.mem_powerset.1 hZ
        have hss : Z ⊂ G := Finset.ssubset_iff_subset_ne.2 ⟨hZsub, hZneq⟩
        obtain ⟨x, hxG, hxZ⟩ := Finset.exists_of_ssubset hss
        have hsub2 : Z ⊆ G.erase x := fun a ha =>
          Finset.mem_erase.2 ⟨fun hh => hxZ (hh ▸ ha), hZsub ha⟩
        have hG2 : 2 ≤ G.card := by
          have h1 := Finset.card_pos.2 hZne
          have h2 := Finset.card_lt_card hss
          omega
        exact hmin x hxG hG2 (FDf_mono hsub2 (SKf_FDf hZsk y))
      refine ⟨G, y, hG, hy, by omega, hinLG, hskG, hyG,
        mem_cpfinSet_of_not_mem hy hyG, ?_, hpeq⟩
      intro b hb
      refine mem_cpfinSet.2 ⟨hy, ?_⟩
      intro M hM hQ
      obtain ⟨hinM, hyM, hMc, hMfd⟩ := hQ
      have hybG : y ∉ G.erase b := fun hh => hyG (Finset.mem_of_mem_erase hh)
      have hMe : M.erase y ⊆ G.erase b := by
        intro a ha
        have h2 := hM (Finset.mem_of_mem_erase ha)
        rcases Finset.mem_insert.1 h2 with hh | hh
        · exact absurd hh (Finset.ne_of_mem_erase ha)
        · exact hh
      rcases Nat.lt_or_ge G.card 2 with hG1 | hG2
      · have hGb : G.erase b = ∅ := by
          apply Finset.card_eq_zero.1
          have h1 := Finset.card_erase_of_mem hb
          omega
        have hM0 : M.erase y = ∅ := by
          apply Finset.subset_empty.1
          rw [← hGb]
          exact hMe
        have h3 := Finset.card_erase_of_mem hyM
        rw [hM0] at h3
        simp at h3
        omega
      · exact hmin b hb hG2 (FDf_mono hMe hMfd)

/-- A completed run emits exactly the minimal non-trivial FDs with
non-empty left-hand sides (as canonical sorted tuples). -/
theorem runRules_eq_minFDne (rows : List (List Nat)) :
    (runRules rows).toFinset = minFDne rows (rows.headD []).length := by
  rw [runRules_model, ruleSets_eq_minFDne]

/-! ### Claim theorems -/

/-- C9: the stripped product is symmetric: for stripped partitions A and B
(pairwise-disjoint classes of size at least two), intersection(A, B) and
intersection(B, A) yield the same collection of classes when compared as
sets of sets of row indices. -/
theorem tane_claim_C9 (A B : Partn)
    (hdA : ∀ c ∈ A, ∀ c' ∈ A, c ≠ c' → Disjoint c c') (hA2 : ∀ c ∈ A, 2 ≤ c.card)
    (hdB : ∀ c ∈ B, ∀ c' ∈ B, c ≠ c' → Disjoint c c') (hB2 : ∀ c ∈ B, 2 ≤ c.card) :
    (PPattern.intersection A B).toFinset = (PPattern.intersection B A).toFinset := by
  ext c
  simp only [PPattern.intersection, List.mem_toFinset, List.mem_flatMap,
    List.mem_filter, List.mem_map, decide_eq_true_eq]
  constructor
  · rintro ⟨b, hb, ⟨a, ha, heq⟩, hcard⟩
    exact ⟨a, ha, ⟨b, hb, by rw [Finset.inter_comm]; exact heq⟩, hcard⟩
  · rintro ⟨a, ha, ⟨b, hb, heq⟩, hcard⟩
    exact ⟨b, hb, ⟨a, ha, by rw [Finset.inter_comm]; exact heq⟩, hcard⟩

/-- Witness for C9 at a concrete pair of stripped partitions. -/
theorem tane_claim_C9_witness :
    (PPattern.intersection [({0, 1} : Finset Nat), {2, 3}] [({0, 1, 2} : Finset Nat)]).toFinset =
    (PPattern.intersection [({0, 1, 2} : Finset Nat)] [({0, 1} : Finset Nat), {2, 3}]).toFinset :=
  tane_claim_C9 [{0, 1}, {2, 3}] [{0, 1, 2}]
    (by decide) (by decide) (by decide) (by decide)

/-- C6: run terminates for every finite input: it always returns a final
state (in the fuel model, the fuel len(T) + 2 is never exhausted and no
error occurs); with zero attributes level 1 is empty, the loop exits at
once and zero rules are produced; with zero rows (every per-attribute
stripped partition empty, so every attribute set a superkey) the run
also terminates cleanly. -/
theorem tane_claim_C6 :
    (∀ T : List Partn, okBool (run T) = true) ∧
    runRulesT [] = [] ∧
    (∀ n : Nat, okBool (run (List.replicate n [])) = true) := by
  have htot : ∀ T : List Partn, okBool (run T) = true := by
    intro T
    obtain ⟨st, h⟩ := tane_run_total T
    rw [h]
    rfl
  exact ⟨htot, rfl, fun n => htot (List.replicate n [])⟩

/-- C10: under the driver's schedule every cache access hits: the run
never raises (the KeyError branch of each dictionary access and the
reduce-over-empty TypeError are unreachable), so it always returns a
final state. -/
theorem tane_claim_C10 : ∀ T : List Partn, ∃ st, run T = Except.ok st :=
  tane_run_total

/-- C8: cache residency: the initial cache holds exactly levels 1 and 0,
and each driver iteration from an invariant state advances the level
counter by one and leaves the cache holding exactly levels curLevel and
curLevel - 1; the purge of that iteration removed precisely the map of
level curLevel - 2 (present before the iteration, absent after). -/
theorem tane_claim_C8 (T : List Partn) :
    SInv T.length (initState T) ((List.range T.length).map (fun i => [i])) ∧
    (∀ (n : Nat) (st : TState) (L : List Attrs), SInv n st L →
      ∃ st' L', taneStep T st L = Except.ok (st', L') ∧ SInv n st' L' ∧
        st'.curLevel = st.curLevel + 1 ∧
        (∀ k, (alook st'.cache k).isSome ↔ (k = st'.curLevel ∨ k = st'.curLevel - 1)) ∧
        (alook st.cache (st'.curLevel - 2)).isSome ∧
        alook st'.cache (st'.curLevel - 2) = none) := by
  refine ⟨SInv_init T, ?_⟩
  intro n st L hinv
  obtain ⟨st', L', hstep, hinv', hlvl, hbefore, hafter, _⟩ := taneStep_spec T st L hinv
  exact ⟨st', L', hstep, hinv', hlvl, hinv'.cacheDom, hbefore, hafter⟩

/-- Witness for C8 at a concrete input. -/
theorem tane_claim_C8_witness :
    ∃ st' L', taneStep (buildT [[0, 0], [1, 0]]) (initState (buildT [[0, 0], [1, 0]]))
        ((List.range (buildT [[0, 0], [1, 0]]).length).map (fun i => [i])) =
        Except.ok (st', L') ∧
      SInv (buildT [[0, 0], [1, 0]]).length st' L' ∧
      st'.curLevel = (initState (buildT [[0, 0], [1, 0]])).curLevel + 1 ∧
      (∀ k, (alook st'.cache k).isSome ↔ (k = st'.curLevel ∨ k = st'.curLevel - 1)) ∧
      (alook (initState (buildT [[0, 0], [1, 0]])).cache (st'.curLevel - 2)).isSome ∧
      alook st'.cache (st'.curLevel - 2) = none :=
  (tane_claim_C8 (buildT [[0, 0], [1, 0]])).2 (buildT [[0, 0], [1, 0]]).length
    (initState (buildT [[0, 0], [1, 0]]))
    ((List.range (buildT [[0, 0], [1, 0]]).length).map (fun i => [i]))
    (tane_claim_C8 (buildT [[0, 0], [1, 0]])).1


/-- C4, the code-bug evidence at the failing input
rows = [[0,0,0],[0,0,1],[1,1,2]]: at node X = (0,1) the rule ((0,), 1) is
recorded, yet afterwards Cplus[(0,1)] still contains attribute 2, which
is not a member of X: under Python 3 the line
map(self.Cplus[X].remove, filter(lambda i: i not in X, self.Cplus[X]))
builds a lazy iterator that is never consumed, so the restriction of
Cplus[X] to members of X that the spec describes never happens. -/
theorem tane_claim_C4 :
    ([0], 1) ∈ runRules [[0, 0, 0], [0, 0, 1], [1, 1, 2]] ∧
    alook (runCplus [[0, 0, 0], [0, 0, 1], [1, 1, 2]]) [0, 1] = some {2} ∧
    (2 : Nat) ∉ ([0, 1] : Attrs) := by decide

/-- C7: candidate generation: from a surviving level L of well-formed
candidates of size curLevel (each resident in the current-level cache
map m), generate_next_level succeeds and returns exactly the attribute
sets X of size curLevel + 1 all of whose immediate subsets are in L; the
new cache level holds a partition precisely for the returned candidates;
and each returned X is formed in increasing order (joinX) from two
distinct prefix-block partners A, B of L, with its registered partition
the stripped-product intersection of the two parents' cached
partitions. -/
theorem tane_claim_C7 {n : Nat} (st : TState) (L : List Attrs) (m : LvlMap)
    (hlen : ∀ X ∈ L, X.length = st.curLevel)
    (hwf : ∀ X ∈ L, wfKey n X)
    (hnd : L.Nodup)
    (hcur : 1 ≤ st.curLevel)
    (hm : alook st.cache st.curLevel = some (some m))
    (hmL : ∀ X ∈ L, (alook m X).isSome) :
    ∃ st' L' m', generateNextLevel st L = Except.ok (st', L') ∧
      alook st'.cache (st.curLevel + 1) = some (some m') ∧
      (∀ X, X ∈ L' ↔ (X.length = st.curLevel + 1 ∧ wfKey n X ∧
        ∀ i < X.length, X.eraseIdx i ∈ L)) ∧
      (∀ X, (alook m' X).isSome ↔ X ∈ L') ∧
      (∀ X ∈ L', ∃ A B pA pB, A ∈ L ∧ B ∈ L ∧ A ≠ B ∧
        A.dropLast = B.dropLast ∧ X = joinX A B ∧
        alook m A = some pA ∧ alook m B = some pB ∧
        (alook m' X = some (PPattern.intersection pA pB) ∨
         alook m' X = some (PPattern.intersection pB pA))) := by
  obtain ⟨st', L', m', h0, _, _, _, _, h5, h6, h6d, _, h8, h9⟩ :=
    generateNextLevel_spec (n := n) st L m hlen hwf hnd hcur hm hmL
  refine ⟨st', L', m', h0, h5, h9, fun X => ⟨h6d X, h6 X⟩, ?_⟩
  intro X hX
  obtain ⟨A, B, pA, pB, k1, k2, k3, k4, k5, _, k7, k8, k9⟩ := h8 X hX
  exact ⟨A, B, pA, pB, k1, k2, k3, k4, k5, k7, k8, k9⟩

/-- Witness for C7 at a concrete state and level. -/
theorem tane_claim_C7_witness :
    ∃ st' L' m', generateNextLevel (initState (buildT [[0, 0], [1, 0]])) [[0], [1]] =
        Except.ok (st', L') ∧
      alook st'.cache ((initState (buildT [[0, 0], [1, 0]])).curLevel + 1) =
        some (some m') ∧
      (∀ X, X ∈ L' ↔ (X.length = (initState (buildT [[0, 0], [1, 0]])).curLevel + 1 ∧
        wfKey 2 X ∧ ∀ i < X.length, X.eraseIdx i ∈ [[0], [1]])) ∧
      (∀ X, (alook m' X).isSome ↔ X ∈ L') ∧
      (∀ X ∈ L', ∃ A B pA pB, A ∈ [[0], [1]] ∧ B ∈ [[0], [1]] ∧ A ≠ B ∧
        A.dropLast = B.dropLast ∧ X = joinX A B ∧
        alook [(([0] : Attrs), ([] : Partn)), ([1], [({0, 1} : Finset Nat)])] A = some pA ∧
        alook [(([0] : Attrs), ([] : Partn)), ([1], [({0, 1} : Finset Nat)])] B = some pB ∧
        (alook m' X = some (PPattern.intersection pA pB) ∨
         alook m' X = some (PPattern.intersection pB pA))) :=
  tane_claim_C7 (n := 2) (initState (buildT [[0, 0], [1, 0]])) [[0], [1]]
    [(([0] : Attrs), ([] : Partn)), ([1], [({0, 1} : Finset Nat)])]
    (by decide) (by decide) (by decide) (by decide) (by decide) (by decide)

/-- C5: the closure tracker. (1) In the initial state, the base entry
Cplus[()] holds the full attribute universe. (2) get on a present key
returns the stored value, unchanged. (3) The first get of an absent key
computes the intersection, over every immediate subset of the key, of
the (recursively memoized) subset values, stores it, and returns the
stored value (on the absent empty key, reduce over the empty subset list
raises instead). (4) Reads never change any stored value. (5) Shrink
only: across a driver iteration, every stored entry remains present with
a subset of its previous value — a later read never returns an attribute
absent from an earlier post-computation value. -/
theorem tane_claim_C5 :
    (∀ T : List Partn, alook (initState T).cplus [] = some (Finset.range T.length)) ∧
    (∀ (cp : CplusMap) (X : Attrs) (v : Finset Nat), alook cp X = some v →
      rget cp X = Except.ok (v, cp)) ∧
    (∀ (cp : CplusMap) (X : Attrs), alook cp X = none →
      rget cp X = exbind (rgetList cp (immSubsets X)) (fun p =>
        exbind (reduceInter p.1) (fun v => Except.ok (v, aset p.2 X v)))) ∧
    (∀ (u : Finset Nat) (cp : CplusMap) (X : Attrs), alook cp [] = some u →
      ∃ v cp', rget cp X = Except.ok (v, cp') ∧ alook cp' X = some v ∧
        ∀ K w, alook cp K = some w → alook cp' K = some w) ∧
    (∀ (n : Nat) (T : List Partn) (st : TState) (L : List Attrs), SInv n st L →
      ∃ st' L', taneStep T st L = Except.ok (st', L') ∧
        ∀ K v, alook st.cplus K = some v →
          ∃ v', alook st'.cplus K = some v' ∧ v' ⊆ v) := by
  refine ⟨fun T => rfl, rget_hit, rget_miss_eq, ?_, ?_⟩
  · intro u cp X hcp
    obtain ⟨v, cp', h1, _, h3, h4⟩ := rget_ok (u := u) cp X hcp
    refine ⟨v, cp', h1, h4, ?_⟩
    intro K w hw
    rw [h3 K (by rw [hw]; rfl)]
    exact hw
  · intro n T st L hinv
    obtain ⟨st', L', hstep, _, _, _, _, hshrink⟩ := taneStep_spec T st L hinv
    exact ⟨st', L', hstep, hshrink⟩

/-- Witness for C5: each part applied at a concrete table or state. -/
theorem tane_claim_C5_witness :
    alook (initState (buildT [[0, 0], [1, 0]])).cplus [] =
      some (Finset.range (buildT [[0, 0], [1, 0]]).length) ∧
    rget [(([1] : Attrs), ({0} : Finset Nat))] [1] =
      Except.ok (({0} : Finset Nat), [(([1] : Attrs), ({0} : Finset Nat))]) ∧
    rget [(([] : Attrs), ({0, 1} : Finset Nat))] [0] =
      exbind (rgetList [(([] : Attrs), ({0, 1} : Finset Nat))] (immSubsets [0])) (fun p =>
        exbind (reduceInter p.1) (fun v => Except.ok (v, aset p.2 [0] v))) ∧
    (∃ v cp', rget [(([] : Attrs), ({0, 1} : Finset Nat))] [0, 1] = Except.ok (v, cp') ∧
      alook cp' [0, 1] = some v ∧
      ∀ K w, alook [(([] : Attrs), ({0, 1} : Finset Nat))] K = some w →
        alook cp' K = some w) ∧
    (∃ st' L', taneStep (buildT [[0, 0], [1, 0]]) (initState (buildT [[0, 0], [1, 0]]))
        ((List.range (buildT [[0, 0], [1, 0]]).length).map (fun i => [i])) =
        Except.ok (st', L') ∧
      ∀ K v, alook (initState (buildT [[0, 0], [1, 0]])).cplus K = some v →
        ∃ v', alook st'.cplus K = some v' ∧ v' ⊆ v) :=
  ⟨tane_claim_C5.1 (buildT [[0, 0], [1, 0]]),
   tane_claim_C5.2.1 [(([1] : Attrs), ({0} : Finset Nat))] [1] {0} (by decide),
   tane_claim_C5.2.2.1 [(([] : Attrs), ({0, 1} : Finset Nat))] [0] (by decide),
   tane_claim_C5.2.2.2.1 {0, 1} [(([] : Attrs), ({0, 1} : Finset Nat))] [0, 1] (by decide),
   tane_claim_C5.2.2.2.2 (buildT [[0, 0], [1, 0]]).length (buildT [[0, 0], [1, 0]])
     (initState (buildT [[0, 0], [1, 0]]))
     ((List.range (buildT [[0, 0], [1, 0]]).length).map (fun i => [i]))
     (SInv_init (buildT [[0, 0], [1, 0]]))⟩

/-- C1: soundness of the rule output — every rule (LHS, y) in the rules
list of a completed run (emitted by compute_dependencies or by the
superkey special case of prune) is a valid functional dependency of the
raw input relation: every pair of rows agreeing on all attributes of LHS
agrees on y. -/
theorem tane_claim_C1 (rows : List (List Nat)) (LHS : Attrs) (y : Nat)
    (h : (LHS, y) ∈ runRules rows) :
    ∀ r < rows.length, ∀ s < rows.length,
      agreeL rows LHS r s → cell rows r y = cell rows s y := by
  have hmem : (LHS, y) ∈ (runRules rows).toFinset := List.mem_toFinset.2 h
  rw [runRules_eq_minFDne] at hmem
  obtain ⟨S, y2, hS, hy, hSne, hyS, hfd, hmin, hpeq⟩ := mem_minFDne.1 hmem
  obtain ⟨hL, hy2⟩ : LHS = canonList S ∧ y = y2 :=
    ⟨(Prod.mk.inj hpeq).1, (Prod.mk.inj hpeq).2⟩
  subst hL
  subst hy2
  intro r hr s hs hag
  have hagF := (agreeL_iff_agreeF rows (canonList S) r s).1 hag
  rw [canonList_toFinset] at hagF
  exact hfd r hr s hs hagF

theorem tane_claim_C1_witness :
    (([0], 1) ∈ runRules [[0, 0], [1, 0]]) ∧
    (∀ r < 2, ∀ s < 2, agreeL [[0, 0], [1, 0]] [0] r s →
      cell [[0, 0], [1, 0]] r 1 = cell [[0, 0], [1, 0]] s 1) :=
  ⟨by decide, tane_claim_C1 [[0, 0], [1, 0]] [0] 1 (by decide)⟩

/-- C2 (amended): completeness on small instances holds with respect to
the brute-force set of minimal non-trivial FDs with NON-EMPTY left-hand
sides, minimality taken against non-empty proper subsets: under the
claim's size bounds (at most 6 attributes and at most 20 rows — in fact
unconditionally) the rule set of run() equals that set.  The claim's
unqualified reading, where the brute-force reference also admits the
empty left-hand side (constant columns), is refuted by
tane_claim_C2_counterexample. -/
theorem tane_claim_C2 (rows : List (List Nat))
    (hattrs : (rows.headD []).length ≤ 6) (hrows : rows.length ≤ 20) :
    (runRules rows).toFinset = minFDne rows (rows.headD []).length :=
  runRules_eq_minFDne rows

theorem tane_claim_C2_witness :
    ((([[0, 0], [1, 0]] : List (List Nat)).headD []).length ≤ 6) ∧
    (([[0, 0], [1, 0]] : List (List Nat)).length ≤ 20) ∧
    (runRules [[0, 0], [1, 0]]).toFinset = minFDne [[0, 0], [1, 0]] 2 :=
  ⟨by decide, by decide, tane_claim_C2 [[0, 0], [1, 0]] (by decide) (by decide)⟩

/-- C2 counterexample: on the 2-attribute, 2-row relation [[0,0],[1,0]]
(second column constant, well within the claim's size bounds) the rule
set of run() differs from the brute-force set of all minimal FDs when
the empty left-hand side is admitted: run() reports ([0], 1) although
the empty set already determines attribute 1. -/
theorem tane_claim_C2_counterexample :
    (runRules [[0, 0], [1, 0]]).toFinset ≠ minFDall [[0, 0], [1, 0]] 2 := by
  decide

/-- C3 (amended): minimality of the rule output holds against NON-EMPTY
proper subsets: for every rule (LHS, y) of a completed run, no non-empty
proper subset of LHS functionally determines y.  The claim's stronger
form including the empty subset (constant-column right-hand sides) is
refuted by tane_claim_C3_counterexample. -/
theorem tane_claim_C3 (rows : List (List Nat)) (LHS : Attrs) (y : Nat)
    (h : (LHS, y) ∈ runRules rows) :
    ∀ Z : Finset Nat, Z ⊂ LHS.toFinset → Z.Nonempty → ¬FDf rows Z y := by
  have hmem : (LHS, y) ∈ (runRules rows).toFinset := List.mem_toFinset.2 h
  rw [runRules_eq_minFDne] at hmem
  obtain ⟨S, y2, hS, hy, hSne, hyS, hfd, hmin, hpeq⟩ := mem_minFDne.1 hmem
  obtain ⟨hL, hy2⟩ : LHS = canonList S ∧ y = y2 :=
    ⟨(Prod.mk.inj hpeq).1, (Prod.mk.inj hpeq).2⟩
  subst hL
  subst hy2
  intro Z hZ hZne hZfd
  rw [canonList_toFinset] at hZ
  obtain ⟨x, hxS, hxZ⟩ := Finset.exists_of_ssubset hZ
  have hsub2 : Z ⊆ S.erase x := fun a ha =>
    Finset.mem_erase.2 ⟨fun he => hxZ (he ▸ ha), hZ.subset ha⟩
  have h2 : 2 ≤ S.card := by
    have h1 := Finset.card_pos.2 hZne
    have h3 := Finset.card_lt_card hZ
    omega
  exact hmin x hxS h2 (FDf_mono hsub2 hZfd)

theorem tane_claim_C3_witness :
    (([0], 1) ∈ runRules [[0, 0], [1, 0]]) ∧
    (∀ Z : Finset Nat, Z ⊂ ([0] : Attrs).toFinset → Z.Nonempty →
      ¬FDf [[0, 0], [1, 0]] Z 1) :=
  ⟨by decide, tane_claim_C3 [[0, 0], [1, 0]] [0] 1 (by decide)⟩

/-- C3 counterexample: the run on [[0,0],[1,0]] reports the rule
([0], 1), yet the empty set — a proper subset of the left-hand side —
already functionally determines attribute 1 (the column is constant), so
minimality fails once the empty subset is included. -/
theorem tane_claim_C3_counterexample :
    (([0], 1) ∈ runRules [[0, 0], [1, 0]]) ∧
    FDf [[0, 0], [1, 0]] (∅ : Finset Nat) 1 := by
  decide

end Tane
